import Mathlib

/-!
Verification development for the go-num 128-bit integer library.

The Go source is embedded shallowly: a `uint64` limb becomes a `Nat` together
with an explicit `% 2^64` wherever the Go operation can wrap, `U128`/`I128`
become two-limb structures, and every function is translated branch for branch
from the corresponding Go function.  Functions that can panic are wrapped in
`Option`-returning variants (`none` models the panic).
-/

set_option maxRecDepth 8000

/-- `2^32`, the digit base used by the long-division routines. -/
abbrev b32 : Nat := 4294967296

/-- `2^64`, the limb modulus. -/
abbrev b64 : Nat := 18446744073709551616

/-- `2^128`. -/
abbrev b128 : Nat := 340282366920938463463374607431768211456

theorem b32_eq : b32 = 2 ^ 32 := by decide

theorem b64_eq : b64 = 2 ^ 64 := by decide

theorem b128_eq : b128 = 2 ^ 128 := by decide

theorem b64_mul_b64 : b64 * b64 = b128 := by decide

/-- Go `x << n` on `uint64` (defined for every shift count; wraps mod `2^64`). -/
def shl64 (x n : Nat) : Nat := (x * 2 ^ n) % b64

/-- Go `x >> n` on `uint64` (defined for every shift count). -/
def shr64 (x n : Nat) : Nat := x / 2 ^ n

/-- Go `x - y` on `uint64` for `x y < 2^64`: wraps mod `2^64`. -/
def sub64 (x y : Nat) : Nat := (x + b64 - y) % b64

/-- Go `^x` (bitwise complement) on `uint64` for `x < 2^64`. -/
def not64 (x : Nat) : Nat := b64 - 1 - x

/-- The `signBit` constant from the Go source: `0x8000000000000000`. -/
abbrev signBit : Nat := 9223372036854775808

/-- `U128` from `u128.go`: two unsigned 64-bit limbs `hi`, `lo`. -/
structure U128 where
  hi : Nat
  lo : Nat
deriving DecidableEq, Repr

/-- Both limbs are in `uint64` range (automatic in Go, an invariant here). -/
def U128.norm (u : U128) : Prop := u.hi < b64 ∧ u.lo < b64

instance (u : U128) : Decidable u.norm := by
  unfold U128.norm; infer_instance

/-- The value represented by a `U128`: `hi*2^64 + lo`. -/
def U128.toNat (u : U128) : Nat := u.hi * b64 + u.lo

/-- `zeroU128` from `consts.go`. -/
def zeroU128 : U128 := ⟨0, 0⟩

/-- `MaxU128` from `consts.go`. -/
def MaxU128 : U128 := ⟨18446744073709551615, 18446744073709551615⟩

theorem U128.toNat_lt (u : U128) (h : u.norm) : u.toNat < b128 := by
  obtain ⟨h1, h2⟩ := h
  simp only [U128.toNat, b64, b128] at *
  omega

theorem U128.eq_of_toNat_eq {u v : U128} (hu : u.norm) (hv : v.norm)
    (h : u.toNat = v.toNat) : u = v := by
  obtain ⟨hu1, hu2⟩ := hu
  obtain ⟨hv1, hv2⟩ := hv
  obtain ⟨a, b⟩ := u
  obtain ⟨c, d⟩ := v
  simp only [U128.toNat, b64] at *
  have : a = c ∧ b = d := by omega
  simp [this.1, this.2]

/-- `U128.Add` from `u128.go`. -/
def U128.Add (u n : U128) : U128 :=
  let vlo := (u.lo + n.lo) % b64
  let vhi0 := (u.hi + n.hi) % b64
  let vhi := if u.lo > vlo then (vhi0 + 1) % b64 else vhi0
  ⟨vhi, vlo⟩

/-- `U128.Sub` from `u128.go`. -/
def U128.Sub (u n : U128) : U128 :=
  let vlo := sub64 u.lo n.lo
  let vhi0 := sub64 u.hi n.hi
  let vhi := if u.lo < vlo then sub64 vhi0 1 else vhi0
  ⟨vhi, vlo⟩

/-- `U128.Inc` from `u128.go`. -/
def U128.Inc (u : U128) : U128 :=
  let vlo := (u.lo + 1) % b64
  let vhi := if u.lo > vlo then (u.hi + 1) % b64 else u.hi
  ⟨vhi, vlo⟩

/-- `U128.Dec` from `u128.go`. -/
def U128.Dec (u : U128) : U128 :=
  let vlo := sub64 u.lo 1
  let vhi := if u.lo < vlo then sub64 u.hi 1 else u.hi
  ⟨vhi, vlo⟩

/-- `U128.Cmp` from `u128.go`. -/
def U128.Cmp (u n : U128) : Int :=
  if u.hi > n.hi then 1
  else if u.hi < n.hi then -1
  else if u.lo > n.lo then 1
  else if u.lo < n.lo then -1
  else 0

/-- `U128.And` from `u128.go` (limb-wise bitwise and). -/
def U128.And (u v : U128) : U128 := ⟨u.hi &&& v.hi, u.lo &&& v.lo⟩

/-- `U128.Lsh` from `u128.go` (branches in source order). -/
def U128.Lsh (u : U128) (n : Nat) : U128 :=
  if n = 0 then u
  else if n > 64 then ⟨shl64 u.lo (n - 64), 0⟩
  else if n < 64 then ⟨(shl64 u.hi n) ||| (shr64 u.lo (64 - n)), shl64 u.lo n⟩
  else ⟨u.lo, 0⟩

/-- `U128.Rsh` from `u128.go` (branches in source order). -/
def U128.Rsh (u : U128) (n : Nat) : U128 :=
  if n = 0 then u
  else if n > 64 then ⟨0, shr64 u.hi (n - 64)⟩
  else if n < 64 then ⟨shr64 u.hi n, (shr64 u.lo n) ||| (shl64 u.hi (64 - n))⟩
  else ⟨0, u.hi⟩

/-- `U128.Mul` from `u128.go` (Hacker's Delight truncating 128x128 multiply). -/
def U128.Mul (u n : U128) : U128 :=
  let hl := ((u.hi * n.lo) % b64 + (u.lo * n.hi) % b64) % b64
  let destLo := (u.lo * n.lo) % b64
  let x0 := u.lo % b32
  let x1 := u.lo / b32
  let y0 := n.lo % b32
  let y1 := n.lo / b32
  let t := ((x1 * y0) % b64 + ((x0 * y0) % b64) / b32) % b64
  let w1 := (t % b32 + (x0 * y1) % b64) % b64
  let destHi := ((((x1 * y1) % b64 + t / b32) % b64 + w1 / b32) % b64 + hl) % b64
  ⟨destHi, destLo⟩

theorem sub64_eq (x y : Nat) (hx : x < b64) (hy : y ≤ x) : sub64 x y = x - y := by
  simp only [sub64, b64] at *
  omega

theorem sub64_lt (x y : Nat) : sub64 x y < b64 := by
  simp only [sub64, b64] at *
  omega

theorem shl64_eq (x n : Nat) (h : x * 2 ^ n < b64) : shl64 x n = x * 2 ^ n := by
  simp only [shl64]
  exact Nat.mod_eq_of_lt h

theorem shl64_lt (x n : Nat) : shl64 x n < b64 := by
  simp only [shl64, b64]
  omega

theorem shr64_lt (x n : Nat) (h : x < b64) : shr64 x n < b64 := by
  simp only [shr64]
  exact Nat.lt_of_le_of_lt (Nat.div_le_self _ _) h

/-- `U128.Add` computes the sum mod `2^128`. -/
theorem U128.Add_toNat (u n : U128) (hu : u.norm) (hn : n.norm) :
    (u.Add n).toNat = (u.toNat + n.toNat) % b128 ∧ (u.Add n).norm := by
  obtain ⟨h1, h2⟩ := hu
  obtain ⟨h3, h4⟩ := hn
  simp only [U128.Add, U128.toNat, U128.norm, b64, b128] at *
  split <;> omega

/-- `U128.Sub` computes the difference mod `2^128`. -/
theorem U128.Sub_toNat (u n : U128) (hu : u.norm) (hn : n.norm) :
    (u.Sub n).toNat = (u.toNat + b128 - n.toNat) % b128 ∧ (u.Sub n).norm := by
  obtain ⟨h1, h2⟩ := hu
  obtain ⟨h3, h4⟩ := hn
  simp only [U128.Sub, sub64, U128.toNat, U128.norm, b64, b128] at *
  split <;> omega

theorem U128.Sub_toNat_of_le (u n : U128) (hu : u.norm) (hn : n.norm)
    (h : n.toNat ≤ u.toNat) : (u.Sub n).toNat = u.toNat - n.toNat := by
  have h2 := U128.Sub_toNat u n hu hn
  have h3 := U128.toNat_lt u hu
  have h4 := U128.toNat_lt n hn
  rw [h2.1]
  simp only [b128] at *
  omega

theorem U128.Inc_toNat (u : U128) (hu : u.norm) :
    (u.Inc).toNat = (u.toNat + 1) % b128 ∧ (u.Inc).norm := by
  obtain ⟨h1, h2⟩ := hu
  simp only [U128.Inc, U128.toNat, U128.norm, b64, b128] at *
  split <;> omega

theorem U128.Dec_toNat (u : U128) (hu : u.norm) :
    (u.Dec).toNat = (u.toNat + b128 - 1) % b128 ∧ (u.Dec).norm := by
  obtain ⟨h1, h2⟩ := hu
  simp only [U128.Dec, sub64, U128.toNat, U128.norm, b64, b128] at *
  split <;> omega

theorem U128.Cmp_eq_zero (u n : U128) :
    u.Cmp n = 0 ↔ (u.hi = n.hi ∧ u.lo = n.lo) := by
  simp only [U128.Cmp]
  split_ifs <;> first
  | omega
  | (simp only [false_iff, true_iff]; omega)

theorem U128.Cmp_lt (u n : U128) (hu : u.norm) (hn : n.norm) :
    u.Cmp n < 0 ↔ u.toNat < n.toNat := by
  obtain ⟨h1, h2⟩ := hu
  obtain ⟨h3, h4⟩ := hn
  simp only [U128.Cmp, U128.toNat, b64] at *
  split_ifs <;> omega

theorem U128.Cmp_ge (u n : U128) (hu : u.norm) (hn : n.norm) :
    0 ≤ u.Cmp n ↔ n.toNat ≤ u.toNat := by
  have h := U128.Cmp_lt u n hu hn
  constructor
  · intro h2
    by_contra h3
    have : u.toNat < n.toNat := by omega
    rw [← h] at this
    omega
  · intro h2
    by_contra h3
    have : u.Cmp n < 0 := by omega
    rw [h] at this
    omega

/-! ### Generic arithmetic helpers for limb manipulation -/

theorem mod_mul_split (x y K M : Nat) (hM : 0 < M) (hy : y < K) :
    (x * K + y) % (M * K) = (x % M) * K + y := by
  conv_lhs => rw [← Nat.div_add_mod x M]
  have e1 : (M * (x / M) + x % M) * K + y = (M * K) * (x / M) + (x % M * K + y) := by ring
  rw [e1, Nat.mul_add_mod]
  have e2 : x % M * K + y < M * K := by
    have h3 : x % M < M := Nat.mod_lt _ hM
    calc x % M * K + y < x % M * K + K := by omega
    _ = (x % M + 1) * K := by ring
    _ ≤ M * K := Nat.mul_le_mul_right _ (by omega)
  exact Nat.mod_eq_of_lt e2

theorem div_mul_split (A B K k : Nat) (hk : 0 < k) (hd : k ∣ K) :
    (A * K + B) / k = A * (K / k) + B / k := by
  obtain ⟨c, rfl⟩ := hd
  rw [Nat.mul_comm k c]
  have e1 : A * (c * k) + B = B + k * (A * c) := by ring
  rw [e1, Nat.add_mul_div_left _ _ hk, Nat.mul_div_cancel _ hk]
  omega

/-- Disjoint-range bitwise or is addition: `a * 2^n ||| b = a * 2^n + b` for `b < 2^n`. -/
theorem lor_mul_pow (a b n : Nat) (h : b < 2 ^ n) :
    (a * 2 ^ n) ||| b = a * 2 ^ n + b := by
  apply Nat.eq_of_testBit_eq
  intro j
  have e1 : a * 2 ^ n + b = 2 ^ n * a + b := by ring
  have e2 : a * 2 ^ n = 2 ^ n * a + 0 := by ring
  rw [Nat.testBit_or, e1, e2, Nat.testBit_mul_pow_two_add a h j,
    Nat.testBit_mul_pow_two_add a (Nat.pos_pow_of_pos n (by omega)) j]
  split
  · rename_i hj
    simp
  · rename_i hj
    have hbj : b.testBit j = false :=
      Nat.testBit_lt_two_pow
        (lt_of_lt_of_le h (Nat.pow_le_pow_right (by omega) (by omega)))
    simp [hbj]

theorem lor_mul_pow_comm (a b n : Nat) (h : b < 2 ^ n) :
    b ||| (a * 2 ^ n) = a * 2 ^ n + b := by
  rw [Nat.lor_comm]
  exact lor_mul_pow a b n h

/-- testBit of a two-limb value. -/
theorem testBit_limbs (hi lo : Nat) (h : lo < b64) (j : Nat) :
    (hi * b64 + lo).testBit j = if j < 64 then lo.testBit j else hi.testBit (j - 64) := by
  have e1 : hi * b64 + lo = 2 ^ 64 * hi + lo := by rw [b64_eq]; ring
  rw [e1]
  exact Nat.testBit_mul_pow_two_add hi (by rw [← b64_eq]; exact h) j

/-- Limb-wise `&&&` computes `&&&` of the two-limb values. -/
theorem and_limbs (a b c d : Nat) (hb : b < b64) (hd : d < b64) :
    (a * b64 + b) &&& (c * b64 + d) = (a &&& c) * b64 + (b &&& d) := by
  have hbd : b &&& d < b64 := by
    rw [b64_eq] at hd ⊢
    exact Nat.and_lt_two_pow b hd
  apply Nat.eq_of_testBit_eq
  intro j
  rw [Nat.testBit_and, testBit_limbs a b hb, testBit_limbs c d hd,
    testBit_limbs (a &&& c) (b &&& d) hbd]
  split
  · rw [Nat.testBit_and]
  · rw [Nat.testBit_and]

/-! ### Bit-length and trailing-zero primitives (Go `math/bits`) -/

/-- Fuel-bounded bit length; `sizeAux 64 x` is Go `bits.Len64(x)` for `x < 2^64`. -/
def sizeAux : Nat → Nat → Nat
  | 0, _ => 0
  | f + 1, x => if x = 0 then 0 else sizeAux f (x / 2) + 1

theorem sizeAux_zero (f : Nat) : sizeAux f 0 = 0 := by
  cases f <;> rfl

theorem sizeAux_spec : ∀ f x, x < 2 ^ f → x ≠ 0 →
    2 ^ (sizeAux f x - 1) ≤ x ∧ x < 2 ^ sizeAux f x ∧ 1 ≤ sizeAux f x ∧ sizeAux f x ≤ f := by
  intro f
  induction f with
  | zero => intro x hx hne; omega
  | succ f ih =>
    intro x hx hne
    simp only [sizeAux, hne, if_false]
    by_cases h2 : x / 2 = 0
    · have hx1 : x = 1 := by omega
      subst hx1
      rw [h2, sizeAux_zero]
      simp
    · have hlt : x / 2 < 2 ^ f := by
        rw [pow_succ] at hx
        omega
      obtain ⟨e1, e2, e3, e4⟩ := ih (x / 2) hlt h2
      set s := sizeAux f (x / 2) with hs
      have p1 : 2 ^ s = 2 * 2 ^ (s - 1) := by
        conv_lhs => rw [show s = (s - 1) + 1 by omega]
        rw [pow_succ]
        ring
      have p2 : 2 ^ (s + 1) = 2 * 2 ^ s := by rw [pow_succ]; ring
      refine ⟨?_, ?_, by omega, by omega⟩
      · simp only [Nat.add_sub_cancel]
        omega
      · omega

/-- Go `bits.LeadingZeros64` (= `64 - bits.Len64`). -/
def leadingZeros64 (x : Nat) : Nat := 64 - sizeAux 64 x

theorem leadingZeros64_zero : leadingZeros64 0 = 64 := by decide

theorem leadingZeros64_spec (x : Nat) (hx : x < b64) (hne : x ≠ 0) :
    2 ^ (63 - leadingZeros64 x) ≤ x ∧ x < 2 ^ (64 - leadingZeros64 x) ∧
      leadingZeros64 x ≤ 63 := by
  have h := sizeAux_spec 64 x (by rw [← b64_eq]; exact hx) hne
  obtain ⟨e1, e2, e3, e4⟩ := h
  unfold leadingZeros64
  refine ⟨?_, ?_, by omega⟩
  · have : 63 - (64 - sizeAux 64 x) = sizeAux 64 x - 1 := by omega
    rw [this]
    exact e1
  · have : 64 - (64 - sizeAux 64 x) = sizeAux 64 x := by omega
    rw [this]
    exact e2

/-- Fuel-bounded count of trailing zeros; `ctzAux 64 x` is Go `bits.TrailingZeros64(x)`
for `0 < x < 2^64` (and yields Go's value 64 at `x = 0`). -/
def ctzAux : Nat → Nat → Nat
  | 0, _ => 0
  | f + 1, x => if x % 2 = 1 then 0 else ctzAux f (x / 2) + 1

theorem ctzAux_spec : ∀ f x, x < 2 ^ f → x ≠ 0 →
    x % 2 ^ ctzAux f x = 0 ∧ (x / 2 ^ ctzAux f x) % 2 = 1 ∧ 2 ^ ctzAux f x ≤ x := by
  intro f
  induction f with
  | zero => intro x hx hne; omega
  | succ f ih =>
    intro x hx hne
    simp only [ctzAux]
    by_cases h2 : x % 2 = 1
    · simp [h2]
      omega
    · simp only [h2, if_false]
      have hev : x % 2 = 0 := by omega
      have hne2 : x / 2 ≠ 0 := by omega
      have hlt : x / 2 < 2 ^ f := by
        rw [pow_succ] at hx
        omega
      obtain ⟨e1, e2, e3⟩ := ih (x / 2) hlt hne2
      set t := ctzAux f (x / 2) with ht
      have p2 : 2 ^ (t + 1) = 2 * 2 ^ t := by rw [pow_succ]; ring
      have hx2 : x = 2 * (x / 2) := by omega
      refine ⟨?_, ?_, by omega⟩
      · rw [p2, hx2, Nat.mul_mod_mul_left]
        omega
      · rw [p2, hx2]
        rw [Nat.mul_div_mul_left _ _ (by omega : 0 < 2)]
        exact e2

/-- Go `bits.TrailingZeros64`. -/
def trailingZeros64 (x : Nat) : Nat := ctzAux 64 x

theorem trailingZeros64_spec (x : Nat) (hx : x < b64) (hne : x ≠ 0) :
    x % 2 ^ trailingZeros64 x = 0 ∧ (x / 2 ^ trailingZeros64 x) % 2 = 1 ∧
      trailingZeros64 x ≤ 63 := by
  have h := ctzAux_spec 64 x (by rw [← b64_eq]; exact hx) hne
  obtain ⟨e1, e2, e3⟩ := h
  unfold trailingZeros64
  refine ⟨e1, e2, ?_⟩
  by_contra hc
  have h64 : 64 ≤ ctzAux 64 x := by omega
  have : (2 : Nat) ^ 64 ≤ 2 ^ ctzAux 64 x := Nat.pow_le_pow_right (by omega) h64
  rw [b64_eq] at hx
  omega

/-- `U128.LeadingZeros` from `u128.go`. -/
def U128.LeadingZeros (u : U128) : Nat :=
  if u.hi = 0 then leadingZeros64 u.lo + 64 else leadingZeros64 u.hi

/-- `U128.TrailingZeros` from `u128.go`. -/
def U128.TrailingZeros (u : U128) : Nat :=
  if u.lo = 0 then trailingZeros64 u.hi + 64 else trailingZeros64 u.lo

theorem U128.LeadingZeros_spec (u : U128) (hu : u.norm) (hne : u.toNat ≠ 0) :
    2 ^ (127 - u.LeadingZeros) ≤ u.toNat ∧ u.toNat < 2 ^ (128 - u.LeadingZeros) ∧
      u.LeadingZeros ≤ 127 := by
  obtain ⟨h1, h2⟩ := hu
  unfold U128.LeadingZeros
  by_cases hh : u.hi = 0
  · have hlo : u.lo ≠ 0 := by
      simp only [U128.toNat, hh] at hne
      omega
    obtain ⟨e1, e2, e3⟩ := leadingZeros64_spec u.lo h2 hlo
    simp only [hh, if_true, U128.toNat, Nat.zero_mul, Nat.zero_add]
    refine ⟨?_, ?_, by omega⟩
    · have : 127 - (leadingZeros64 u.lo + 64) = 63 - leadingZeros64 u.lo := by omega
      rw [this]
      exact e1
    · have : 128 - (leadingZeros64 u.lo + 64) = 64 - leadingZeros64 u.lo := by omega
      rw [this]
      exact e2
  · obtain ⟨e1, e2, e3⟩ := leadingZeros64_spec u.hi h1 hh
    simp only [hh, if_false, U128.toNat]
    set z := leadingZeros64 u.hi with hz
    have p1 : 2 ^ (127 - z) = 2 ^ (63 - z) * b64 := by
      rw [b64_eq, ← pow_add]
      congr 1
      omega
    have p2 : 2 ^ (128 - z) = 2 ^ (64 - z) * b64 := by
      rw [b64_eq, ← pow_add]
      congr 1
      omega
    refine ⟨?_, ?_, by omega⟩
    · rw [p1]
      have h5 : 2 ^ (63 - z) * b64 ≤ u.hi * b64 := Nat.mul_le_mul_right _ e1
      exact le_trans h5 (Nat.le_add_right _ _)
    · rw [p2]
      have e4 : u.hi + 1 ≤ 2 ^ (64 - z) := e2
      have h5 : (u.hi + 1) * b64 ≤ 2 ^ (64 - z) * b64 := Nat.mul_le_mul_right _ e4
      have h6 : u.hi * b64 + u.lo < (u.hi + 1) * b64 := by
        have h7 : (u.hi + 1) * b64 = u.hi * b64 + b64 := by ring
        rw [h7]
        exact Nat.add_lt_add_left h2 _
      exact lt_of_lt_of_le h6 h5

theorem U128.TrailingZeros_spec (u : U128) (hu : u.norm) (hne : u.toNat ≠ 0) :
    u.toNat % 2 ^ u.TrailingZeros = 0 ∧ (u.toNat / 2 ^ u.TrailingZeros) % 2 = 1 ∧
      u.TrailingZeros ≤ 127 := by
  obtain ⟨h1, h2⟩ := hu
  unfold U128.TrailingZeros
  by_cases hl : u.lo = 0
  · have hhi : u.hi ≠ 0 := by
      intro h0
      apply hne
      simp [U128.toNat, hl, h0]
    obtain ⟨e1, e2, e3⟩ := trailingZeros64_spec u.hi h1 hhi
    simp only [hl, U128.toNat, eq_self_iff_true, if_true, Nat.add_zero]
    set t := trailingZeros64 u.hi with ht
    have hpos : 0 < (2 : Nat) ^ t := Nat.pos_pow_of_pos _ (by omega)
    obtain ⟨k, hk⟩ : 2 ^ t ∣ u.hi := Nat.dvd_of_mod_eq_zero e1
    have p1 : 2 ^ t * k * b64 = k * 2 ^ (t + 64) := by
      rw [b64_eq, pow_add]
      ring
    have p2 : 0 < (2 : Nat) ^ (t + 64) := Nat.pos_pow_of_pos _ (by omega)
    refine ⟨?_, ?_, by omega⟩
    · rw [hk, p1]
      exact Nat.mul_mod_left _ _
    · rw [hk, p1, Nat.mul_div_cancel _ p2]
      rw [hk, Nat.mul_div_cancel_left _ hpos] at e2
      exact e2
  · obtain ⟨e1, e2, e3⟩ := trailingZeros64_spec u.lo h2 hl
    simp only [hl, if_false, U128.toNat]
    set t := trailingZeros64 u.lo with ht
    have hdvd : 2 ^ t ∣ b64 := by
      rw [b64_eq]
      exact pow_dvd_pow 2 (by omega)
    have hpos : 0 < (2 : Nat) ^ t := Nat.pos_pow_of_pos _ (by omega)
    obtain ⟨c, hc⟩ := hdvd
    have hceq : c = 2 ^ (64 - t) := by
      apply Nat.eq_of_mul_eq_mul_left hpos
      rw [← hc, b64_eq, ← pow_add]
      congr 1
      omega
    have hc2 : c = 2 * 2 ^ (63 - t) := by
      rw [hceq, ← pow_succ']
      congr 1
      omega
    refine ⟨?_, ?_, by omega⟩
    · rw [hc]
      have e4 : u.hi * (2 ^ t * c) + u.lo = 2 ^ t * (u.hi * c) + u.lo := by ring
      rw [e4, Nat.mul_add_mod]
      exact e1
    · rw [div_mul_split u.hi u.lo b64 (2 ^ t) hpos ⟨c, hc⟩]
      have e5 : b64 / 2 ^ t = c := by
        rw [hc]
        exact Nat.mul_div_cancel_left _ hpos
      rw [e5, hc2]
      have e6 : u.hi * (2 * 2 ^ (63 - t)) + u.lo / 2 ^ t
          = 2 * (u.hi * 2 ^ (63 - t)) + u.lo / 2 ^ t := by ring
      rw [e6]
      omega

/-! ### Value semantics of the shift and multiply operations -/

theorem mod_mul_align (x : Nat) : (x * b64) % b128 = (x % b64) * b64 := by
  have h := mod_mul_split x 0 b64 b64 (by simp [b64]) (by simp [b64])
  rw [b64_mul_b64] at h
  simpa using h

theorem U128.Lsh_toNat (u : U128) (n : Nat) (hu : u.norm) :
    (u.Lsh n).toNat = u.toNat * 2 ^ n % b128 ∧ (u.Lsh n).norm := by
  obtain ⟨h1, h2⟩ := hu
  unfold U128.Lsh
  split_ifs with c0 c1 c2
  · subst c0
    simp only [pow_zero, Nat.mul_one]
    rw [Nat.mod_eq_of_lt (U128.toNat_lt u ⟨h1, h2⟩)]
    exact ⟨rfl, h1, h2⟩
  · have key : b64 * 2 ^ n = b128 * 2 ^ (n - 64) := by
      rw [b64_eq, b128_eq, ← pow_add, ← pow_add]
      congr 1
      omega
    constructor
    · show shl64 u.lo (n - 64) * b64 + 0 = _
      rw [Nat.add_zero]
      simp only [shl64]
      rw [← mod_mul_align]
      have e1 : u.lo * 2 ^ (n - 64) * b64 = u.lo * 2 ^ n := by
        rw [Nat.mul_assoc, b64_eq, ← pow_add, show n - 64 + 64 = n by omega]
      rw [e1]
      have e2 : u.toNat * 2 ^ n = u.lo * 2 ^ n + u.hi * 2 ^ (n - 64) * b128 := by
        calc u.toNat * 2 ^ n = u.hi * (b64 * 2 ^ n) + u.lo * 2 ^ n := by
              simp only [U128.toNat]; ring
        _ = u.hi * (b128 * 2 ^ (n - 64)) + u.lo * 2 ^ n := by rw [key]
        _ = u.lo * 2 ^ n + u.hi * 2 ^ (n - 64) * b128 := by ring
      rw [e2, Nat.add_mul_mod_self_right]
    · exact ⟨shl64_lt _ _, by simp [b64]⟩
  · -- 0 < n < 64
    have hn1 : 0 < n := by omega
    have hsplit : (2 : Nat) ^ (64 - n) * 2 ^ n = b64 := by
      rw [b64_eq, ← pow_add]
      congr 1
      omega
    have hi_eq : shl64 u.hi n = u.hi % 2 ^ (64 - n) * 2 ^ n := by
      simp only [shl64]
      have h := mod_mul_split u.hi 0 (2 ^ n) (2 ^ (64 - n))
        (Nat.pos_pow_of_pos _ (by omega)) (Nat.pos_pow_of_pos _ (by omega))
      rw [hsplit] at h
      simpa using h
    have lo_div_lt : shr64 u.lo (64 - n) < 2 ^ n := by
      simp only [shr64]
      rw [Nat.div_lt_iff_lt_mul (Nat.pos_pow_of_pos _ (by omega))]
      rw [Nat.mul_comm, hsplit]
      exact h2
    have lor_eq : (shl64 u.hi n) ||| (shr64 u.lo (64 - n))
        = u.hi % 2 ^ (64 - n) * 2 ^ n + shr64 u.lo (64 - n) := by
      rw [hi_eq]
      exact lor_mul_pow _ _ _ lo_div_lt
    have lo_eq : shl64 u.lo n = u.lo % 2 ^ (64 - n) * 2 ^ n := by
      simp only [shl64]
      have h := mod_mul_split u.lo 0 (2 ^ n) (2 ^ (64 - n))
        (Nat.pos_pow_of_pos _ (by omega)) (Nat.pos_pow_of_pos _ (by omega))
      rw [hsplit] at h
      simpa using h
    have expand : u.toNat * 2 ^ n
        = (u.hi * 2 ^ n + u.lo / 2 ^ (64 - n)) * b64 + u.lo % 2 ^ (64 - n) * 2 ^ n := by
      conv_lhs => rw [U128.toNat, show u.lo = 2 ^ (64 - n) * (u.lo / 2 ^ (64 - n))
        + u.lo % 2 ^ (64 - n) from (Nat.div_add_mod _ _).symm]
      rw [← hsplit]
      ring
    have hy_lt : u.lo % 2 ^ (64 - n) * 2 ^ n < b64 := by
      rw [← hsplit]
      apply Nat.mul_lt_mul_of_lt_of_le
      · exact Nat.mod_lt _ (Nat.pos_pow_of_pos _ (by omega))
      · exact Nat.le_refl _
      · exact Nat.pos_pow_of_pos _ (by omega)
    constructor
    · show ((shl64 u.hi n) ||| (shr64 u.lo (64 - n))) * b64 + shl64 u.lo n = _
      rw [lor_eq, lo_eq, expand, ← b64_mul_b64,
        mod_mul_split _ _ b64 b64 (by simp [b64]) hy_lt]
      have inner : (u.hi * 2 ^ n + u.lo / 2 ^ (64 - n)) % b64
          = u.hi % 2 ^ (64 - n) * 2 ^ n + u.lo / 2 ^ (64 - n) := by
        rw [← hsplit]
        exact mod_mul_split u.hi (u.lo / 2 ^ (64 - n)) (2 ^ n) (2 ^ (64 - n))
          (Nat.pos_pow_of_pos _ (by omega)) lo_div_lt
      rw [inner]
      simp only [shr64]
    · constructor
      · rw [lor_eq]
        have e3 : u.hi % 2 ^ (64 - n) * 2 ^ n + shr64 u.lo (64 - n)
            = (u.hi * 2 ^ n + u.lo / 2 ^ (64 - n)) % b64 := by
          rw [← hsplit]
          exact (mod_mul_split u.hi (u.lo / 2 ^ (64 - n)) (2 ^ n) (2 ^ (64 - n))
            (Nat.pos_pow_of_pos _ (by omega)) lo_div_lt).symm
        rw [e3]
        exact Nat.mod_lt _ (by simp [b64])
      · exact shl64_lt _ _
  · -- n = 64
    have hn : n = 64 := by omega
    subst hn
    constructor
    · show u.lo * b64 + 0 = _
      have e1 : u.toNat * 2 ^ 64 = u.lo * b64 + u.hi * b128 := by
        rw [U128.toNat, ← b64_eq, ← b64_mul_b64]
        ring
      rw [e1, Nat.add_mul_mod_self_right, Nat.add_zero, Nat.mod_eq_of_lt]
      calc u.lo * b64 < b64 * b64 := by
            apply Nat.mul_lt_mul_of_lt_of_le h2 (Nat.le_refl _) (by simp [b64])
      _ = b128 := b64_mul_b64
    · exact ⟨h2, by simp [b64]⟩

theorem U128.Rsh_toNat (u : U128) (n : Nat) (hu : u.norm) :
    (u.Rsh n).toNat = u.toNat / 2 ^ n ∧ (u.Rsh n).norm := by
  obtain ⟨h1, h2⟩ := hu
  unfold U128.Rsh
  split_ifs with c0 c1 c2
  · subst c0
    refine ⟨?_, h1, h2⟩
    simp [pow_zero]
  · constructor
    · show 0 * b64 + shr64 u.hi (n - 64) = _
      rw [Nat.zero_mul, Nat.zero_add]
      simp only [shr64, U128.toNat]
      have e1 : (2 : Nat) ^ n = b64 * 2 ^ (n - 64) := by
        rw [b64_eq, ← pow_add]
        congr 1
        omega
      rw [e1, ← Nat.div_div_eq_div_mul]
      congr 1
      rw [div_mul_split u.hi u.lo b64 b64 (by simp [b64]) dvd_rfl,
        Nat.div_self (show 0 < b64 by simp [b64]), Nat.mul_one,
        Nat.div_eq_of_lt h2, Nat.add_zero]
    · exact ⟨by simp [b64], shr64_lt _ _ h1⟩
  · -- 0 < n < 64
    have hsplit : (2 : Nat) ^ n * 2 ^ (64 - n) = b64 := by
      rw [b64_eq, ← pow_add]
      congr 1
      omega
    have hi_shl : shl64 u.hi (64 - n) = u.hi % 2 ^ n * 2 ^ (64 - n) := by
      simp only [shl64]
      have h := mod_mul_split u.hi 0 (2 ^ (64 - n)) (2 ^ n)
        (Nat.pos_pow_of_pos _ (by omega)) (Nat.pos_pow_of_pos _ (by omega))
      rw [hsplit] at h
      simpa using h
    have lo_div_lt : shr64 u.lo n < 2 ^ (64 - n) := by
      simp only [shr64]
      rw [Nat.div_lt_iff_lt_mul (Nat.pos_pow_of_pos _ (by omega))]
      rw [Nat.mul_comm, hsplit]
      exact h2
    have lor_eq : (shr64 u.lo n) ||| (shl64 u.hi (64 - n))
        = u.hi % 2 ^ n * 2 ^ (64 - n) + shr64 u.lo n := by
      rw [hi_shl]
      exact lor_mul_pow_comm _ _ _ lo_div_lt
    have expand : u.toNat
        = ((u.hi / 2 ^ n) * b64 + u.hi % 2 ^ n * 2 ^ (64 - n)) * 2 ^ n + u.lo := by
      conv_lhs => rw [U128.toNat, show u.hi = 2 ^ n * (u.hi / 2 ^ n) + u.hi % 2 ^ n from
        (Nat.div_add_mod _ _).symm]
      rw [← hsplit]
      ring
    constructor
    · show ((shr64 u.hi n)) * b64 + ((shr64 u.lo n) ||| (shl64 u.hi (64 - n))) = _
      rw [lor_eq, expand]
      have e2 : (((u.hi / 2 ^ n) * b64 + u.hi % 2 ^ n * 2 ^ (64 - n)) * 2 ^ n + u.lo) / 2 ^ n
          = (u.hi / 2 ^ n) * b64 + u.hi % 2 ^ n * 2 ^ (64 - n) + u.lo / 2 ^ n := by
        have e3 : ((u.hi / 2 ^ n) * b64 + u.hi % 2 ^ n * 2 ^ (64 - n)) * 2 ^ n + u.lo
            = u.lo + 2 ^ n * ((u.hi / 2 ^ n) * b64 + u.hi % 2 ^ n * 2 ^ (64 - n)) := by
          ring
        rw [e3, Nat.add_mul_div_left _ _ (Nat.pos_pow_of_pos _ (by omega))]
        omega
      rw [e2]
      simp only [shr64]
      ring
    · constructor
      · exact shr64_lt _ _ h1
      · rw [lor_eq]
        have e4 : u.hi % 2 ^ n * 2 ^ (64 - n) ≤ (2 ^ n - 1) * 2 ^ (64 - n) := by
          apply Nat.mul_le_mul_right
          have := Nat.mod_lt u.hi (show 0 < 2 ^ n from Nat.pos_pow_of_pos _ (by omega))
          omega
        have e5 : (2 ^ n - 1) * 2 ^ (64 - n) = b64 - 2 ^ (64 - n) := by
          rw [Nat.sub_mul, Nat.one_mul, hsplit]
        have e6 : (2 : Nat) ^ (64 - n) ≤ b64 := by
          rw [← hsplit]
          have : 0 < (2 : Nat) ^ n := Nat.pos_pow_of_pos _ (by omega)
          calc (2 : Nat) ^ (64 - n) = 1 * 2 ^ (64 - n) := by ring
          _ ≤ 2 ^ n * 2 ^ (64 - n) := Nat.mul_le_mul_right _ this
        have e7 : 0 < (2 : Nat) ^ (64 - n) := Nat.pos_pow_of_pos _ (by omega)
        simp only [shr64] at lo_div_lt ⊢
        omega
  · -- n = 64
    have hn : n = 64 := by omega
    subst hn
    constructor
    · show 0 * b64 + u.hi = _
      rw [Nat.zero_mul, Nat.zero_add, U128.toNat, ← b64_eq]
      rw [div_mul_split u.hi u.lo b64 b64 (by simp [b64]) dvd_rfl,
        Nat.div_self (show 0 < b64 by simp [b64]), Nat.mul_one,
        Nat.div_eq_of_lt h2, Nat.add_zero]
    · exact ⟨by simp [b64], h1⟩

/-- The Hacker's Delight 32-bit-half decomposition computes the high half of a
64x64 product. -/
theorem mul64hi_eq (x1 x0 y1 y0 : Nat) (h1 : x1 < b32) (h0 : x0 < b32)
    (h3 : y1 < b32) (h2 : y0 < b32) :
    x1 * y1 + (x1 * y0 + x0 * y0 / b32) / b32
      + ((x1 * y0 + x0 * y0 / b32) % b32 + x0 * y1) / b32
      = (b32 * x1 + x0) * (b32 * y1 + y0) / b64 := by
  have exp0 : (b32 * x1 + x0) * (b32 * y1 + y0)
      = b64 * (x1 * y1) + b32 * (x1 * y0) + b32 * (x0 * y1) + x0 * y0 := by
    simp only [b32, b64]
    ring
  have pA : x1 * y0 ≤ 4294967295 * 4294967295 :=
    Nat.mul_le_mul (by simp only [b32] at h1; omega) (by simp only [b32] at h2; omega)
  have pB : x0 * y0 ≤ 4294967295 * 4294967295 :=
    Nat.mul_le_mul (by simp only [b32] at h0; omega) (by simp only [b32] at h2; omega)
  have pC : x0 * y1 ≤ 4294967295 * 4294967295 :=
    Nat.mul_le_mul (by simp only [b32] at h0; omega) (by simp only [b32] at h3; omega)
  have pD : x1 * y1 ≤ 4294967295 * 4294967295 :=
    Nat.mul_le_mul (by simp only [b32] at h1; omega) (by simp only [b32] at h3; omega)
  simp only [b32, b64] at *
  omega

/-- `U128.Mul` computes the product mod `2^128`. -/
theorem U128.Mul_toNat (u n : U128) (hu : u.norm) (hn : n.norm) :
    (u.Mul n).toNat = u.toNat * n.toNat % b128 ∧ (u.Mul n).norm := by
  obtain ⟨h1, h2⟩ := hu
  obtain ⟨h3, h4⟩ := hn
  have hx1 : u.lo / b32 < b32 := by simp only [b32, b64] at *; omega
  have hy1 : n.lo / b32 < b32 := by simp only [b32, b64] at *; omega
  have hx0 : u.lo % b32 < b32 := by simp only [b32]; omega
  have hy0 : n.lo % b32 < b32 := by simp only [b32]; omega
  have key := mul64hi_eq (u.lo / b32) (u.lo % b32) (n.lo / b32) (n.lo % b32) hx1 hx0 hy1 hy0
  rw [Nat.div_add_mod, Nat.div_add_mod] at key
  have exp0 : u.toNat * n.toNat
      = (u.hi * n.hi) * b128 + (u.hi * n.lo) * b64 + (u.lo * n.hi) * b64 + u.lo * n.lo := by
    simp only [U128.toNat, b64, b128]
    ring
  have pA : u.lo / b32 * (n.lo % b32) ≤ 4294967295 * 4294967295 :=
    Nat.mul_le_mul (by simp only [b32] at hx1 ⊢; omega) (by simp only [b32] at hy0 ⊢; omega)
  have pB : u.lo % b32 * (n.lo % b32) ≤ 4294967295 * 4294967295 :=
    Nat.mul_le_mul (by simp only [b32] at hx0 ⊢; omega) (by simp only [b32] at hy0 ⊢; omega)
  have pC : u.lo % b32 * (n.lo / b32) ≤ 4294967295 * 4294967295 :=
    Nat.mul_le_mul (by simp only [b32] at hx0 ⊢; omega) (by simp only [b32] at hy1 ⊢; omega)
  have pD : u.lo / b32 * (n.lo / b32) ≤ 4294967295 * 4294967295 :=
    Nat.mul_le_mul (by simp only [b32] at hx1 ⊢; omega) (by simp only [b32] at hy1 ⊢; omega)
  refine ⟨?_, ?_, ?_⟩
  · simp only [U128.Mul, U128.toNat]
    simp only [U128.toNat, b32, b64, b128] at *
    omega
  · simp only [U128.Mul]
    exact Nat.mod_lt _ (by simp [b64])
  · simp only [U128.Mul]
    exact Nat.mod_lt _ (by simp [b64])

/-! ### `I128` from `i128.go`: same two-limb layout, two's-complement reading -/

structure I128 where
  hi : Nat
  lo : Nat
deriving DecidableEq, Repr

/-- Both limbs are in `uint64` range. -/
def I128.norm (i : I128) : Prop := i.hi < b64 ∧ i.lo < b64

instance (i : I128) : Decidable i.norm := by
  unfold I128.norm; infer_instance

/-- The raw (unsigned) two-limb value. -/
def I128.toNat (i : I128) : Nat := i.hi * b64 + i.lo

/-- The signed value of the two's-complement bit pattern. -/
def I128.intVal (i : I128) : Int :=
  if signBit ≤ i.hi then (i.toNat : Int) - (b128 : Int) else (i.toNat : Int)

/-- `MaxI128` from `consts.go`. -/
def MaxI128 : I128 := ⟨9223372036854775807, 18446744073709551615⟩

/-- `MinI128` from `consts.go`. -/
def MinI128 : I128 := ⟨9223372036854775808, 0⟩

/-- `zeroI128` from `consts.go`. -/
def zeroI128 : I128 := ⟨0, 0⟩

/-- `U128From64` from `u128.go`. -/
def U128From64 (v : Nat) : U128 := ⟨0, v⟩

/-- `I128From64` from `i128.go` (`uint64(v)` is `v mod 2^64`). -/
def I128From64 (v : Int) : I128 :=
  let hi : Nat := if v < 0 then 18446744073709551615 else 0
  ⟨hi, (v % (b64 : Int)).toNat⟩

/-- `I128.Add` from `i128.go` (via `bits.Add64`). -/
def I128.Add (i n : I128) : I128 :=
  let lo := (i.lo + n.lo) % b64
  let carry := (i.lo + n.lo) / b64
  ⟨(i.hi + n.hi + carry) % b64, lo⟩

/-- Sign-bit test `x & signBit != 0`, used throughout `i128.go`. -/
theorem and_signBit (x : Nat) (hx : x < b64) : x &&& signBit ≠ 0 ↔ signBit ≤ x := by
  have e1 : (signBit : Nat) = 2 ^ 63 := by norm_num
  rw [e1, Nat.and_two_pow, Nat.testBit_to_div_mod]
  simp only [b64] at hx
  rcases Nat.mod_two_eq_zero_or_one (x / 2 ^ 63) with h | h <;> simp [h] <;> omega

theorem and_signBit_eq (x y : Nat) (hx : x < b64) (hy : y < b64) :
    x &&& signBit = y &&& signBit ↔ (signBit ≤ x ↔ signBit ≤ y) := by
  have e1 : (signBit : Nat) = 2 ^ 63 := by norm_num
  rw [e1, Nat.and_two_pow, Nat.and_two_pow, Nat.testBit_to_div_mod,
    Nat.testBit_to_div_mod]
  simp only [b64] at hx hy
  rcases Nat.mod_two_eq_zero_or_one (x / 9223372036854775808) with h | h <;>
    rcases Nat.mod_two_eq_zero_or_one (y / 9223372036854775808) with h2 | h2 <;>
    simp [h, h2] <;> omega

/-- `I128.Neg` from `i128.go`. -/
def I128.Neg (i : I128) : I128 :=
  if i.hi = 0 ∧ i.lo = 0 then ⟨0, 0⟩
  else if i = MinI128 then i
  else
    let v : I128 :=
      if i.hi &&& signBit ≠ 0 then ⟨not64 i.hi, not64 (sub64 i.lo 1)⟩
      else ⟨not64 i.hi, (not64 i.lo + 1) % b64⟩
    if v.lo = 0 then ⟨(v.hi + 1) % b64, v.lo⟩ else v

/-- `I128.Abs` from `i128.go`. -/
def I128.Abs (i : I128) : I128 :=
  if i.hi &&& signBit ≠ 0 then
    let hi := not64 i.hi
    let lo := not64 (sub64 i.lo 1)
    if lo = 0 then ⟨(hi + 1) % b64, lo⟩ else ⟨hi, lo⟩
  else i

/-- `I128.LessThan` from `i128.go` (the two trailing branches return
`true` exactly when `i.hi&signBit != 0`). -/
def I128.LessThan (i n : I128) : Bool :=
  if i.hi &&& signBit = n.hi &&& signBit then
    decide (i.hi < n.hi ∨ (i.hi = n.hi ∧ i.lo < n.lo))
  else decide (i.hi &&& signBit ≠ 0)

/-- `I128.AsU128` from `i128.go` (direct cast). -/
def I128.AsU128 (i : I128) : U128 := ⟨i.hi, i.lo⟩

/-- `U128.AsI128` from `u128.go` (direct cast). -/
def U128.AsI128 (u : U128) : I128 := ⟨u.hi, u.lo⟩

/-! ### Bit access and population count (`u128.go`) -/

/-- Fuel-bounded population count; `popAux 64 x` is Go `bits.OnesCount64(x)`
for `x < 2^64`. -/
def popAux : Nat → Nat → Nat
  | 0, _ => 0
  | f + 1, x => x % 2 + popAux f (x / 2)

/-- Go `bits.OnesCount64`. -/
def onesCount64 (x : Nat) : Nat := popAux 64 x

/-- `U128.OnesCount`, translated verbatim from the Go source (note: the `hi > 0`
branch adds the constant 64 rather than the population count of `lo`). -/
def U128.OnesCount (u : U128) : Nat :=
  if u.hi > 0 then onesCount64 u.hi + 64 else onesCount64 u.lo

/-- `U128.Bit` from `u128.go`; `none` models the panic on an out-of-range index. -/
def U128.Bit (u : U128) (i : Int) : Option Nat :=
  if i < 0 ∨ i ≥ 128 then none
  else if i ≥ 64 then some ((u.hi >>> (i - 64).toNat) &&& 1)
  else some ((u.lo >>> i.toNat) &&& 1)

/-- `U128.SetBit` from `u128.go`; `none` models the panics (index out of range,
bit value not 0 or 1).  Go `x &^ m` is `x &&& ^m`. -/
def U128.SetBit (u : U128) (i : Int) (b : Nat) : Option U128 :=
  if i < 0 ∨ i ≥ 128 then none
  else if b = 0 then
    if i ≥ 64 then some ⟨u.hi &&& not64 (shl64 1 (i - 64).toNat), u.lo⟩
    else some ⟨u.hi, u.lo &&& not64 (shl64 1 i.toNat)⟩
  else if b = 1 then
    if i ≥ 64 then some ⟨u.hi ||| shl64 1 (i - 64).toNat, u.lo⟩
    else some ⟨u.hi, u.lo ||| shl64 1 i.toNat⟩
  else none

/-- `I128.Add` computes the sum mod `2^128` (two's-complement add is
sign-agnostic). -/
theorem I128.Add_toNat_wrap (i n : I128) (hi : i.norm) (hn : n.norm) :
    (i.Add n).toNat = (i.toNat + n.toNat) % b128 ∧ (i.Add n).norm := by
  obtain ⟨h1, h2⟩ := hi
  obtain ⟨h3, h4⟩ := hn
  simp only [I128.Add, I128.toNat, I128.norm, b64, b128] at *
  omega

/-- The mask whose low `k` bits are ones (the mask that zeroes the top
`128 - k` bits), as a `U128`. -/
def maskLow (k : Nat) : U128 := ⟨(2 ^ k - 1) / b64, (2 ^ k - 1) % b64⟩

/-- Limb-wise `U128.And` computes `&&&` of the values. -/
theorem U128.And_toNat (u m : U128) (hu : u.norm) (hm : m.norm) :
    (u.And m).toNat = u.toNat &&& m.toNat ∧ (u.And m).norm := by
  obtain ⟨h1, h2⟩ := hu
  obtain ⟨h3, h4⟩ := hm
  refine ⟨?_, ?_, ?_⟩
  · show (u.hi &&& m.hi) * b64 + (u.lo &&& m.lo) = _
    exact (and_limbs u.hi u.lo m.hi m.lo h2 h4).symm
  · show u.hi &&& m.hi < b64
    rw [b64_eq] at h3 ⊢
    exact Nat.and_lt_two_pow _ h3
  · show u.lo &&& m.lo < b64
    rw [b64_eq] at h4 ⊢
    exact Nat.and_lt_two_pow _ h4

theorem maskLow_toNat (k : Nat) (hk : k ≤ 128) :
    (maskLow k).toNat = 2 ^ k - 1 ∧ (maskLow k).norm := by
  refine ⟨?_, ?_, ?_⟩
  · show (2 ^ k - 1) / b64 * b64 + (2 ^ k - 1) % b64 = 2 ^ k - 1
    rw [Nat.mul_comm]
    exact Nat.div_add_mod _ _
  · show (2 ^ k - 1) / b64 < b64
    have h1 : (2 : Nat) ^ k - 1 < b128 := by
      have : (2 : Nat) ^ k ≤ 2 ^ 128 := Nat.pow_le_pow_right (by omega) hk
      rw [b128_eq]
      omega
    rw [Nat.div_lt_iff_lt_mul (by simp [b64]), b64_mul_b64]
    exact h1
  · show (2 ^ k - 1) % b64 < b64
    exact Nat.mod_lt _ (by simp [b64])

/-- C7: addition wraps modulo `2^128` with no error; in particular
`MaxU128 + 1 = 0` and `MaxI128 + 1 = MinI128`. -/
theorem C7_add_wraparound :
    (∀ u n : U128, u.norm → n.norm → (u.Add n).toNat = (u.toNat + n.toNat) % b128)
    ∧ (∀ i n : I128, i.norm → n.norm → (i.Add n).toNat = (i.toNat + n.toNat) % b128)
    ∧ MaxU128.Add (U128From64 1) = zeroU128
    ∧ MaxI128.Add (I128From64 1) = MinI128 := by
  refine ⟨?_, ?_, ?_, ?_⟩
  · intro u n hu hn
    exact (U128.Add_toNat u n hu hn).1
  · intro i n hi hn
    exact (I128.Add_toNat_wrap i n hi hn).1
  · decide
  · decide

theorem C7_add_wraparound_witness :
    ((U128.mk 5 7).Add (U128.mk 2 3)).toNat
        = ((U128.mk 5 7).toNat + (U128.mk 2 3).toNat) % b128
    ∧ ((I128.mk 5 7).Add (I128.mk 2 3)).toNat
        = ((I128.mk 5 7).toNat + (I128.mk 2 3).toNat) % b128 :=
  ⟨C7_add_wraparound.1 _ _ (by decide) (by decide),
   C7_add_wraparound.2.1 _ _ (by decide) (by decide)⟩

/-- C9: `U128.Bit` and `U128.SetBit` fault exactly on an index outside
`[0,128)` or (for `SetBit`) a bit value other than 0 or 1. -/
theorem C9_bit_panics : ∀ (u : U128) (i : Int) (b : Nat),
    (u.Bit i = none ↔ (i < 0 ∨ 128 ≤ i)) ∧
    (u.SetBit i b = none ↔ (i < 0 ∨ 128 ≤ i ∨ (b ≠ 0 ∧ b ≠ 1))) := by
  intro u i b
  constructor
  · unfold U128.Bit
    split_ifs with h1 h2 <;> simp <;> omega
  · unfold U128.SetBit
    split_ifs <;> simp <;> omega

/-- C10 (code bug): `U128.OnesCount` on `U128{hi:1, lo:0}` returns 65, while the
population count of the 128-bit value (one bits of `hi` plus one bits of `lo`)
is 1: the `hi > 0` branch adds the constant 64 instead of `OnesCount64(lo)`,
contradicting the function's own doc comment. -/
theorem C10_onescount_bug :
    U128.OnesCount ⟨1, 0⟩ = 65 ∧ onesCount64 1 + onesCount64 0 = 1 := by decide

/-- C8: for `n ≤ 128`, `a.Lsh(n).Rsh(n)` equals `a` with its top `n` bits
zeroed; `a.Lsh 128 = 0`; `a.Lsh 0 = a`. -/
theorem C8_shift_laws : ∀ (a : U128) (n : Nat), a.norm → n ≤ 128 →
    (a.Lsh n).Rsh n = a.And (maskLow (128 - n)) ∧
    a.Lsh 128 = zeroU128 ∧ a.Lsh 0 = a := by
  intro a n ha hn
  refine ⟨?_, ?_, ?_⟩
  · obtain ⟨hl1, hl2⟩ := U128.Lsh_toNat a n ha
    obtain ⟨hr1, hr2⟩ := U128.Rsh_toNat (a.Lsh n) n hl2
    obtain ⟨hm1, hm2⟩ := maskLow_toNat (128 - n) (by omega)
    obtain ⟨ha1, ha2⟩ := U128.And_toNat a (maskLow (128 - n)) ha hm2
    apply U128.eq_of_toNat_eq hr2 ha2
    rw [hr1, hl1, ha1, hm1]
    have hsplit : (2 : Nat) ^ (128 - n) * 2 ^ n = b128 := by
      rw [b128_eq, ← pow_add]
      congr 1
      omega
    have e1 : a.toNat * 2 ^ n % b128 = a.toNat % 2 ^ (128 - n) * 2 ^ n := by
      rw [← hsplit]
      have h := mod_mul_split a.toNat 0 (2 ^ n) (2 ^ (128 - n))
        (Nat.pos_pow_of_pos _ (by omega)) (Nat.pos_pow_of_pos _ (by omega))
      simpa using h
    rw [e1, Nat.mul_div_cancel _ (Nat.pos_pow_of_pos _ (by omega)),
      Nat.and_pow_two_sub_one_eq_mod]
  · unfold U128.Lsh
    simp only [show (128 : Nat) ≠ 0 by omega, if_false, show (128 : Nat) > 64 by omega,
      if_true]
    have : shl64 a.lo 64 = 0 := by
      simp only [shl64, show (128 : Nat) - 64 = 64 from rfl, ← b64_eq]
      exact Nat.mul_mod_left _ _
    simp [this, zeroU128]
  · unfold U128.Lsh
    simp

theorem C8_shift_laws_witness :
    ((U128.mk 3 9).Lsh 100).Rsh 100 = (U128.mk 3 9).And (maskLow 28) ∧
    (U128.mk 3 9).Lsh 128 = zeroU128 ∧ (U128.mk 3 9).Lsh 0 = U128.mk 3 9 := by
  have h := C8_shift_laws (U128.mk 3 9) 100 (by decide) (by decide)
  exact ⟨h.1, h.2.1, h.2.2⟩

/-! ### The division engine (`u128.go`) -/

/-- The `again1`/`again2` correction loop shared by `quo128by64` and
`quorem128by64` (Hacker's Delight 9-4 `divlu`).  Go writes it with `goto`;
here it is fuel recursion over the state `(q1, rhat, left, right)`.  Each pass
decrements the `uint64` `q1`, so the `2^64` fuel supplied at the call sites
cannot be exhausted from a reachable state. -/
def divluFix (vn1 vn0 und : Nat) : Nat → Nat → Nat → Nat → Nat → Nat
  | 0, q1, _, _, _ => q1
  | fuel + 1, q1, rhat, left, right =>
    if q1 ≥ b32 ∨ left > right then
      let q2 := sub64 q1 1
      let rhat2 := (rhat + vn1) % b64
      if rhat2 < b32 then
        divluFix vn1 vn0 und fuel q2 rhat2 (sub64 left vn0) ((shl64 rhat2 32) ||| und)
      else q2
    else q1

/-- `quorem128by64` from `u128.go` (Hacker's Delight 9-4 `divlu`; the local
`v` is shadowed by `v << s` in Go, called `v2` here). -/
def quorem128by64 (u1 u0 v : Nat) : Nat × Nat :=
  let s := leadingZeros64 v
  let v2 := shl64 v s
  let vn1 := v2 >>> 32
  let vn0 := v2 &&& 4294967295
  let un32 := if s > 0 then (shl64 u1 s) ||| (u0 >>> (64 - s)) else u1
  let un10 := if s > 0 then shl64 u0 s else u0
  let un1 := un10 >>> 32
  let un0 := un10 &&& 4294967295
  let q1 := un32 / vn1
  let rhat := un32 % vn1
  let left := (q1 * vn0) % b64
  let right := ((shl64 rhat 32) + un1) % b64
  let q1 := divluFix vn1 vn0 un1 b64 q1 rhat left right
  let un21 := ((shl64 un32 32) + sub64 un1 ((q1 * v2) % b64)) % b64
  let q0 := un21 / vn1
  let rhat2 := un21 % vn1
  let left2 := (q0 * vn0) % b64
  let right2 := (shl64 rhat2 32) ||| un0
  let q0 := divluFix vn1 vn0 un0 b64 q0 rhat2 left2 right2
  ((shl64 q1 32) ||| q0, (((shl64 un21 32) + sub64 un0 ((q0 * v2) % b64)) % b64) >>> s)

/-- `quo128by64` from `u128.go` (same algorithm, quotient only; Go keeps the
shifted divisor in a separate variable `vs`). -/
def quo128by64 (u1 u0 v : Nat) : Nat :=
  let s := leadingZeros64 v
  let vs := shl64 v s
  let vn1 := vs >>> 32
  let vn0 := vs &&& 4294967295
  let un32 := if s > 0 then (shl64 u1 s) ||| (u0 >>> (64 - s)) else u1
  let un10 := if s > 0 then shl64 u0 s else u0
  let un1 := un10 >>> 32
  let un0 := un10 &&& 4294967295
  let q1 := un32 / vn1
  let rhat := un32 % vn1
  let left := (q1 * vn0) % b64
  let right := (shl64 rhat 32) ||| un1
  let q1 := divluFix vn1 vn0 un1 b64 q1 rhat left right
  let un21 := ((shl64 un32 32) + sub64 un1 ((q1 * vs) % b64)) % b64
  let q0 := un21 / vn1
  let rhat2 := un21 % vn1
  let left2 := (q0 * vn0) % b64
  let right2 := (shl64 rhat2 32) ||| un0
  let q0 := divluFix vn1 vn0 un0 b64 q0 rhat2 left2 right2
  (shl64 q1 32) ||| q0

/-- `quorem128by128` from `u128.go`. -/
def quorem128by128 (m v : U128) : U128 × U128 :=
  if v.hi = 0 then
    if m.hi < v.lo then
      let qr := quorem128by64 m.hi m.lo v.lo
      (⟨0, qr.1⟩, ⟨0, qr.2⟩)
    else
      let qhi := m.hi / v.lo
      let rhi := m.hi % v.lo
      let qr := quorem128by64 rhi m.lo v.lo
      (⟨qhi, qr.1⟩, ⟨0, qr.2⟩)
  else
    let sh := leadingZeros64 v.hi
    let v1 := v.Lsh sh
    let u1 := m.Rsh 1
    let q1 : U128 := ⟨0, quo128by64 u1.hi u1.lo v1.hi⟩
    let q2 := q1.Rsh (63 - sh)
    let q3 := if q2.hi ||| q2.lo ≠ 0 then q2.Dec else q2
    let t := q3.Mul v
    let r := m.Sub t
    if r.Cmp v ≥ 0 then (q3.Inc, r.Sub v) else (q3, r)

/-- Loop body of `quorem128bin` from `u128.go`: shift-and-subtract, one
divisor bit per iteration (the hand-inlined `Lsh(1)`/`Rsh(1)` blocks). -/
def quorem128binLoop : Nat → U128 → U128 → U128 → U128 × U128
  | shift, u, v, q =>
    let q1 : U128 := ⟨(shl64 q.hi 1) ||| (q.lo >>> 63), shl64 q.lo 1⟩
    let p : U128 × U128 :=
      if ¬ (u.hi < v.hi ∨ (u.hi = v.hi ∧ u.lo < v.lo)) then
        (u.Sub v, ⟨q1.hi, q1.lo ||| 1⟩)
      else (u, q1)
    let v1 : U128 := ⟨v.hi >>> 1, (v.lo >>> 1) ||| (shl64 v.hi 63)⟩
    match shift with
    | 0 => (p.2, p.1)
    | s + 1 => quorem128binLoop s p.1 v1 p.2

/-- `quorem128bin` from `u128.go`.  Go computes `shift := int(byLeading0 -
uLeading0)` with wrapping `uint` subtraction; every caller guarantees
`byLeading0 ≥ uLeading0` (the dividend is larger than the divisor), where the
wrapping subtraction agrees with `Nat` subtraction. -/
def quorem128bin (u v : U128) (uLeading0 byLeading0 : Nat) : U128 × U128 :=
  let shift := byLeading0 - uLeading0
  quorem128binLoop shift u (v.Lsh shift) ⟨0, 0⟩

/-- Loop body of `quo128bin` from `u128.go` (textually the same loop as
`quorem128binLoop`, returning only the quotient). -/
def quo128binLoop : Nat → U128 → U128 → U128 → U128
  | shift, u, v, q =>
    let q1 : U128 := ⟨(shl64 q.hi 1) ||| (q.lo >>> 63), shl64 q.lo 1⟩
    let p : U128 × U128 :=
      if ¬ (u.hi < v.hi ∨ (u.hi = v.hi ∧ u.lo < v.lo)) then
        (u.Sub v, ⟨q1.hi, q1.lo ||| 1⟩)
      else (u, q1)
    let v1 : U128 := ⟨v.hi >>> 1, (v.lo >>> 1) ||| (shl64 v.hi 63)⟩
    match shift with
    | 0 => p.2
    | s + 1 => quo128binLoop s p.1 v1 p.2

/-- `quo128bin` from `u128.go` (same `uint`-subtraction note as
`quorem128bin`). -/
def quo128bin (u v : U128) (uLeading0 byLeading0 : Nat) : U128 :=
  let shift := byLeading0 - uLeading0
  quo128binLoop shift u (v.Lsh shift) ⟨0, 0⟩

/-- `U128.QuoRem` from `u128.go`: the body after the division-by-zero guard
(`U128.QuoRemChecked` adds the guard).  `bv` is the Go parameter `by` (a Lean
keyword).  Go's `byLeading0 - uLeading0 > 16` is wrapping `uint` subtraction;
it is reached only after `u.Cmp(by) > 0`, which forces
`byLeading0 ≥ uLeading0`, where it agrees with `Nat` subtraction. -/
def U128.QuoRem (u bv : U128) : U128 × U128 :=
  if u.hi ||| bv.hi = 0 then
    (⟨0, u.lo / bv.lo⟩, ⟨0, u.lo % bv.lo⟩)
  else
    let byLeading0 := bv.LeadingZeros
    if byLeading0 = 127 then (u, ⟨0, 0⟩)
    else
      let byTrailing0 := bv.TrailingZeros
      if byLeading0 + byTrailing0 = 127 then
        let q := u.Rsh byTrailing0
        let bv2 := bv.Dec
        (q, bv2.And u)
      else
        let cmp := u.Cmp bv
        if cmp < 0 then (⟨0, 0⟩, u)
        else if cmp = 0 then (⟨0, 1⟩, ⟨0, 0⟩)
        else
          let uLeading0 := u.LeadingZeros
          if byLeading0 - uLeading0 > 16 then quorem128by128 u bv
          else quorem128bin u bv uLeading0 byLeading0

/-- `U128.Quo` from `u128.go`: the body after the division-by-zero guard
(threshold 5; fast path discards the remainder of `quorem128by128`). -/
def U128.Quo (u bv : U128) : U128 :=
  if u.hi ||| bv.hi = 0 then ⟨0, u.lo / bv.lo⟩
  else
    let byLeading0 := bv.LeadingZeros
    if byLeading0 = 127 then u
    else
      let byTrailing0 := bv.TrailingZeros
      if byLeading0 + byTrailing0 = 127 then u.Rsh byTrailing0
      else
        let cmp := u.Cmp bv
        if cmp < 0 then ⟨0, 0⟩
        else if cmp = 0 then ⟨0, 1⟩
        else
          let uLeading0 := u.LeadingZeros
          if byLeading0 - uLeading0 > 5 then (quorem128by128 u bv).1
          else quo128bin u bv uLeading0 byLeading0

/-- `U128.QuoRem` including its `panic("u128: division by zero")` guard;
`none` models the panic. -/
def U128.QuoRemChecked (u bv : U128) : Option (U128 × U128) :=
  if bv.lo = 0 ∧ bv.hi = 0 then none else some (u.QuoRem bv)

/-- `U128.Quo` including its division-by-zero guard. -/
def U128.QuoChecked (u bv : U128) : Option U128 :=
  if bv.lo = 0 ∧ bv.hi = 0 then none else some (u.Quo bv)

/-- `U128.Rem` from `u128.go`: delegates to `QuoRem` (whose guard raises the
fault). -/
def U128.RemChecked (u bv : U128) : Option U128 :=
  (u.QuoRemChecked bv).map (fun qr => qr.2)

/-- `I128.QuoRem` from `i128.go`: normalize signs, divide magnitudes via
`U128.QuoRem`, reapply signs. -/
def I128.QuoRem (i bv : I128) : I128 × I128 :=
  let qSign : Int := if i.LessThan zeroI128 then -1 else 1
  let rSign : Int := if i.LessThan zeroI128 then -1 else 1
  let i2 := if i.LessThan zeroI128 then i.Neg else i
  let qSign2 := if bv.LessThan zeroI128 then -qSign else qSign
  let bv2 := if bv.LessThan zeroI128 then bv.Neg else bv
  let qr := U128.QuoRem i2.AsU128 bv2.AsU128
  let q := qr.1.AsI128
  let r := qr.2.AsI128
  let q2 := if qSign2 < 0 then q.Neg else q
  let r2 := if rSign < 0 then r.Neg else r
  (q2, r2)

/-- `I128.QuoRem` with the division-by-zero panic of the inner `U128.QuoRem`
modelled as `none`. -/
def I128.QuoRemChecked (i bv : I128) : Option (I128 × I128) :=
  let qSign : Int := if i.LessThan zeroI128 then -1 else 1
  let rSign : Int := if i.LessThan zeroI128 then -1 else 1
  let i2 := if i.LessThan zeroI128 then i.Neg else i
  let qSign2 := if bv.LessThan zeroI128 then -qSign else qSign
  let bv2 := if bv.LessThan zeroI128 then bv.Neg else bv
  match U128.QuoRemChecked i2.AsU128 bv2.AsU128 with
  | none => none
  | some qr =>
    let q := qr.1.AsI128
    let r := qr.2.AsI128
    let q2 := if qSign2 < 0 then q.Neg else q
    let r2 := if rSign < 0 then r.Neg else r
    some (q2, r2)

/-- `I128.Quo` from `i128.go`. -/
def I128.Quo (i bv : I128) : I128 :=
  let qSign : Int := if i.LessThan zeroI128 then -1 else 1
  let i2 := if i.LessThan zeroI128 then i.Neg else i
  let qSign2 := if bv.LessThan zeroI128 then -qSign else qSign
  let bv2 := if bv.LessThan zeroI128 then bv.Neg else bv
  let q := (U128.Quo i2.AsU128 bv2.AsU128).AsI128
  if qSign2 < 0 then q.Neg else q

/-- `I128.Quo` with the division-by-zero panic of the inner `U128.Quo`
modelled as `none`. -/
def I128.QuoChecked (i bv : I128) : Option I128 :=
  let qSign : Int := if i.LessThan zeroI128 then -1 else 1
  let i2 := if i.LessThan zeroI128 then i.Neg else i
  let qSign2 := if bv.LessThan zeroI128 then -qSign else qSign
  let bv2 := if bv.LessThan zeroI128 then bv.Neg else bv
  match U128.QuoChecked i2.AsU128 bv2.AsU128 with
  | none => none
  | some qu =>
    let q := qu.AsI128
    some (if qSign2 < 0 then q.Neg else q)

/-- `I128.Rem` from `i128.go`: delegates to `I128.QuoRem`. -/
def I128.RemChecked (i bv : I128) : Option I128 :=
  (i.QuoRemChecked bv).map (fun qr => qr.2)

/-! ### Correctness of the division engine -/

/-- The correction loop computes the exact quotient digit: dividing the
three-digit (base `2^32`) value `a * 2^32 + d` by the normalized two-digit
divisor `V = vn1 * 2^32 + vn0`, starting from the estimate `a / vn1`.
Stated with the numerals `4294967296 = 2^32`, `18446744073709551616 = 2^64`. -/
theorem divluFix_correct (vn1 vn0 d a : Nat)
    (h1 : 2147483648 ≤ vn1) (h2 : vn1 < 4294967296) (h3 : vn0 < 4294967296)
    (hd : d < 4294967296) (ha : a < vn1 * 4294967296 + vn0) :
    ∀ fuel q1 rhat left right,
      a = q1 * vn1 + rhat → rhat < 4294967296 → q1 ≤ 4294967297 →
      (a * 4294967296 + d) / (vn1 * 4294967296 + vn0) ≤ q1 → q1 ≤ fuel →
      left = q1 * vn0 → right = rhat * 4294967296 + d →
      divluFix vn1 vn0 d fuel q1 rhat left right
        = (a * 4294967296 + d) / (vn1 * 4294967296 + vn0) := by
  have hVpos : 0 < vn1 * 4294967296 + vn0 := by
    have : 4294967296 ≤ vn1 * 4294967296 := Nat.le_mul_of_pos_left _ (by omega)
    omega
  have hNled : (a * 4294967296 + d) < 4294967296 * (vn1 * 4294967296 + vn0) := by
    have e2 : (a + 1) * 4294967296 ≤ (vn1 * 4294967296 + vn0) * 4294967296 :=
      Nat.mul_le_mul_right _ (by omega)
    have e0 : (a + 1) * 4294967296 = a * 4294967296 + 4294967296 := by ring
    have e3 : (vn1 * 4294967296 + vn0) * 4294967296
        = 4294967296 * (vn1 * 4294967296 + vn0) := by ring
    omega
  have hdivB : (a * 4294967296 + d) / (vn1 * 4294967296 + vn0) < 4294967296 :=
    Nat.div_lt_iff_lt_mul hVpos |>.mpr hNled
  generalize hQ : (a * 4294967296 + d) / (vn1 * 4294967296 + vn0) = Q at hdivB ⊢
  intro fuel
  induction fuel with
  | zero =>
    intro q1 rhat left right e1 e2 e3 e4 e5 e6 e7
    simp only [divluFix]
    omega
  | succ f ih =>
    intro q1 rhat left right e1 e2 e3 e4 e5 e6 e7
    simp only [divluFix, b32, b64]
    split_ifs with hc hr
    case pos =>
      -- condition holds, decrement; updated rhat still a digit: recurse
      have hq1pos : 1 ≤ q1 := by
        rcases Nat.eq_zero_or_pos q1 with h0 | h0
        · exfalso
          subst h0
          simp only [Nat.zero_mul] at e6
          omega
        · exact h0
      obtain ⟨m, rfl⟩ : ∃ m, q1 = m + 1 := ⟨q1 - 1, by omega⟩
      have hsub1 : sub64 (m + 1) 1 = m := by
        rw [sub64_eq _ _ (by simp only [b64]; omega) (by omega)]
        omega
      have hrh2 : (rhat + vn1) % 18446744073709551616 = rhat + vn1 := by
        apply Nat.mod_eq_of_lt
        omega
      rw [hrh2] at hr
      have hmv : (m + 1) * vn1 = m * vn1 + vn1 := by ring
      have e1m : a = m * vn1 + (rhat + vn1) := by omega
      have hstrict : Q < m + 1 := by
        rcases hc with hc1 | hc1
        · omega
        · by_contra hle
          have hle2 : m + 1 ≤ Q := by omega
          rw [← hQ] at hle2
          have hmul : (m + 1) * (vn1 * 4294967296 + vn0) ≤ a * 4294967296 + d :=
            (Nat.le_div_iff_mul_le hVpos).mp hle2
          have exV : (m + 1) * (vn1 * 4294967296 + vn0)
              = ((m + 1) * vn1) * 4294967296 + (m + 1) * vn0 := by ring
          have exN : a * 4294967296 + d
              = ((m + 1) * vn1) * 4294967296 + (rhat * 4294967296 + d) := by
            rw [e1]
            ring
          omega
      have hleftlt : (m + 1) * vn0 < b64 := by
        have := Nat.mul_le_mul e3 (show vn0 ≤ 4294967295 by omega)
        simp only [b64]
        omega
      have hmv0 : (m + 1) * vn0 = m * vn0 + vn0 := by ring
      have hsubl : sub64 left vn0 = m * vn0 := by
        rw [e6, sub64_eq _ _ hleftlt (by omega)]
        omega
      have hright2 : (shl64 ((rhat + vn1) % 18446744073709551616) 32) ||| d
          = (rhat + vn1) * 4294967296 + d := by
        rw [hrh2, shl64_eq _ _ (by
          have := Nat.mul_le_mul (show rhat + vn1 ≤ 4294967295 by omega)
            (show (2 : Nat) ^ 32 ≤ 2 ^ 32 from le_refl _)
          simp only [b64]
          omega)]
      
        have e9 : (2 : Nat) ^ 32 = 4294967296 := by norm_num
        rw [← e9] at hd ⊢
        exact lor_mul_pow _ _ _ hd
      rw [hsub1, hsubl, hright2, hrh2]
      exact ih m (rhat + vn1) (m * vn0) ((rhat + vn1) * 4294967296 + d)
        e1m hr (by omega) (by omega) (by omega) rfl rfl
    case neg =>
      -- condition holds, decrement; updated rhat carries out: q1 - 1 is the digit
      have hq1pos : 1 ≤ q1 := by
        rcases Nat.eq_zero_or_pos q1 with h0 | h0
        · exfalso
          subst h0
          simp only [Nat.zero_mul] at e6
          omega
        · exact h0
      obtain ⟨m, rfl⟩ : ∃ m, q1 = m + 1 := ⟨q1 - 1, by omega⟩
      have hrh2 : (rhat + vn1) % 18446744073709551616 = rhat + vn1 := by
        apply Nat.mod_eq_of_lt
        omega
      rw [hrh2] at hr
      have hsub1 : sub64 (m + 1) 1 = m := by
        rw [sub64_eq _ _ (by simp only [b64]; omega) (by omega)]
        omega
      rw [hsub1]
      have hstrict : Q < m + 1 := by
        rcases hc with hc1 | hc1
        · omega
        · by_contra hle
          have hle2 : m + 1 ≤ Q := by omega
          rw [← hQ] at hle2
          have hmul : (m + 1) * (vn1 * 4294967296 + vn0) ≤ a * 4294967296 + d :=
            (Nat.le_div_iff_mul_le hVpos).mp hle2
          have exV : (m + 1) * (vn1 * 4294967296 + vn0)
              = ((m + 1) * vn1) * 4294967296 + (m + 1) * vn0 := by ring
          have exN : a * 4294967296 + d
              = ((m + 1) * vn1) * 4294967296 + (rhat * 4294967296 + d) := by
            rw [e1]
            ring
          omega
      have hbound : m * vn0 ≤ 4294967296 * 4294967295 :=
        Nat.mul_le_mul (by omega) (by omega)
      have hmv : (m + 1) * vn1 = m * vn1 + vn1 := by ring
      have e1m : a = m * vn1 + (rhat + vn1) := by omega
      have hmV : m * (vn1 * 4294967296 + vn0) ≤ a * 4294967296 + d := by
        have exV : m * (vn1 * 4294967296 + vn0)
            = (m * vn1) * 4294967296 + m * vn0 := by ring
        have exN : a * 4294967296 + d
            = (m * vn1) * 4294967296 + ((rhat + vn1) * 4294967296 + d) := by
          rw [e1m]
          ring
        have hb : 4294967296 * 4294967296 ≤ (rhat + vn1) * 4294967296 :=
          Nat.mul_le_mul (by omega) (by omega)
        omega
      have hge : m ≤ Q := by
        rw [← hQ]
        exact (Nat.le_div_iff_mul_le hVpos).mpr hmV
      omega
    case neg =>
      -- condition fails: q1 is already the digit
      have hq1V : q1 * (vn1 * 4294967296 + vn0) ≤ a * 4294967296 + d := by
        push_neg at hc
        obtain ⟨hc1, hc2⟩ := hc
        have exV : q1 * (vn1 * 4294967296 + vn0)
            = (q1 * vn1) * 4294967296 + q1 * vn0 := by ring
        have exN : a * 4294967296 + d
            = (q1 * vn1) * 4294967296 + (rhat * 4294967296 + d) := by
          rw [e1]
          ring
        omega
      have hge : q1 ≤ Q := by
        rw [← hQ]
        exact (Nat.le_div_iff_mul_le hVpos).mpr hq1V
      omega

theorem div_mod_unique (a b q r : Nat) (hr : r < b) (h : a = q * b + r) :
    a / b = q ∧ a % b = r := by
  have hb : 0 < b := by omega
  constructor
  · rw [h, Nat.add_comm, Nat.mul_comm, Nat.add_mul_div_left r q hb,
      Nat.div_eq_of_lt hr]
    omega
  · rw [h, Nat.mul_comm, Nat.mul_add_mod]
    exact Nat.mod_eq_of_lt hr

/-- One full digit step of `divlu`: starting from the estimate `a / vn1`, the
correction loop returns the exact quotient digit of `(a * 2^32 + d) / V`. -/
theorem divDigit_correct (vn1 vn0 a d right0 : Nat)
    (h1 : 2147483648 ≤ vn1) (h2 : vn1 < 4294967296) (h3 : vn0 < 4294967296)
    (hd : d < 4294967296) (ha : a < vn1 * 4294967296 + vn0)
    (hright : right0 = (a % vn1) * 4294967296 + d) :
    divluFix vn1 vn0 d b64 (a / vn1) (a % vn1) ((a / vn1 * vn0) % b64) right0
      = (a * 4294967296 + d) / (vn1 * 4294967296 + vn0) := by
  have hvpos : 0 < vn1 := by omega
  set qh := a / vn1 with hqh
  set rh := a % vn1 with hrh
  have hqr : a = qh * vn1 + rh := by
    rw [hqh, hrh, Nat.mul_comm]
    exact (Nat.div_add_mod a vn1).symm
  have hrb : rh < vn1 := by
    rw [hrh]
    exact Nat.mod_lt _ hvpos
  have hq : qh ≤ 4294967297 := by
    by_contra hcon
    have h4 : 4294967298 ≤ qh := by omega
    have h5 : 4294967298 * vn1 ≤ qh * vn1 := Nat.mul_le_mul_right _ h4
    omega
  have hleftval : qh * vn0 < b64 := by
    have := Nat.mul_le_mul hq (show vn0 ≤ 4294967295 by omega)
    simp only [b64]
    omega
  have hleft : (qh * vn0) % b64 = qh * vn0 := Nat.mod_eq_of_lt hleftval
  have hQ0 : (a * 4294967296 + d) / (vn1 * 4294967296 + vn0) ≤ qh := by
    have e1 : (a * 4294967296 + d) / (vn1 * 4294967296 + vn0)
        ≤ (a * 4294967296 + d) / (vn1 * 4294967296) := by
      apply Nat.div_le_div_left
      · omega
      · have : 4294967296 ≤ vn1 * 4294967296 := Nat.le_mul_of_pos_left _ hvpos
        omega
    have e2 : (a * 4294967296 + d) / (vn1 * 4294967296)
        = (a * 4294967296 + d) / 4294967296 / vn1 := by
      rw [Nat.div_div_eq_div_mul, Nat.mul_comm vn1 4294967296]
    have e3 : (a * 4294967296 + d) / 4294967296 = a := by
      rw [Nat.add_comm, Nat.mul_comm, Nat.add_mul_div_left _ _ (by omega : (0:Nat) < 4294967296),
        Nat.div_eq_of_lt hd]
      omega
    rw [e2, e3] at e1
    exact e1
  rw [hleft]
  exact divluFix_correct vn1 vn0 d a h1 h2 h3 hd ha b64 qh rh (qh * vn0) right0
    hqr (by omega) hq hQ0 (by simp only [b64]; omega) rfl hright

theorem shl64_32_eq (x : Nat) (hx : x < 4294967296) : shl64 x 32 = x * 4294967296 := by
  simp only [shl64, b64]
  norm_num
  omega

theorem lor32_eq (x y : Nat) (hy : y < 4294967296) :
    (x * 4294967296) ||| y = x * 4294967296 + y := by
  have h1 : y < 2 ^ 32 := by
    have h3 : (2 : Nat) ^ 32 = 4294967296 := by norm_num
    omega
  have h2 := lor_mul_pow x y 32 h1
  have h3 : (2 : Nat) ^ 32 = 4294967296 := by norm_num
  rw [h3] at h2
  exact h2

/-- `quorem128by64` computes the true quotient and remainder of the 128-bit
dividend `u1 * 2^64 + u0` by the 64-bit divisor `v`, under the `divlu`
precondition `u1 < v` (so the quotient fits in 64 bits). -/
theorem quorem128by64_correct (u1 u0 v : Nat) (hv : v < b64) (hv0 : v ≠ 0)
    (hu0 : u0 < b64) (hu1 : u1 < v) :
    quorem128by64 u1 u0 v = ((u1 * b64 + u0) / v, (u1 * b64 + u0) % v) := by
  obtain ⟨hsl, hsu, hs63⟩ := leadingZeros64_spec v hv hv0
  simp only [b64] at hv hu0
  simp only [quorem128by64]
  set s := leadingZeros64 v with hsdef
  set D := u1 * b64 + u0 with hDdef
  have hpow : 2 ^ (64 - s) * 2 ^ s = 18446744073709551616 := by
    rw [← Nat.pow_add]
    have h64 : 64 - s + s = 64 := by omega
    rw [h64]
  have hpow63 : 2 ^ (63 - s) * 2 ^ s = 9223372036854775808 := by
    rw [← Nat.pow_add]
    have h63 : 63 - s + s = 63 := by omega
    rw [h63]
  have hspos : 0 < 2 ^ s := Nat.pos_pow_of_pos _ (by omega)
  have hv2val : v * 2 ^ s < 18446744073709551616 := by
    have h1 : (v + 1) * 2 ^ s ≤ 2 ^ (64 - s) * 2 ^ s :=
      Nat.mul_le_mul_right _ (by omega)
    have h2 : (v + 1) * 2 ^ s = v * 2 ^ s + 2 ^ s := by ring
    rw [hpow] at h1
    omega
  have hv2ge : 9223372036854775808 ≤ v * 2 ^ s := by
    have h1 : 2 ^ (63 - s) * 2 ^ s ≤ v * 2 ^ s := Nat.mul_le_mul_right _ hsl
    rw [hpow63] at h1
    exact h1
  set v2 := shl64 v s with hv2def
  have hv2 : v2 = v * 2 ^ s := by
    rw [hv2def]
    exact shl64_eq v s (by simp only [b64]; exact hv2val)
  have hv2lt : v2 < 18446744073709551616 := by rw [hv2]; exact hv2val
  have hv2ge' : 9223372036854775808 ≤ v2 := by rw [hv2]; exact hv2ge
  set vn1 := v2 >>> 32 with hvn1def
  have hvn1 : vn1 = v2 / 4294967296 := by
    rw [hvn1def, Nat.shiftRight_eq_div_pow]
  have hvn1ge : 2147483648 ≤ vn1 := by rw [hvn1]; omega
  have hvn1lt : vn1 < 4294967296 := by rw [hvn1]; omega
  set vn0 := v2 &&& 4294967295 with hvn0def
  have hvn0 : vn0 = v2 % 4294967296 := by
    rw [hvn0def, show (4294967295 : Nat) = 2 ^ 32 - 1 by norm_num,
      Nat.and_pow_two_sub_one_eq_mod]
  have hvn0lt : vn0 < 4294967296 := by rw [hvn0]; omega
  have hv2split : v2 = vn1 * 4294967296 + vn0 := by rw [hvn1, hvn0]; omega
  set un32 := if s > 0 then shl64 u1 s ||| u0 >>> (64 - s) else u1 with hun32def
  have hun32 : un32 = D * 2 ^ s / 18446744073709551616 := by
    rw [hun32def]
    by_cases hsp : s > 0
    · rw [if_pos hsp]
      have e1 : shl64 u1 s = u1 * 2 ^ s := by
        apply shl64_eq
        have h1 : (u1 + 1) * 2 ^ s ≤ v * 2 ^ s := Nat.mul_le_mul_right _ (by omega)
        have h2 : (u1 + 1) * 2 ^ s = u1 * 2 ^ s + 2 ^ s := by ring
        simp only [b64]
        omega
      have e2 : u0 >>> (64 - s) = u0 / 2 ^ (64 - s) := Nat.shiftRight_eq_div_pow _ _
      have e3 : u0 / 2 ^ (64 - s) < 2 ^ s := by
        rw [Nat.div_lt_iff_lt_mul (Nat.pos_pow_of_pos _ (by omega)),
          Nat.mul_comm, hpow]
        omega
      rw [e1, e2, lor_mul_pow u1 (u0 / 2 ^ (64 - s)) s e3, hDdef]
      have e4 : (u1 * b64 + u0) * 2 ^ s
          = u0 * 2 ^ s + 18446744073709551616 * (u1 * 2 ^ s) := by
        simp only [b64]; ring
      rw [e4, Nat.add_mul_div_left _ _ (by norm_num : (0 : Nat) < 18446744073709551616)]
      have e5 : u0 * 2 ^ s / 18446744073709551616 = u0 / 2 ^ (64 - s) := by
        rw [← hpow, Nat.mul_div_mul_right _ _ hspos]
      rw [e5]
      ring
    · rw [if_neg hsp]
      have hs0 : s = 0 := by omega
      rw [hs0, hDdef]
      simp only [b64, pow_zero, Nat.mul_one]
      omega
  set un10 := if s > 0 then shl64 u0 s else u0 with hun10def
  have hun10 : un10 = D * 2 ^ s % 18446744073709551616 := by
    rw [hun10def]
    by_cases hsp : s > 0
    · rw [if_pos hsp]
      simp only [shl64, b64]
      rw [hDdef]
      have e4 : (u1 * b64 + u0) * 2 ^ s
          = u0 * 2 ^ s + 18446744073709551616 * (u1 * 2 ^ s) := by
        simp only [b64]; ring
      rw [e4, Nat.add_mul_mod_self_left]
    · rw [if_neg hsp]
      have hs0 : s = 0 := by omega
      rw [hs0, hDdef]
      simp only [b64, pow_zero, Nat.mul_one]
      omega
  set un1 := un10 >>> 32 with hun1def
  have hun1 : un1 = un10 / 4294967296 := by
    rw [hun1def, Nat.shiftRight_eq_div_pow]
  set un0 := un10 &&& 4294967295 with hun0def
  have hun0 : un0 = un10 % 4294967296 := by
    rw [hun0def, show (4294967295 : Nat) = 2 ^ 32 - 1 by norm_num,
      Nat.and_pow_two_sub_one_eq_mod]
  have hun10lt : un10 < 18446744073709551616 := by rw [hun10]; omega
  have hun1lt : un1 < 4294967296 := by rw [hun1]; omega
  have hun0lt : un0 < 4294967296 := by rw [hun0]; omega
  have hun10split : un10 = un1 * 4294967296 + un0 := by rw [hun1, hun0]; omega
  have hDlt : D < v * 18446744073709551616 := by
    rw [hDdef]
    simp only [b64]
    omega
  have hT : un32 * 18446744073709551616 + un10 = D * 2 ^ s := by
    rw [hun32, hun10]
    omega
  have hun32lt : un32 < v2 := by
    rw [hun32, hv2, Nat.div_lt_iff_lt_mul (by norm_num : (0 : Nat) < 18446744073709551616)]
    have h1 : (D + 1) * 2 ^ s ≤ v * 18446744073709551616 * 2 ^ s :=
      Nat.mul_le_mul_right _ (by omega)
    have h2 : (D + 1) * 2 ^ s = D * 2 ^ s + 2 ^ s := by ring
    have h3 : v * 18446744073709551616 * 2 ^ s = v * 2 ^ s * 18446744073709551616 := by ring
    rw [h3] at h1
    omega
  have hstep1 := divDigit_correct vn1 vn0 un32 un1 ((shl64 (un32 % vn1) 32 + un1) % b64)
    hvn1ge hvn1lt hvn0lt hun1lt (by rw [← hv2split]; exact hun32lt)
    (by
      have hrh : un32 % vn1 < 4294967296 := by
        have := Nat.mod_lt un32 (show 0 < vn1 by omega)
        omega
      rw [shl64_32_eq _ hrh]
      have hsum : un32 % vn1 * 4294967296 + un1 < 18446744073709551616 := by omega
      simp only [b64]
      omega)
  rw [← hv2split] at hstep1
  rw [hstep1]
  set q1v := (un32 * 4294967296 + un1) / v2 with hq1vdef
  set R1 := (un32 * 4294967296 + un1) % v2 with hR1def
  have hdm1 := Nat.div_add_mod (un32 * 4294967296 + un1) v2
  rw [← hq1vdef, ← hR1def, Nat.mul_comm v2 q1v] at hdm1
  have hR1lt : R1 < v2 := by rw [hR1def]; exact Nat.mod_lt _ (by omega)
  have hq1vlt : q1v < 4294967296 := by
    rw [hq1vdef, Nat.div_lt_iff_lt_mul (by omega : 0 < v2)]
    omega
  have hun21 : (shl64 un32 32 + sub64 un1 (q1v * v2 % b64)) % b64 = R1 := by
    simp only [shl64, sub64, b64]
    have h3 : (2 : Nat) ^ 32 = 4294967296 := by norm_num
    rw [h3]
    omega
  rw [hun21]
  have hstep2 := divDigit_correct vn1 vn0 R1 un0 (shl64 (R1 % vn1) 32 ||| un0)
    hvn1ge hvn1lt hvn0lt hun0lt (by rw [← hv2split]; exact hR1lt)
    (by
      have hrh : R1 % vn1 < 4294967296 := by
        have := Nat.mod_lt R1 (show 0 < vn1 by omega)
        omega
      rw [shl64_32_eq _ hrh, lor32_eq _ _ hun0lt])
  rw [← hv2split] at hstep2
  rw [hstep2]
  set q0v := (R1 * 4294967296 + un0) / v2 with hq0vdef
  set R0 := (R1 * 4294967296 + un0) % v2 with hR0def
  have hdm0 := Nat.div_add_mod (R1 * 4294967296 + un0) v2
  rw [← hq0vdef, ← hR0def, Nat.mul_comm v2 q0v] at hdm0
  have hR0lt : R0 < v2 := by rw [hR0def]; exact Nat.mod_lt _ (by omega)
  have hq0vlt : q0v < 4294967296 := by
    rw [hq0vdef, Nat.div_lt_iff_lt_mul (by omega : 0 < v2)]
    omega
  have hrem : (shl64 R1 32 + sub64 un0 (q0v * v2 % b64)) % b64 = R0 := by
    simp only [shl64, sub64, b64]
    have h3 : (2 : Nat) ^ 32 = 4294967296 := by norm_num
    rw [h3]
    omega
  rw [hrem]
  have hqout : shl64 q1v 32 ||| q0v = q1v * 4294967296 + q0v := by
    rw [shl64_32_eq _ hq1vlt, lor32_eq _ _ hq0vlt]
  rw [hqout, Nat.shiftRight_eq_div_pow]
  have key : un32 * 18446744073709551616 + un10
      = q1v * v2 * 4294967296 + q0v * v2 + R0 := by
    omega
  have hcalc : D * 2 ^ s = (q1v * 4294967296 + q0v) * v2 + R0 := by
    have e1 : (q1v * 4294967296 + q0v) * v2 = q1v * v2 * 4294967296 + q0v * v2 := by ring
    rw [e1, ← hT]
    omega
  rw [hv2] at hcalc
  have hv2R0 : R0 < v * 2 ^ s := by rw [← hv2]; exact hR0lt
  have hfin := div_mod_unique (D * 2 ^ s) (v * 2 ^ s) (q1v * 4294967296 + q0v) R0 hv2R0 hcalc
  have hdiv : D / v = q1v * 4294967296 + q0v := by
    rw [← hfin.1, Nat.mul_div_mul_right _ _ hspos]
  have hmod : D % v = R0 / 2 ^ s := by
    have h1 : D * 2 ^ s % (v * 2 ^ s) = D % v * 2 ^ s := Nat.mul_mod_mul_right _ _ _
    rw [hfin.2] at h1
    rw [h1, Nat.mul_div_cancel _ hspos]
  rw [hdiv, hmod]

/-- `quo128by64` computes the true quotient of the 128-bit dividend
`u1 * 2^64 + u0` by the 64-bit divisor `v`, under the `divlu` precondition
`u1 < v`. -/
theorem quo128by64_correct (u1 u0 v : Nat) (hv : v < b64) (hv0 : v ≠ 0)
    (hu0 : u0 < b64) (hu1 : u1 < v) :
    quo128by64 u1 u0 v = (u1 * b64 + u0) / v := by
  obtain ⟨hsl, hsu, hs63⟩ := leadingZeros64_spec v hv hv0
  simp only [b64] at hv hu0
  simp only [quo128by64]
  set s := leadingZeros64 v with hsdef
  set D := u1 * b64 + u0 with hDdef
  have hpow : 2 ^ (64 - s) * 2 ^ s = 18446744073709551616 := by
    rw [← Nat.pow_add]
    have h64 : 64 - s + s = 64 := by omega
    rw [h64]
  have hpow63 : 2 ^ (63 - s) * 2 ^ s = 9223372036854775808 := by
    rw [← Nat.pow_add]
    have h63 : 63 - s + s = 63 := by omega
    rw [h63]
  have hspos : 0 < 2 ^ s := Nat.pos_pow_of_pos _ (by omega)
  have hv2val : v * 2 ^ s < 18446744073709551616 := by
    have h1 : (v + 1) * 2 ^ s ≤ 2 ^ (64 - s) * 2 ^ s :=
      Nat.mul_le_mul_right _ (by omega)
    have h2 : (v + 1) * 2 ^ s = v * 2 ^ s + 2 ^ s := by ring
    rw [hpow] at h1
    omega
  have hv2ge : 9223372036854775808 ≤ v * 2 ^ s := by
    have h1 : 2 ^ (63 - s) * 2 ^ s ≤ v * 2 ^ s := Nat.mul_le_mul_right _ hsl
    rw [hpow63] at h1
    exact h1
  set v2 := shl64 v s with hv2def
  have hv2 : v2 = v * 2 ^ s := by
    rw [hv2def]
    exact shl64_eq v s (by simp only [b64]; exact hv2val)
  have hv2lt : v2 < 18446744073709551616 := by rw [hv2]; exact hv2val
  have hv2ge' : 9223372036854775808 ≤ v2 := by rw [hv2]; exact hv2ge
  set vn1 := v2 >>> 32 with hvn1def
  have hvn1 : vn1 = v2 / 4294967296 := by
    rw [hvn1def, Nat.shiftRight_eq_div_pow]
  have hvn1ge : 2147483648 ≤ vn1 := by rw [hvn1]; omega
  have hvn1lt : vn1 < 4294967296 := by rw [hvn1]; omega
  set vn0 := v2 &&& 4294967295 with hvn0def
  have hvn0 : vn0 = v2 % 4294967296 := by
    rw [hvn0def, show (4294967295 : Nat) = 2 ^ 32 - 1 by norm_num,
      Nat.and_pow_two_sub_one_eq_mod]
  have hvn0lt : vn0 < 4294967296 := by rw [hvn0]; omega
  have hv2split : v2 = vn1 * 4294967296 + vn0 := by rw [hvn1, hvn0]; omega
  set un32 := if s > 0 then shl64 u1 s ||| u0 >>> (64 - s) else u1 with hun32def
  have hun32 : un32 = D * 2 ^ s / 18446744073709551616 := by
    rw [hun32def]
    by_cases hsp : s > 0
    · rw [if_pos hsp]
      have e1 : shl64 u1 s = u1 * 2 ^ s := by
        apply shl64_eq
        have h1 : (u1 + 1) * 2 ^ s ≤ v * 2 ^ s := Nat.mul_le_mul_right _ (by omega)
        have h2 : (u1 + 1) * 2 ^ s = u1 * 2 ^ s + 2 ^ s := by ring
        simp only [b64]
        omega
      have e2 : u0 >>> (64 - s) = u0 / 2 ^ (64 - s) := Nat.shiftRight_eq_div_pow _ _
      have e3 : u0 / 2 ^ (64 - s) < 2 ^ s := by
        rw [Nat.div_lt_iff_lt_mul (Nat.pos_pow_of_pos _ (by omega)),
          Nat.mul_comm, hpow]
        omega
      rw [e1, e2, lor_mul_pow u1 (u0 / 2 ^ (64 - s)) s e3, hDdef]
      have e4 : (u1 * b64 + u0) * 2 ^ s
          = u0 * 2 ^ s + 18446744073709551616 * (u1 * 2 ^ s) := by
        simp only [b64]; ring
      rw [e4, Nat.add_mul_div_left _ _ (by norm_num : (0 : Nat) < 18446744073709551616)]
      have e5 : u0 * 2 ^ s / 18446744073709551616 = u0 / 2 ^ (64 - s) := by
        rw [← hpow, Nat.mul_div_mul_right _ _ hspos]
      rw [e5]
      ring
    · rw [if_neg hsp]
      have hs0 : s = 0 := by omega
      rw [hs0, hDdef]
      simp only [b64, pow_zero, Nat.mul_one]
      omega
  set un10 := if s > 0 then shl64 u0 s else u0 with hun10def
  have hun10 : un10 = D * 2 ^ s % 18446744073709551616 := by
    rw [hun10def]
    by_cases hsp : s > 0
    · rw [if_pos hsp]
      simp only [shl64, b64]
      rw [hDdef]
      have e4 : (u1 * b64 + u0) * 2 ^ s
          = u0 * 2 ^ s + 18446744073709551616 * (u1 * 2 ^ s) := by
        simp only [b64]; ring
      rw [e4, Nat.add_mul_mod_self_left]
    · rw [if_neg hsp]
      have hs0 : s = 0 := by omega
      rw [hs0, hDdef]
      simp only [b64, pow_zero, Nat.mul_one]
      omega
  set un1 := un10 >>> 32 with hun1def
  have hun1 : un1 = un10 / 4294967296 := by
    rw [hun1def, Nat.shiftRight_eq_div_pow]
  set un0 := un10 &&& 4294967295 with hun0def
  have hun0 : un0 = un10 % 4294967296 := by
    rw [hun0def, show (4294967295 : Nat) = 2 ^ 32 - 1 by norm_num,
      Nat.and_pow_two_sub_one_eq_mod]
  have hun10lt : un10 < 18446744073709551616 := by rw [hun10]; omega
  have hun1lt : un1 < 4294967296 := by rw [hun1]; omega
  have hun0lt : un0 < 4294967296 := by rw [hun0]; omega
  have hun10split : un10 = un1 * 4294967296 + un0 := by rw [hun1, hun0]; omega
  have hDlt : D < v * 18446744073709551616 := by
    rw [hDdef]
    simp only [b64]
    omega
  have hT : un32 * 18446744073709551616 + un10 = D * 2 ^ s := by
    rw [hun32, hun10]
    omega
  have hun32lt : un32 < v2 := by
    rw [hun32, hv2, Nat.div_lt_iff_lt_mul (by norm_num : (0 : Nat) < 18446744073709551616)]
    have h1 : (D + 1) * 2 ^ s ≤ v * 18446744073709551616 * 2 ^ s :=
      Nat.mul_le_mul_right _ (by omega)
    have h2 : (D + 1) * 2 ^ s = D * 2 ^ s + 2 ^ s := by ring
    have h3 : v * 18446744073709551616 * 2 ^ s = v * 2 ^ s * 18446744073709551616 := by ring
    rw [h3] at h1
    omega
  have hstep1 := divDigit_correct vn1 vn0 un32 un1 (shl64 (un32 % vn1) 32 ||| un1)
    hvn1ge hvn1lt hvn0lt hun1lt (by rw [← hv2split]; exact hun32lt)
    (by
      have hrh : un32 % vn1 < 4294967296 := by
        have := Nat.mod_lt un32 (show 0 < vn1 by omega)
        omega
      rw [shl64_32_eq _ hrh, lor32_eq _ _ hun1lt])
  rw [← hv2split] at hstep1
  rw [hstep1]
  set q1v := (un32 * 4294967296 + un1) / v2 with hq1vdef
  set R1 := (un32 * 4294967296 + un1) % v2 with hR1def
  have hdm1 := Nat.div_add_mod (un32 * 4294967296 + un1) v2
  rw [← hq1vdef, ← hR1def, Nat.mul_comm v2 q1v] at hdm1
  have hR1lt : R1 < v2 := by rw [hR1def]; exact Nat.mod_lt _ (by omega)
  have hq1vlt : q1v < 4294967296 := by
    rw [hq1vdef, Nat.div_lt_iff_lt_mul (by omega : 0 < v2)]
    omega
  have hun21 : (shl64 un32 32 + sub64 un1 (q1v * v2 % b64)) % b64 = R1 := by
    simp only [shl64, sub64, b64]
    have h3 : (2 : Nat) ^ 32 = 4294967296 := by norm_num
    rw [h3]
    omega
  rw [hun21]
  have hstep2 := divDigit_correct vn1 vn0 R1 un0 (shl64 (R1 % vn1) 32 ||| un0)
    hvn1ge hvn1lt hvn0lt hun0lt (by rw [← hv2split]; exact hR1lt)
    (by
      have hrh : R1 % vn1 < 4294967296 := by
        have := Nat.mod_lt R1 (show 0 < vn1 by omega)
        omega
      rw [shl64_32_eq _ hrh, lor32_eq _ _ hun0lt])
  rw [← hv2split] at hstep2
  rw [hstep2]
  set q0v := (R1 * 4294967296 + un0) / v2 with hq0vdef
  set R0 := (R1 * 4294967296 + un0) % v2 with hR0def
  have hdm0 := Nat.div_add_mod (R1 * 4294967296 + un0) v2
  rw [← hq0vdef, ← hR0def, Nat.mul_comm v2 q0v] at hdm0
  have hR0lt : R0 < v2 := by rw [hR0def]; exact Nat.mod_lt _ (by omega)
  have hq0vlt : q0v < 4294967296 := by
    rw [hq0vdef, Nat.div_lt_iff_lt_mul (by omega : 0 < v2)]
    omega
  have hqout : shl64 q1v 32 ||| q0v = q1v * 4294967296 + q0v := by
    rw [shl64_32_eq _ hq1vlt, lor32_eq _ _ hq0vlt]
  rw [hqout]
  have hcalc : D * 2 ^ s = (q1v * 4294967296 + q0v) * v2 + R0 := by
    have e1 : (q1v * 4294967296 + q0v) * v2 = q1v * v2 * 4294967296 + q0v * v2 := by ring
    rw [e1, ← hT]
    omega
  rw [hv2] at hcalc
  have hv2R0 : R0 < v * 2 ^ s := by rw [← hv2]; exact hR0lt
  have hfin := div_mod_unique (D * 2 ^ s) (v * 2 ^ s) (q1v * 4294967296 + q0v) R0 hv2R0 hcalc
  rw [← hfin.1, Nat.mul_div_mul_right _ _ hspos]

/-- Estimate bound for the `quorem128by128` fast path: dividing by the top
64 bits `W` of the normalized divisor (`V * E = W * 2^64 + L`, `E = 2^sh`)
overshoots the true quotient `q` by at most one. -/
theorem estimate_le (E W L V M q qh : Nat)
    (hE1 : 1 ≤ E) (hE2 : E ≤ 9223372036854775808)
    (hVE : V * E = W * 18446744073709551616 + L)
    (hL : L + E ≤ 18446744073709551616)
    (hW : 9223372036854775808 ≤ W)
    (hM : M < 340282366920938463463374607431768211456)
    (hqh : qh * (W * 18446744073709551616) ≤ M * E)
    (hMq : M < (q + 1) * V)
    (hqV : q * V ≤ M) :
    qh ≤ q + 1 := by
  by_contra hcon
  push_neg at hcon
  have a1 : W * 18446744073709551616 ≤ V * E := by omega
  have a2 : q * (W * 18446744073709551616) ≤ q * (V * E) :=
    Nat.mul_le_mul_left _ a1
  have a3 : q * (V * E) = q * V * E := by ring
  have a4 : q * V * E ≤ M * E := Nat.mul_le_mul_right _ hqV
  have a5 : M * E ≤ 340282366920938463463374607431768211455 * E :=
    Nat.mul_le_mul_right _ (by omega)
  have a6 : q * (W * 18446744073709551616) = q * W * 18446744073709551616 := by ring
  have a7 : q * 9223372036854775808 ≤ q * W := Nat.mul_le_mul_left _ hW
  have a8 : q * 9223372036854775808 * 18446744073709551616
      ≤ q * W * 18446744073709551616 := Nat.mul_le_mul_right _ a7
  have hq2E : q < 2 * E := by omega
  have b1 : (q + 2) * (W * 18446744073709551616) ≤ qh * (W * 18446744073709551616) :=
    Nat.mul_le_mul_right _ (by omega)
  have bb1 : (q + 2) * (W * 18446744073709551616)
      = q * W * 18446744073709551616 + W * 18446744073709551616 * 2 := by ring
  have b2 : M * E ≤ ((q + 1) * V - 1) * E := Nat.mul_le_mul_right _ (by omega)
  have b3 : ((q + 1) * V - 1) * E = q * V * E + V * E - E := by
    rw [Nat.sub_mul, Nat.one_mul]
    congr 1
    ring
  have b5 : q * V * E = q * W * 18446744073709551616 + q * L := by
    have e1 : q * V * E = q * (V * E) := by ring
    rw [e1, hVE]
    ring
  have b6 : W * 18446744073709551616 + E ≤ q * L + L := by omega
  have c1 : q * L + L ≤ (q + 1) * (18446744073709551616 - E) := by
    have e1 : (q + 1) * (18446744073709551616 - E)
        = q * (18446744073709551616 - E) + (18446744073709551616 - E) := by ring
    have e2 : q * L ≤ q * (18446744073709551616 - E) :=
      Nat.mul_le_mul_left _ (by omega)
    omega
  have c2 : (q + 1) * (18446744073709551616 - E)
      ≤ 2 * E * (18446744073709551616 - E) := Nat.mul_le_mul_right _ (by omega)
  have cid : 2 * E * (18446744073709551616 - E)
      + 2 * ((9223372036854775808 - E) * (9223372036854775808 - E))
      = 170141183460469231731687303715884105728 := by
    zify [hE2, show E ≤ 18446744073709551616 by omega]
    ring
  omega

/-- `quorem128by128`, divisor fitting in 64 bits: two chained `divlu` digit
divisions produce the exact quotient and remainder. -/
theorem quorem128by128_correct_lo (m v : U128) (hm : m.norm) (hv : v.norm)
    (hhi : v.hi = 0) (hlo : v.lo ≠ 0) :
    ((quorem128by128 m v).1.toNat = m.toNat / v.toNat ∧ (quorem128by128 m v).1.norm) ∧
    ((quorem128by128 m v).2.toNat = m.toNat % v.toNat ∧ (quorem128by128 m v).2.norm) := by
  obtain ⟨hm1, hm2⟩ := hm
  obtain ⟨hv1, hv2⟩ := hv
  simp only [quorem128by128]
  rw [if_pos hhi]
  by_cases hc : m.hi < v.lo
  · rw [if_pos hc, quorem128by64_correct m.hi m.lo v.lo hv2 hlo hm2 hc]
    simp only [U128.toNat, U128.norm, b64, hhi, Nat.zero_mul, Nat.zero_add] at *
    have hqlt : (m.hi * 18446744073709551616 + m.lo) / v.lo < 18446744073709551616 := by
      rw [Nat.div_lt_iff_lt_mul (by omega : 0 < v.lo)]
      omega
    have hrlt : (m.hi * 18446744073709551616 + m.lo) % v.lo < v.lo :=
      Nat.mod_lt _ (by omega)
    exact ⟨⟨trivial, by omega, hqlt⟩, trivial, by omega, by omega⟩
  · rw [if_neg hc,
      quorem128by64_correct (m.hi % v.lo) m.lo v.lo hv2 hlo hm2 (Nat.mod_lt _ (by omega))]
    simp only [U128.toNat, U128.norm, b64, hhi, Nat.zero_mul, Nat.zero_add] at *
    set A := m.hi / v.lo with hA
    set B := m.hi % v.lo with hB
    set C := (B * 18446744073709551616 + m.lo) / v.lo with hC
    set R := (B * 18446744073709551616 + m.lo) % v.lo with hR
    have hd1 := Nat.div_add_mod m.hi v.lo
    rw [← hA, ← hB] at hd1
    have hd2 := Nat.div_add_mod (B * 18446744073709551616 + m.lo) v.lo
    rw [← hC, ← hR] at hd2
    have hBlt : B < v.lo := by rw [hB]; exact Nat.mod_lt _ (by omega)
    have hRlt : R < v.lo := by rw [hR]; exact Nat.mod_lt _ (by omega)
    have hClt : C < 18446744073709551616 := by
      rw [hC, Nat.div_lt_iff_lt_mul (by omega : 0 < v.lo)]
      omega
    have hAlt : A < 18446744073709551616 := by
      rw [hA]
      exact Nat.lt_of_le_of_lt (Nat.div_le_self _ _) hm1
    have heq : m.hi * 18446744073709551616 + m.lo
        = (A * 18446744073709551616 + C) * v.lo + R := by
      have e1 : (A * 18446744073709551616 + C) * v.lo
          = v.lo * A * 18446744073709551616 + v.lo * C := by ring
      omega
    have hkey := div_mod_unique (m.hi * 18446744073709551616 + m.lo) v.lo
      (A * 18446744073709551616 + C) R hRlt heq
    exact ⟨⟨hkey.1.symm, hAlt, hClt⟩, hkey.2.symm, by omega, by omega⟩

theorem lor_eq_zero_parts (a b : Nat) (h : a ||| b = 0) : a = 0 ∧ b = 0 := by
  constructor
  · apply Nat.eq_of_testBit_eq
    intro j
    have h2 := congrArg (fun x => x.testBit j) h
    simp only [Nat.testBit_or, Nat.zero_testBit] at h2
    simp only [Nat.zero_testBit]
    exact (Bool.or_eq_false_iff.mp h2).1
  · apply Nat.eq_of_testBit_eq
    intro j
    have h2 := congrArg (fun x => x.testBit j) h
    simp only [Nat.testBit_or, Nat.zero_testBit] at h2
    simp only [Nat.zero_testBit]
    exact (Bool.or_eq_false_iff.mp h2).2

/-- `quorem128by128`, divisor with a nonzero high limb: the normalized
top-word estimate, off by at most one, is fixed by the final compare. -/
theorem quorem128by128_correct_hi (m v : U128) (hm : m.norm) (hv : v.norm)
    (hhi : v.hi ≠ 0) :
    ((quorem128by128 m v).1.toNat = m.toNat / v.toNat ∧ (quorem128by128 m v).1.norm) ∧
    ((quorem128by128 m v).2.toNat = m.toNat % v.toNat ∧ (quorem128by128 m v).2.norm) := by
  have hVtoNat : v.toNat = v.hi * 18446744073709551616 + v.lo := by
    simp only [U128.toNat, b64]
  have hMtoNat : m.toNat = m.hi * 18446744073709551616 + m.lo := by
    simp only [U128.toNat, b64]
  have hMlt : m.toNat < 340282366920938463463374607431768211456 := by
    have := U128.toNat_lt m hm
    simp only [b128] at this
    exact this
  have hv1' : v.hi < 18446744073709551616 := by
    have := hv.1
    simp only [b64] at this
    exact this
  have hv2' : v.lo < 18446744073709551616 := by
    have := hv.2
    simp only [b64] at this
    exact this
  have hVpos : 0 < v.toNat := by omega
  obtain ⟨hsh1, hsh2, hsh3⟩ := leadingZeros64_spec v.hi hv.1 hhi
  simp only [quorem128by128]
  rw [if_neg hhi]
  set qd := m.toNat / v.toNat with hqddef
  set rd := m.toNat % v.toNat with hrddef
  have hdm := Nat.div_add_mod m.toNat v.toNat
  rw [← hqddef, ← hrddef] at hdm
  have hrdlt : rd < v.toNat := by rw [hrddef]; exact Nat.mod_lt _ (by omega)
  have hqdlt : qd < 340282366920938463463374607431768211456 := by
    rw [hqddef]
    exact Nat.lt_of_le_of_lt (Nat.div_le_self _ _) hMlt
  clear_value qd rd
  set sh := leadingZeros64 v.hi with hshdef
  set v1 := v.Lsh sh with hv1def
  set u1 := m.Rsh 1 with hu1def
  have hp64 : 2 ^ (64 - sh) * 2 ^ sh = 18446744073709551616 := by
    rw [← Nat.pow_add]
    have h64 : 64 - sh + sh = 64 := by omega
    rw [h64]
  have hp63 : 2 ^ (63 - sh) * 2 ^ sh = 9223372036854775808 := by
    rw [← Nat.pow_add]
    have h63 : 63 - sh + sh = 63 := by omega
    rw [h63]
  have hp64s : 2 ^ (64 - sh) = 2 ^ (63 - sh) * 2 := by
    rw [← Nat.pow_succ]
    congr 1
    omega
  have hspos : 0 < 2 ^ sh := Nat.pos_pow_of_pos _ (by omega)
  have hVub : v.toNat < 2 ^ (64 - sh) * 18446744073709551616 := by
    have h1 : (v.hi + 1) * 18446744073709551616
        ≤ 2 ^ (64 - sh) * 18446744073709551616 := Nat.mul_le_mul_right _ (by omega)
    have h2 : (v.hi + 1) * 18446744073709551616
        = v.hi * 18446744073709551616 + 18446744073709551616 := by ring
    omega
  have hVlb : 2 ^ (63 - sh) * 18446744073709551616 ≤ v.toNat := by
    have h1 : 2 ^ (63 - sh) * 18446744073709551616
        ≤ v.hi * 18446744073709551616 := Nat.mul_le_mul_right _ hsh1
    omega
  have hnov : v.toNat * 2 ^ sh < 340282366920938463463374607431768211456 := by
    have h1 : (v.toNat + 1) * 2 ^ sh
        ≤ 2 ^ (64 - sh) * 18446744073709551616 * 2 ^ sh :=
      Nat.mul_le_mul_right _ (by omega)
    have h2 : (v.toNat + 1) * 2 ^ sh = v.toNat * 2 ^ sh + 2 ^ sh := by ring
    have h3 : 2 ^ (64 - sh) * 18446744073709551616 * 2 ^ sh
        = 2 ^ (64 - sh) * 2 ^ sh * 18446744073709551616 := by ring
    rw [hp64] at h3
    omega
  have hv1spec := U128.Lsh_toNat v sh hv
  rw [← hv1def] at hv1spec
  have hv1norm : v1.norm := hv1spec.2
  have hv1toNat : v1.toNat = v.toNat * 2 ^ sh := by
    rw [hv1spec.1]
    simp only [b128]
    omega
  have hWL : v1.hi * 18446744073709551616 + v1.lo = v.toNat * 2 ^ sh := by
    rw [← hv1toNat]
    simp only [U128.toNat, b64]
  have hWlt : v1.hi < 18446744073709551616 := by
    have := hv1norm.1
    simp only [b64] at this
    exact this
  have hv1lolt : v1.lo < 18446744073709551616 := by
    have := hv1norm.2
    simp only [b64] at this
    exact this
  have hWge : 9223372036854775808 ≤ v1.hi := by
    have h1 : 2 ^ (63 - sh) * 18446744073709551616 * 2 ^ sh ≤ v.toNat * 2 ^ sh :=
      Nat.mul_le_mul_right _ hVlb
    have h2 : 2 ^ (63 - sh) * 18446744073709551616 * 2 ^ sh
        = 2 ^ (63 - sh) * 2 ^ sh * 18446744073709551616 := by ring
    rw [hp63] at h2
    omega
  have hu1spec := U128.Rsh_toNat m 1 hm
  rw [← hu1def] at hu1spec
  have hu1norm : u1.norm := hu1spec.2
  have hu1toNat : u1.toNat = m.toNat / 2 := by
    rw [hu1spec.1]
    norm_num
  have hu1split : u1.hi * 18446744073709551616 + u1.lo = u1.toNat := by
    simp only [U128.toNat, b64]
  have hu1lo : u1.lo < 18446744073709551616 := by
    have := hu1norm.2
    simp only [b64] at this
    exact this
  have hu1hi : u1.hi < v1.hi := by
    have : u1.hi < 9223372036854775808 := by omega
    omega
  set q1l := quo128by64 u1.hi u1.lo v1.hi with hq1ldef
  have hq1lval : q1l = u1.toNat / v1.hi := by
    rw [hq1ldef, quo128by64_correct u1.hi u1.lo v1.hi hv1norm.1 (by omega) hu1norm.2 hu1hi]
    simp only [U128.toNat]
  have hq1llt : q1l < 18446744073709551616 := by
    rw [hq1lval, Nat.div_lt_iff_lt_mul (by omega : 0 < v1.hi)]
    omega
  have hq10norm : (U128.mk 0 q1l).norm := by
    simp only [U128.norm, b64]
    omega
  set q2 := (U128.mk 0 q1l).Rsh (63 - sh) with hq2def
  have hq2spec := U128.Rsh_toNat (U128.mk 0 q1l) (63 - sh) hq10norm
  rw [← hq2def] at hq2spec
  have hq2norm : q2.norm := hq2spec.2
  have hq2toNat : q2.toNat = q1l / 2 ^ (63 - sh) := by
    rw [hq2spec.1]
    simp only [U128.toNat, b64, Nat.zero_mul, Nat.zero_add]
  have hqhat : q2.toNat = m.toNat / (v1.hi * 2 ^ (64 - sh)) := by
    rw [hq2toNat, hq1lval, hu1toNat, Nat.div_div_eq_div_mul, Nat.div_div_eq_div_mul]
    congr 1
    rw [hp64s]
    ring
  have hKpos : 0 < v1.hi * 2 ^ (64 - sh) :=
    Nat.mul_pos (by omega) (Nat.pos_pow_of_pos _ (by omega))
  have hKle : v1.hi * 2 ^ (64 - sh) ≤ v.toNat := by
    have h1 : v1.hi * 2 ^ (64 - sh) * 2 ^ sh = v1.hi * 18446744073709551616 := by
      rw [Nat.mul_assoc, hp64]
    have h2 : v1.hi * 18446744073709551616 ≤ v.toNat * 2 ^ sh := by omega
    rw [← h1] at h2
    exact Nat.le_of_mul_le_mul_right h2 hspos
  have hqle : qd ≤ q2.toNat := by
    rw [hqddef, hqhat]
    exact Nat.div_le_div_left hKle hKpos
  have hqV : qd * v.toNat ≤ m.toNat := by
    have e : qd * v.toNat = v.toNat * qd := Nat.mul_comm _ _
    omega
  have hMq : m.toNat < (qd + 1) * v.toNat := by
    have e : (qd + 1) * v.toNat = v.toNat * qd + v.toNat := by ring
    omega
  have hE2 : 2 ^ sh ≤ 9223372036854775808 := by
    have h1 := Nat.pow_le_pow_right (show 1 ≤ 2 by omega) hsh3
    have h2 : (2 : Nat) ^ 63 = 9223372036854775808 := by norm_num
    omega
  have hLbound : v1.lo + 2 ^ sh ≤ 18446744073709551616 := by
    have hd64 : 2 ^ sh ∣ 18446744073709551616 := by
      have h1 := pow_dvd_pow 2 (show sh ≤ 64 by omega)
      have h2 : (2 : Nat) ^ 64 = 18446744073709551616 := by norm_num
      rwa [h2] at h1
    have hdvd1 : 2 ^ sh ∣ v1.lo := by
      have hsub : v1.lo = v.toNat * 2 ^ sh - v1.hi * 18446744073709551616 := by omega
      rw [hsub]
      exact Nat.dvd_sub' (Dvd.dvd.mul_left (dvd_refl (2 ^ sh)) v.toNat)
        (Dvd.dvd.mul_left hd64 v1.hi)
    obtain ⟨c, hc⟩ := hdvd1
    have hp64c : 2 ^ sh * 2 ^ (64 - sh) = 18446744073709551616 := by
      rw [Nat.mul_comm]
      exact hp64
    have hclt : c < 2 ^ (64 - sh) := by
      by_contra hcon
      push_neg at hcon
      have h1 : 2 ^ sh * 2 ^ (64 - sh) ≤ 2 ^ sh * c := Nat.mul_le_mul_left _ hcon
      rw [hp64c] at h1
      omega
    have h1 : 2 ^ sh * (c + 1) ≤ 2 ^ sh * 2 ^ (64 - sh) := Nat.mul_le_mul_left _ (by omega)
    rw [hp64c] at h1
    have h2 : 2 ^ sh * (c + 1) = 2 ^ sh * c + 2 ^ sh := by ring
    omega
  have hqhbound : q2.toNat * (v1.hi * 18446744073709551616) ≤ m.toNat * 2 ^ sh := by
    have h1 : q2.toNat * (v1.hi * 2 ^ (64 - sh)) ≤ m.toNat := by
      rw [hqhat]
      exact Nat.div_mul_le_self _ _
    have h2 : q2.toNat * (v1.hi * 2 ^ (64 - sh)) * 2 ^ sh ≤ m.toNat * 2 ^ sh :=
      Nat.mul_le_mul_right _ h1
    have h3 : q2.toNat * (v1.hi * 2 ^ (64 - sh)) * 2 ^ sh
        = q2.toNat * (v1.hi * (2 ^ (64 - sh) * 2 ^ sh)) := by ring
    rw [hp64] at h3
    rw [h3] at h2
    exact h2
  have hqh_le : q2.toNat ≤ qd + 1 :=
    estimate_le (2 ^ sh) v1.hi v1.lo v.toNat m.toNat qd q2.toNat
      (by omega) hE2 hWL.symm hLbound hWge hMlt hqhbound hMq hqV
  by_cases hz : q2.hi ||| q2.lo ≠ 0
  · rw [if_pos hz]
    have hq2split : q2.hi * 18446744073709551616 + q2.lo = q2.toNat := by
      simp only [U128.toNat, b64]
    have hq2pos : 1 ≤ q2.toNat := by
      rcases Nat.eq_zero_or_pos q2.toNat with h0 | h0
      · exfalso
        apply hz
        have hhi0 : q2.hi = 0 := by omega
        have hlo0 : q2.lo = 0 := by omega
        rw [hhi0, hlo0]
        decide
      · exact h0
    set q3 := q2.Dec with hq3def
    have hq3spec := U128.Dec_toNat q2 hq2norm
    rw [← hq3def] at hq3spec
    have hq3norm : q3.norm := hq3spec.2
    have hq2lt : q2.toNat < 340282366920938463463374607431768211456 := by
      have := U128.toNat_lt q2 hq2norm
      simp only [b128] at this
      exact this
    have hq3toNat : q3.toNat = q2.toNat - 1 := by
      rw [hq3spec.1]
      simp only [b128]
      omega
    have hq3Mul := U128.Mul_toNat q3 v hq3norm hv
    have htle : q3.toNat * v.toNat ≤ m.toNat := by
      have h1 : q3.toNat * v.toNat ≤ qd * v.toNat :=
        Nat.mul_le_mul_right _ (by omega)
      omega
    have htval : (q3.Mul v).toNat = q3.toNat * v.toNat := by
      rw [hq3Mul.1]
      simp only [b128]
      omega
    have hrval : (m.Sub (q3.Mul v)).toNat = m.toNat - q3.toNat * v.toNat := by
      rw [U128.Sub_toNat_of_le m _ hm hq3Mul.2 (by rw [htval]; exact htle), htval]
    have hrnorm : (m.Sub (q3.Mul v)).norm := (U128.Sub_toNat m _ hm hq3Mul.2).2
    by_cases hge : (m.Sub (q3.Mul v)).Cmp v ≥ 0
    · rw [if_pos hge]
      have hVle : v.toNat ≤ (m.Sub (q3.Mul v)).toNat := (U128.Cmp_ge _ v hrnorm hv).mp hge
      rw [hrval] at hVle
      have hcmp1 : (q3.toNat + 1) * v.toNat ≤ m.toNat := by
        have e : (q3.toNat + 1) * v.toNat = q3.toNat * v.toNat + v.toNat := by ring
        omega
      have hge1 : q3.toNat + 1 ≤ qd := by
        rw [hqddef, Nat.le_div_iff_mul_le (by omega : 0 < v.toNat)]
        exact hcmp1
      have hqeq : qd = q3.toNat + 1 := by omega
      have hIncSpec := U128.Inc_toNat q3 hq3norm
      have hq1comp : (q3.Inc).toNat = qd := by
        rw [hIncSpec.1]
        simp only [b128]
        omega
      have hr2val : ((m.Sub (q3.Mul v)).Sub v).toNat = rd := by
        rw [U128.Sub_toNat_of_le _ v hrnorm hv (by rw [hrval]; omega), hrval]
        have e1 : v.toNat * qd = q3.toNat * v.toNat + v.toNat := by
          rw [hqeq]; ring
        omega
      exact ⟨⟨hq1comp, hIncSpec.2⟩, hr2val, (U128.Sub_toNat _ v hrnorm hv).2⟩
    · rw [if_neg hge]
      have hlt : (m.Sub (q3.Mul v)).Cmp v < 0 := by omega
      have hVgt : (m.Sub (q3.Mul v)).toNat < v.toNat := (U128.Cmp_lt _ v hrnorm hv).mp hlt
      rw [hrval] at hVgt
      have hub : qd < q3.toNat + 1 := by
        rw [hqddef, Nat.div_lt_iff_lt_mul (by omega : 0 < v.toNat)]
        have e : (q3.toNat + 1) * v.toNat = q3.toNat * v.toNat + v.toNat := by ring
        omega
      have hqeq : qd = q3.toNat := by omega
      have hrcomp : (m.Sub (q3.Mul v)).toNat = rd := by
        rw [hrval]
        have e1 : v.toNat * qd = q3.toNat * v.toNat := by
          rw [hqeq]; ring
        omega
      refine ⟨⟨?_, hq3norm⟩, hrcomp, hrnorm⟩
      show q3.toNat = qd
      omega
  · rw [if_neg hz]
    push_neg at hz
    obtain ⟨hhi0, hlo0⟩ := lor_eq_zero_parts _ _ hz
    have hq2z : q2.toNat = 0 := by
      have : q2.toNat = q2.hi * 18446744073709551616 + q2.lo := by
        simp only [U128.toNat, b64]
      omega
    have hqd0 : qd = 0 := by omega
    rw [hqd0, Nat.mul_zero] at hdm
    have hq2Mul := U128.Mul_toNat q2 v hq2norm hv
    have htval : (q2.Mul v).toNat = 0 := by
      rw [hq2Mul.1, hq2z]
      simp only [b128]
      omega
    have hrval : (m.Sub (q2.Mul v)).toNat = m.toNat := by
      rw [U128.Sub_toNat_of_le m _ hm hq2Mul.2 (by rw [htval]; omega), htval]
      omega
    have hrnorm : (m.Sub (q2.Mul v)).norm := (U128.Sub_toNat m _ hm hq2Mul.2).2
    have hMV : m.toNat < v.toNat := by omega
    have hlt : (m.Sub (q2.Mul v)).Cmp v < 0 := by
      apply (U128.Cmp_lt _ v hrnorm hv).mpr
      rw [hrval]
      exact hMV
    rw [if_neg (by omega : ¬ (m.Sub (q2.Mul v)).Cmp v ≥ 0)]
    refine ⟨⟨?_, hq2norm⟩, ?_, hrnorm⟩
    · show q2.toNat = qd
      omega
    · show (m.Sub (q2.Mul v)).toNat = rd
      rw [hrval]
      omega

/-- `quorem128by128` computes the true quotient and remainder for any
nonzero divisor. -/
theorem quorem128by128_correct (m v : U128) (hm : m.norm) (hv : v.norm)
    (hne : v.toNat ≠ 0) :
    ((quorem128by128 m v).1.toNat = m.toNat / v.toNat ∧ (quorem128by128 m v).1.norm) ∧
    ((quorem128by128 m v).2.toNat = m.toNat % v.toNat ∧ (quorem128by128 m v).2.norm) := by
  by_cases hhi : v.hi = 0
  · have hlo : v.lo ≠ 0 := by
      intro h
      apply hne
      simp only [U128.toNat, hhi, h]
      omega
    exact quorem128by128_correct_lo m v hm hv hhi hlo
  · exact quorem128by128_correct_hi m v hm hv hhi

/-- The hand-inlined 128-bit left shift by one in the binary division loops. -/
theorem shl1_limbs (q : U128) (hq : q.norm)
    (hlt : 2 * q.toNat < 340282366920938463463374607431768211456) :
    ((shl64 q.hi 1) ||| (q.lo >>> 63)) * 18446744073709551616 + shl64 q.lo 1
        = 2 * q.toNat
      ∧ (shl64 q.hi 1) ||| (q.lo >>> 63) < 18446744073709551616
      ∧ shl64 q.lo 1 < 18446744073709551616 := by
  have hto : q.toNat = q.hi * 18446744073709551616 + q.lo := by
    simp only [U128.toNat, b64]
  have hlo : q.lo < 18446744073709551616 := by
    have := hq.2; simp only [b64] at this; exact this
  have h1 : q.hi < 9223372036854775808 := by omega
  have h2 : shl64 q.hi 1 = q.hi * 2 := by
    simp only [shl64, b64, pow_one]
    omega
  have h3 : q.lo >>> 63 = q.lo / 9223372036854775808 := by
    rw [Nat.shiftRight_eq_div_pow]
  have h5 : (q.hi * 2) ||| (q.lo / 9223372036854775808)
      = q.hi * 2 + q.lo / 9223372036854775808 := by
    have h := lor_mul_pow q.hi (q.lo / 9223372036854775808) 1 (by omega : q.lo / 9223372036854775808 < 2 ^ 1)
    simp only [pow_one] at h
    exact h
  have h6 : shl64 q.lo 1 = q.lo % 9223372036854775808 * 2 := by
    simp only [shl64, b64, pow_one]
    omega
  rw [h2, h3, h5, h6]
  refine ⟨by omega, by omega, by omega⟩

/-- The hand-inlined 128-bit right shift by one in the binary division loops. -/
theorem shr1_limbs (v : U128) (hv : v.norm) :
    (v.hi >>> 1) * 18446744073709551616 + ((v.lo >>> 1) ||| (shl64 v.hi 63))
        = v.toNat / 2
      ∧ v.hi >>> 1 < 18446744073709551616
      ∧ (v.lo >>> 1) ||| (shl64 v.hi 63) < 18446744073709551616 := by
  have hto : v.toNat = v.hi * 18446744073709551616 + v.lo := by
    simp only [U128.toNat, b64]
  have hhi : v.hi < 18446744073709551616 := by
    have := hv.1; simp only [b64] at this; exact this
  have hlo : v.lo < 18446744073709551616 := by
    have := hv.2; simp only [b64] at this; exact this
  have h1 : v.hi >>> 1 = v.hi / 2 := by
    rw [Nat.shiftRight_eq_div_pow]
  have h2 : v.lo >>> 1 = v.lo / 2 := by
    rw [Nat.shiftRight_eq_div_pow]
  have h3 : shl64 v.hi 63 = v.hi % 2 * 9223372036854775808 := by
    simp only [shl64, b64]
    norm_num
    omega
  have h4 : (v.lo / 2) ||| (v.hi % 2 * 9223372036854775808)
      = v.hi % 2 * 9223372036854775808 + v.lo / 2 := by
    have hb : v.lo / 2 < 2 ^ 63 := by
      have e : (2 : Nat) ^ 63 = 9223372036854775808 := by norm_num
      omega
    have h := lor_mul_pow_comm (v.hi % 2) (v.lo / 2) 63 hb
    have e : (2 : Nat) ^ 63 = 9223372036854775808 := by norm_num
    rw [e] at h
    exact h
  rw [h1, h2, h3, h4]
  refine ⟨by omega, by omega, by omega⟩

/-- The Go comparison `u.hi < v.hi || (u.hi == v.hi && u.lo < v.lo)` is the
value order. -/
theorem U128.lex_lt_iff (u v : U128) (hu : u.norm) (hv : v.norm) :
    (u.hi < v.hi ∨ (u.hi = v.hi ∧ u.lo < v.lo)) ↔ u.toNat < v.toNat := by
  obtain ⟨h1, h2⟩ := hu
  obtain ⟨h3, h4⟩ := hv
  simp only [U128.toNat, b64] at *
  omega

/-- Loop invariant of the shift-and-subtract division: with `v = B * 2^k` and
`u < 2 * v`, running the remaining `k+1` iterations appends the next `k+1`
quotient bits of `u / B` to the accumulator `q` and leaves `u % B`. -/
theorem quorem128binLoop_correct (k : Nat) :
    ∀ (u v q : U128) (B : Nat), u.norm → v.norm → q.norm → 0 < B →
    v.toNat = B * 2 ^ k →
    u.toNat < 2 * v.toNat →
    q.toNat * 2 ^ (k + 1) + u.toNat / B < 340282366920938463463374607431768211456 →
    ((quorem128binLoop k u v q).1.toNat = q.toNat * 2 ^ (k + 1) + u.toNat / B ∧
      (quorem128binLoop k u v q).1.norm) ∧
    ((quorem128binLoop k u v q).2.toNat = u.toNat % B ∧
      (quorem128binLoop k u v q).2.norm) := by
  induction k with
  | zero =>
    intro u v q B hu hv hq hB hvB hub hfit
    simp only [pow_zero, Nat.mul_one] at hvB
    simp only [Nat.zero_add, pow_one] at hfit ⊢
    have hd0 : 0 ≤ u.toNat / B := Nat.zero_le _
    have hqto : q.toNat = q.hi * 18446744073709551616 + q.lo := by
      simp only [U128.toNat, b64]
    have h2q : 2 * q.toNat < 340282366920938463463374607431768211456 := by omega
    have hq1 := shl1_limbs q hq h2q
    have hor : shl64 q.lo 1 ||| 1 = shl64 q.lo 1 + 1 := by
      have e : shl64 q.lo 1 = q.lo % 9223372036854775808 * 2 := by
        simp only [shl64, b64, pow_one]
        omega
      rw [e]
      have h := lor_mul_pow (q.lo % 9223372036854775808) 1 1
        (by norm_num : (1 : Nat) < 2 ^ 1)
      simp only [pow_one] at h
      exact h
    simp only [quorem128binLoop]
    by_cases hge : v.toNat ≤ u.toNat
    · have hnotlex : ¬ (u.hi < v.hi ∨ (u.hi = v.hi ∧ u.lo < v.lo)) := by
        rw [U128.lex_lt_iff u v hu hv]
        omega
      rw [if_pos hnotlex]
      have hdm := div_mod_unique u.toNat B 1 (u.toNat - B) (by omega)
        (by omega)
      have hcomp1 : (U128.mk (shl64 q.hi 1 ||| q.lo >>> 63) (shl64 q.lo 1 ||| 1)).toNat
          = q.toNat * 2 + u.toNat / B := by
        rw [hdm.1]
        simp only [U128.toNat, b64]
        rw [hor]
        omega
      have hnorm1 : (U128.mk (shl64 q.hi 1 ||| q.lo >>> 63) (shl64 q.lo 1 ||| 1)).norm := by
        simp only [U128.norm, b64]
        constructor
        · exact hq1.2.1
        · rw [hor]
          have e : shl64 q.lo 1 = q.lo % 9223372036854775808 * 2 := by
            simp only [shl64, b64, pow_one]
            omega
          omega
      have hcomp2 : (u.Sub v).toNat = u.toNat % B := by
        rw [U128.Sub_toNat_of_le u v hu hv hge, hvB, hdm.2]
      exact ⟨⟨hcomp1, hnorm1⟩, hcomp2, (U128.Sub_toNat u v hu hv).2⟩
    · have hlex : u.hi < v.hi ∨ (u.hi = v.hi ∧ u.lo < v.lo) := by
        rw [U128.lex_lt_iff u v hu hv]
        omega
      rw [if_neg (not_not_intro hlex)]
      have hdiv0 : u.toNat / B = 0 := Nat.div_eq_of_lt (by omega)
      have hmod0 : u.toNat % B = u.toNat := Nat.mod_eq_of_lt (by omega)
      have hcomp1 : (U128.mk (shl64 q.hi 1 ||| q.lo >>> 63) (shl64 q.lo 1)).toNat
          = q.toNat * 2 + u.toNat / B := by
        rw [hdiv0]
        simp only [U128.toNat, b64]
        omega
      have hnorm1 : (U128.mk (shl64 q.hi 1 ||| q.lo >>> 63) (shl64 q.lo 1)).norm := by
        simp only [U128.norm, b64]
        exact ⟨hq1.2.1, hq1.2.2⟩
      exact ⟨⟨hcomp1, hnorm1⟩, hmod0.symm ▸ ⟨rfl, hu⟩⟩
  | succ s ih =>
    intro u v q B hu hv hq hB hvB hub hfit
    have hps : (2 : Nat) ^ (s + 1 + 1) = 2 ^ (s + 1) * 2 := by rw [pow_succ]
    rw [hps] at hfit
    have hEpos : 0 < (2 : Nat) ^ (s + 1) := Nat.pos_pow_of_pos _ (by omega)
    have hd0 : 0 ≤ u.toNat / B := Nat.zero_le _
    have hqto : q.toNat = q.hi * 18446744073709551616 + q.lo := by
      simp only [U128.toNat, b64]
    have h2q : 2 * q.toNat < 340282366920938463463374607431768211456 := by
      have h1 : q.toNat * 2 ≤ q.toNat * (2 ^ (s + 1) * 2) :=
        Nat.mul_le_mul_left _ (by omega)
      omega
    have hq1 := shl1_limbs q hq h2q
    have hor : shl64 q.lo 1 ||| 1 = shl64 q.lo 1 + 1 := by
      have e : shl64 q.lo 1 = q.lo % 9223372036854775808 * 2 := by
        simp only [shl64, b64, pow_one]
        omega
      rw [e]
      have h := lor_mul_pow (q.lo % 9223372036854775808) 1 1
        (by norm_num : (1 : Nat) < 2 ^ 1)
      simp only [pow_one] at h
      exact h
    have hv1spec := shr1_limbs v hv
    have hv1to : (U128.mk (v.hi >>> 1) ((v.lo >>> 1) ||| shl64 v.hi 63)).toNat
        = v.toNat / 2 := by
      simp only [U128.toNat, b64]
      exact hv1spec.1
    have hv1norm : (U128.mk (v.hi >>> 1) ((v.lo >>> 1) ||| shl64 v.hi 63)).norm := by
      simp only [U128.norm, b64]
      exact ⟨hv1spec.2.1, hv1spec.2.2⟩
    have hhalf : v.toNat / 2 = B * 2 ^ s := by
      have e1 : v.toNat = B * 2 ^ s * 2 := by
        rw [hvB, pow_succ]
        ring
      rw [e1, Nat.mul_div_cancel _ (by omega : (0 : Nat) < 2)]
    have hv1B : (U128.mk (v.hi >>> 1) ((v.lo >>> 1) ||| shl64 v.hi 63)).toNat
        = B * 2 ^ s := by rw [hv1to, hhalf]
    simp only [quorem128binLoop]
    by_cases hge : v.toNat ≤ u.toNat
    · have hnotlex : ¬ (u.hi < v.hi ∨ (u.hi = v.hi ∧ u.lo < v.lo)) := by
        rw [U128.lex_lt_iff u v hu hv]
        omega
      rw [if_pos hnotlex]
      have hq2to : (U128.mk (shl64 q.hi 1 ||| q.lo >>> 63) (shl64 q.lo 1 ||| 1)).toNat
          = 2 * q.toNat + 1 := by
        simp only [U128.toNat, b64]
        rw [hor]
        omega
      have hq2norm : (U128.mk (shl64 q.hi 1 ||| q.lo >>> 63) (shl64 q.lo 1 ||| 1)).norm := by
        simp only [U128.norm, b64]
        constructor
        · exact hq1.2.1
        · rw [hor]
          have e : shl64 q.lo 1 = q.lo % 9223372036854775808 * 2 := by
            simp only [shl64, b64, pow_one]
            omega
          omega
      have hsub := U128.Sub_toNat_of_le u v hu hv hge
      have hsubn := (U128.Sub_toNat u v hu hv).2
      have hBE : B * 2 ^ (s + 1) ≤ u.toNat := by rw [← hvB]; exact hge
      have hdivsub : (u.toNat - B * 2 ^ (s + 1)) / B = u.toNat / B - 2 ^ (s + 1) :=
        Nat.sub_mul_div u.toNat B (2 ^ (s + 1)) hBE
      have hdivge : 2 ^ (s + 1) ≤ u.toNat / B := by
        rw [Nat.le_div_iff_mul_le hB, Nat.mul_comm]
        exact hBE
      have hmodsub : (u.toNat - B * 2 ^ (s + 1)) % B = u.toNat % B :=
        Nat.sub_mul_mod hBE
      have hub' : (u.Sub v).toNat
          < 2 * (U128.mk (v.hi >>> 1) ((v.lo >>> 1) ||| shl64 v.hi 63)).toNat := by
        rw [hsub, hv1B]
        have e2 : 2 * (B * 2 ^ s) = B * 2 ^ (s + 1) := by
          rw [pow_succ]
          ring
        omega
      have hfit' : (U128.mk (shl64 q.hi 1 ||| q.lo >>> 63) (shl64 q.lo 1 ||| 1)).toNat
            * 2 ^ (s + 1) + (u.Sub v).toNat / B
          < 340282366920938463463374607431768211456 := by
        rw [hq2to, hsub, hvB, hdivsub]
        have e4 : (2 * q.toNat + 1) * 2 ^ (s + 1)
            = q.toNat * (2 ^ (s + 1) * 2) + 2 ^ (s + 1) := by ring
        omega
      have hres := ih (u.Sub v) (U128.mk (v.hi >>> 1) ((v.lo >>> 1) ||| shl64 v.hi 63))
        (U128.mk (shl64 q.hi 1 ||| q.lo >>> 63) (shl64 q.lo 1 ||| 1)) B
        hsubn hv1norm hq2norm hB hv1B hub' hfit'
      have hcomp1 : (quorem128binLoop s (u.Sub v)
            (U128.mk (v.hi >>> 1) ((v.lo >>> 1) ||| shl64 v.hi 63))
            (U128.mk (shl64 q.hi 1 ||| q.lo >>> 63) (shl64 q.lo 1 ||| 1))).1.toNat
          = q.toNat * 2 ^ (s + 1 + 1) + u.toNat / B := by
        rw [hres.1.1, hq2to, hsub, hvB, hdivsub, hps]
        have e4 : (2 * q.toNat + 1) * 2 ^ (s + 1)
            = q.toNat * (2 ^ (s + 1) * 2) + 2 ^ (s + 1) := by ring
        omega
      have hcomp2 : (quorem128binLoop s (u.Sub v)
            (U128.mk (v.hi >>> 1) ((v.lo >>> 1) ||| shl64 v.hi 63))
            (U128.mk (shl64 q.hi 1 ||| q.lo >>> 63) (shl64 q.lo 1 ||| 1))).2.toNat
          = u.toNat % B := by
        rw [hres.2.1, hsub, hvB, hmodsub]
      exact ⟨⟨hcomp1, hres.1.2⟩, hcomp2, hres.2.2⟩
    · have hlex : u.hi < v.hi ∨ (u.hi = v.hi ∧ u.lo < v.lo) := by
        rw [U128.lex_lt_iff u v hu hv]
        omega
      rw [if_neg (not_not_intro hlex)]
      have hq2to : (U128.mk (shl64 q.hi 1 ||| q.lo >>> 63) (shl64 q.lo 1)).toNat
          = 2 * q.toNat := by
        simp only [U128.toNat, b64]
        omega
      have hq2norm : (U128.mk (shl64 q.hi 1 ||| q.lo >>> 63) (shl64 q.lo 1)).norm := by
        simp only [U128.norm, b64]
        exact ⟨hq1.2.1, hq1.2.2⟩
      have hub' : u.toNat
          < 2 * (U128.mk (v.hi >>> 1) ((v.lo >>> 1) ||| shl64 v.hi 63)).toNat := by
        rw [hv1B]
        have e2 : 2 * (B * 2 ^ s) = B * 2 ^ (s + 1) := by
          rw [pow_succ]
          ring
        omega
      have hfit' : (U128.mk (shl64 q.hi 1 ||| q.lo >>> 63) (shl64 q.lo 1)).toNat
            * 2 ^ (s + 1) + u.toNat / B
          < 340282366920938463463374607431768211456 := by
        rw [hq2to]
        have e4 : 2 * q.toNat * 2 ^ (s + 1) = q.toNat * (2 ^ (s + 1) * 2) := by ring
        omega
      have hres := ih u (U128.mk (v.hi >>> 1) ((v.lo >>> 1) ||| shl64 v.hi 63))
        (U128.mk (shl64 q.hi 1 ||| q.lo >>> 63) (shl64 q.lo 1)) B
        hu hv1norm hq2norm hB hv1B hub' hfit'
      have hcomp1 : (quorem128binLoop s u
            (U128.mk (v.hi >>> 1) ((v.lo >>> 1) ||| shl64 v.hi 63))
            (U128.mk (shl64 q.hi 1 ||| q.lo >>> 63) (shl64 q.lo 1))).1.toNat
          = q.toNat * 2 ^ (s + 1 + 1) + u.toNat / B := by
        rw [hres.1.1, hq2to, hps]
        have e4 : 2 * q.toNat * 2 ^ (s + 1) = q.toNat * (2 ^ (s + 1) * 2) := by ring
        omega
      exact ⟨⟨hcomp1, hres.1.2⟩, hres.2.1, hres.2.2⟩

/-- `quorem128bin` computes the true quotient and remainder whenever the
divisor is nonzero and no bigger than the dividend (the u128.go callers'
guarantee, under which the wrapping `uint` shift count is `Nat` subtraction). -/
theorem quorem128bin_correct (u v : U128) (hu : u.norm) (hv : v.norm)
    (hvne : v.toNat ≠ 0) (hle : v.toNat ≤ u.toNat) :
    ((quorem128bin u v u.LeadingZeros v.LeadingZeros).1.toNat = u.toNat / v.toNat ∧
      (quorem128bin u v u.LeadingZeros v.LeadingZeros).1.norm) ∧
    ((quorem128bin u v u.LeadingZeros v.LeadingZeros).2.toNat = u.toNat % v.toNat ∧
      (quorem128bin u v u.LeadingZeros v.LeadingZeros).2.norm) := by
  have hune : u.toNat ≠ 0 := by omega
  obtain ⟨hu1, hu2, hu3⟩ := U128.LeadingZeros_spec u hu hune
  obtain ⟨hv1, hv2, hv3⟩ := U128.LeadingZeros_spec v hv hvne
  simp only [quorem128bin]
  set a0 := u.LeadingZeros with ha0
  set b0 := v.LeadingZeros with hb0
  clear_value a0 b0
  have hge : a0 ≤ b0 := by
    by_contra hcon
    push_neg at hcon
    have h1 : (2 : Nat) ^ (128 - a0) ≤ 2 ^ (127 - b0) :=
      Nat.pow_le_pow_right (by omega) (by omega)
    omega
  set k := b0 - a0 with hk
  clear_value k
  have hpow1 : (2 : Nat) ^ (128 - b0) * 2 ^ k = 2 ^ (128 - a0) := by
    rw [← Nat.pow_add]
    congr 1
    omega
  have hpow2 : (2 : Nat) ^ (127 - b0) * 2 ^ k = 2 ^ (127 - a0) := by
    rw [← Nat.pow_add]
    congr 1
    omega
  have hkpos : 0 < (2 : Nat) ^ k := Nat.pos_pow_of_pos _ (by omega)
  have hlt128 : v.toNat * 2 ^ k < 340282366920938463463374607431768211456 := by
    have h1 : (v.toNat + 1) * 2 ^ k ≤ 2 ^ (128 - b0) * 2 ^ k :=
      Nat.mul_le_mul_right _ (by omega)
    rw [hpow1] at h1
    have h2 : (v.toNat + 1) * 2 ^ k = v.toNat * 2 ^ k + 2 ^ k := by ring
    have h3 : (2 : Nat) ^ (128 - a0) ≤ 2 ^ 128 := Nat.pow_le_pow_right (by omega) (by omega)
    have h4 : (2 : Nat) ^ 128 = 340282366920938463463374607431768211456 := by norm_num
    omega
  have hLsh := U128.Lsh_toNat v k hv
  have hLshval : (v.Lsh k).toNat = v.toNat * 2 ^ k := by
    rw [hLsh.1]
    simp only [b128]
    omega
  have hub : u.toNat < 2 * (v.Lsh k).toNat := by
    rw [hLshval]
    have h1 : 2 ^ (127 - b0) * 2 ^ k ≤ v.toNat * 2 ^ k := Nat.mul_le_mul_right _ hv1
    rw [hpow2] at h1
    have h2 : (2 : Nat) ^ (128 - a0) = 2 * 2 ^ (127 - a0) := by
      have e : 128 - a0 = (127 - a0) + 1 := by omega
      rw [e, pow_succ]
      ring
    omega
  have hzn : (U128.mk 0 0).norm := by
    simp only [U128.norm, b64]
    omega
  have hz0 : (U128.mk 0 0).toNat = 0 := by
    simp only [U128.toNat, b64]
  have hdle := Nat.div_le_self u.toNat v.toNat
  have hulit : u.toNat < 340282366920938463463374607431768211456 := by
    have h := U128.toNat_lt u hu
    simp only [b128] at h
    exact h
  have hfit : (U128.mk 0 0).toNat * 2 ^ (k + 1) + u.toNat / v.toNat
      < 340282366920938463463374607431768211456 := by
    rw [hz0]
    simp only [Nat.zero_mul, Nat.zero_add]
    omega
  have hloop := quorem128binLoop_correct k u (v.Lsh k) (U128.mk 0 0) v.toNat
    hu hLsh.2 hzn (by omega) hLshval hub hfit
  refine ⟨⟨?_, hloop.1.2⟩, hloop.2.1, hloop.2.2⟩
  rw [hloop.1.1, hz0]
  simp only [Nat.zero_mul, Nat.zero_add]

/-- `U128.QuoRem` (after its zero-divisor guard) computes the true quotient
and remainder on every branch of its dispatch. -/
theorem U128.QuoRem_correct (u bv : U128) (hu : u.norm) (hbv : bv.norm)
    (hne : bv.toNat ≠ 0) :
    ((u.QuoRem bv).1.toNat = u.toNat / bv.toNat ∧ (u.QuoRem bv).1.norm) ∧
    ((u.QuoRem bv).2.toNat = u.toNat % bv.toNat ∧ (u.QuoRem bv).2.norm) := by
  have hUto : u.toNat = u.hi * 18446744073709551616 + u.lo := by
    simp only [U128.toNat, b64]
  have hVto : bv.toNat = bv.hi * 18446744073709551616 + bv.lo := by
    simp only [U128.toNat, b64]
  have hulo : u.lo < 18446744073709551616 := by
    have := hu.2; simp only [b64] at this; exact this
  have hVlit : bv.toNat < 340282366920938463463374607431768211456 := by
    have := U128.toNat_lt bv hbv; simp only [b128] at this; exact this
  simp only [U128.QuoRem]
  by_cases h1 : u.hi ||| bv.hi = 0
  · rw [if_pos h1]
    obtain ⟨hu0, hb0⟩ := lor_eq_zero_parts _ _ h1
    have hVeq : bv.toNat = bv.lo := by rw [hVto, hb0]; omega
    have hUeq : u.toNat = u.lo := by rw [hUto, hu0]; omega
    have hlo : bv.lo ≠ 0 := by omega
    refine ⟨⟨?_, ?_⟩, ?_, ?_⟩
    · show (U128.mk 0 (u.lo / bv.lo)).toNat = u.toNat / bv.toNat
      rw [hUeq, hVeq]
      simp only [U128.toNat, b64]
      omega
    · show (U128.mk 0 (u.lo / bv.lo)).norm
      simp only [U128.norm, b64]
      have := Nat.div_le_self u.lo bv.lo
      omega
    · show (U128.mk 0 (u.lo % bv.lo)).toNat = u.toNat % bv.toNat
      rw [hUeq, hVeq]
      simp only [U128.toNat, b64]
      omega
    · show (U128.mk 0 (u.lo % bv.lo)).norm
      simp only [U128.norm, b64]
      have := Nat.mod_le u.lo bv.lo
      omega
  · rw [if_neg h1]
    by_cases h2 : bv.LeadingZeros = 127
    · rw [if_pos h2]
      have hV1 : bv.toNat = 1 := by
        obtain ⟨s1, s2, s3⟩ := U128.LeadingZeros_spec bv hbv hne
        rw [h2] at s1 s2
        norm_num at s1 s2
        omega
      refine ⟨⟨?_, hu⟩, ?_, ?_⟩
      · show u.toNat = u.toNat / bv.toNat
        rw [hV1, Nat.div_one]
      · show (U128.mk 0 0).toNat = u.toNat % bv.toNat
        rw [hV1, Nat.mod_one]
        simp only [U128.toNat, b64]
      · show (U128.mk 0 0).norm
        simp only [U128.norm, b64]
        omega
    · rw [if_neg h2]
      by_cases h3 : bv.LeadingZeros + bv.TrailingZeros = 127
      · rw [if_pos h3]
        obtain ⟨l1, l2, l3⟩ := U128.LeadingZeros_spec bv hbv hne
        obtain ⟨t1, t2, t3⟩ := U128.TrailingZeros_spec bv hbv hne
        set t := bv.TrailingZeros with ht
        clear_value t
        have hVpow : bv.toNat = 2 ^ t := by
          have hdvd : 2 ^ t ∣ bv.toNat := Nat.dvd_of_mod_eq_zero t1
          obtain ⟨c, hc⟩ := hdvd
          have hb0e : bv.LeadingZeros = 127 - t := by omega
          rw [hb0e] at l1 l2
          have he1 : 127 - (127 - t) = t := by omega
          have he2 : 128 - (127 - t) = t + 1 := by omega
          rw [he1] at l1
          rw [he2] at l2
          have hp : (2 : Nat) ^ (t + 1) = 2 ^ t * 2 := pow_succ 2 t
          rw [hp] at l2
          rw [hc] at l1 l2 ⊢
          have hcge : 1 ≤ c := by
            by_contra hcc
            push_neg at hcc
            have hc0 : c = 0 := by omega
            rw [hc0, Nat.mul_zero] at l1
            have := Nat.pos_pow_of_pos t (show 0 < 2 by omega)
            omega
          have hclt : c < 2 := lt_of_mul_lt_mul_left l2 (Nat.zero_le _)
          have hc1 : c = 1 := by omega
          rw [hc1, Nat.mul_one]
        have hRsh := U128.Rsh_toNat u t hu
        have hDec := U128.Dec_toNat bv hbv
        have hDecval : (bv.Dec).toNat = 2 ^ t - 1 := by
          rw [hDec.1]
          simp only [b128]
          rw [hVpow] at hVlit ⊢
          omega
        have hAnd := U128.And_toNat (bv.Dec) u hDec.2 hu
        have hrval : ((bv.Dec).And u).toNat = u.toNat % 2 ^ t := by
          rw [hAnd.1, hDecval, Nat.and_comm, Nat.and_pow_two_sub_one_eq_mod]
        refine ⟨⟨?_, hRsh.2⟩, ?_, hAnd.2⟩
        · show (u.Rsh t).toNat = u.toNat / bv.toNat
          rw [hRsh.1, hVpow]
        · show ((bv.Dec).And u).toNat = u.toNat % bv.toNat
          rw [hrval, hVpow]
      · rw [if_neg h3]
        by_cases h4 : u.Cmp bv < 0
        · rw [if_pos h4]
          have hult : u.toNat < bv.toNat := (U128.Cmp_lt u bv hu hbv).mp h4
          refine ⟨⟨?_, ?_⟩, ?_, hu⟩
          · show (U128.mk 0 0).toNat = u.toNat / bv.toNat
            rw [Nat.div_eq_of_lt hult]
            simp only [U128.toNat, b64]
          · show (U128.mk 0 0).norm
            simp only [U128.norm, b64]
            omega
          · show u.toNat = u.toNat % bv.toNat
            rw [Nat.mod_eq_of_lt hult]
        · rw [if_neg h4]
          by_cases h5 : u.Cmp bv = 0
          · rw [if_pos h5]
            have heq : u.toNat = bv.toNat := by
              have hc := (U128.Cmp_eq_zero u bv).mp h5
              rw [hUto, hVto, hc.1, hc.2]
            refine ⟨⟨?_, ?_⟩, ?_, ?_⟩
            · show (U128.mk 0 1).toNat = u.toNat / bv.toNat
              rw [heq, Nat.div_self (by omega)]
              simp only [U128.toNat, b64]
            · show (U128.mk 0 1).norm
              simp only [U128.norm, b64]
              omega
            · show (U128.mk 0 0).toNat = u.toNat % bv.toNat
              rw [heq, Nat.mod_self]
              simp only [U128.toNat, b64]
            · show (U128.mk 0 0).norm
              simp only [U128.norm, b64]
              omega
          · rw [if_neg h5]
            have hgt : bv.toNat < u.toNat := by
              have hge : ¬ (u.toNat < bv.toNat) :=
                fun hh => h4 ((U128.Cmp_lt u bv hu hbv).mpr hh)
              have hne2 : u.toNat ≠ bv.toNat := by
                intro he
                apply h5
                rw [U128.Cmp_eq_zero]
                have heq := U128.eq_of_toNat_eq hu hbv he
                exact ⟨by rw [heq], by rw [heq]⟩
              omega
            by_cases h6 : bv.LeadingZeros - u.LeadingZeros > 16
            · rw [if_pos h6]
              exact quorem128by128_correct u bv hu hbv hne
            · rw [if_neg h6]
              exact quorem128bin_correct u bv hu hbv hne (by omega)

/-- `I128.Neg` computes the two's-complement negation `(2^128 - x) mod 2^128`
of the bit pattern (including the `0` and `MinI128` fixpoints). -/
theorem I128.Neg_toNat (i : I128) (h : i.norm) :
    (i.Neg).toNat = (340282366920938463463374607431768211456 - i.toNat)
        % 340282366920938463463374607431768211456
      ∧ (i.Neg).norm := by
  obtain ⟨h1, h2⟩ := h
  simp only [b64] at h1 h2
  simp only [I128.Neg]
  split_ifs with c1 c2 c3 c4 c5 <;>
    first
    | (have e1 : i.hi = 9223372036854775808 := by rw [c2]; rfl
       have e2 : i.lo = 0 := by rw [c2]; rfl
       simp only [I128.toNat, I128.norm, b64, e1, e2]
       norm_num)
    | (simp only [I128.toNat, I128.norm, not64, sub64, b64] at *
       omega)

theorem I128.toNat_lt_b128 (i : I128) (h : i.norm) :
    i.toNat < 340282366920938463463374607431768211456 := by
  obtain ⟨h1, h2⟩ := h
  simp only [I128.toNat, b64] at *
  omega

/-- `intVal` in terms of the unsigned value: subtract `2^128` iff the value
is at least `2^127`. -/
theorem I128.intVal_eq (i : I128) (h : i.norm) :
    i.intVal = if 170141183460469231731687303715884105728 ≤ i.toNat
      then (i.toNat : Int) - 340282366920938463463374607431768211456
      else (i.toNat : Int) := by
  obtain ⟨h1, h2⟩ := h
  simp only [b64] at h1 h2
  have hbr : signBit ≤ i.hi ↔ 170141183460469231731687303715884105728 ≤ i.toNat := by
    simp only [I128.toNat, b64, signBit]
    omega
  simp only [I128.intVal]
  by_cases hsb : signBit ≤ i.hi
  · rw [if_pos hsb, if_pos (hbr.mp hsb)]
    norm_num [b128]
  · rw [if_neg hsb, if_neg (fun hh => hsb (hbr.mpr hh))]

/-- `LessThan zeroI128` tests the sign bit. -/
theorem I128.lt_zero_iff (i : I128) (h : i.norm) :
    (i.LessThan zeroI128 = true) ↔ 9223372036854775808 ≤ i.hi := by
  obtain ⟨h1, h2⟩ := h
  simp only [b64] at h1 h2
  have hz1 : zeroI128.hi = 0 := rfl
  have hz2 : zeroI128.lo = 0 := rfl
  simp only [I128.LessThan, hz1, hz2, Nat.zero_and]
  split_ifs with hc
  · simp only [decide_eq_true_eq]
    constructor
    · intro hcon
      omega
    · intro hge
      exfalso
      exact (and_signBit i.hi (by simp only [b64]; omega)).mpr hge hc
  · simp only [decide_eq_true_eq]
    exact and_signBit i.hi (by simp only [b64]; omega)

theorem I128.AsU128_toNat (i : I128) : (i.AsU128).toNat = i.toNat := rfl

theorem U128.AsI128_toNat (u : U128) : (u.AsI128).toNat = u.toNat := rfl

theorem I128.AsU128_norm (i : I128) (h : i.norm) : (i.AsU128).norm := ⟨h.1, h.2⟩

theorem U128.AsI128_norm (u : U128) (h : u.norm) : (u.AsI128).norm := ⟨h.1, h.2⟩

/-- The sign-bit test in terms of the unsigned value. -/
theorem I128.hi_toNat_iff (i : I128) (h : i.norm) :
    9223372036854775808 ≤ i.hi ↔ 170141183460469231731687303715884105728 ≤ i.toNat := by
  obtain ⟨h1, h2⟩ := h
  simp only [I128.toNat, b64] at *
  omega

/-- Negating a magnitude of at most `2^127` produces its negative signed
value. -/
theorem neg_asI128_intVal (u : U128) (hu : u.norm)
    (hle : u.toNat ≤ 170141183460469231731687303715884105728) :
    ((u.AsI128).Neg).intVal = -(u.toNat : Int) := by
  have hn : (u.AsI128).norm := ⟨hu.1, hu.2⟩
  have hNeg := I128.Neg_toNat (u.AsI128) hn
  have ht : (u.AsI128).toNat = u.toNat := rfl
  rw [ht] at hNeg
  rw [I128.intVal_eq _ hNeg.2, hNeg.1]
  split_ifs with hc <;> omega

/-- Casting a magnitude below `2^127` preserves the signed value. -/
theorem asI128_intVal (u : U128) (hu : u.norm)
    (hle : u.toNat < 170141183460469231731687303715884105728) :
    (u.AsI128).intVal = (u.toNat : Int) := by
  have hn : (u.AsI128).norm := ⟨hu.1, hu.2⟩
  have ht : (u.AsI128).toNat = u.toNat := rfl
  rw [I128.intVal_eq _ hn, ht, if_neg (by omega)]

theorem I128.eq_of_limbs {x y : I128} (h1 : x.hi = y.hi) (h2 : x.lo = y.lo) : x = y := by
  cases x
  cases y
  simp_all

/-- `I128.QuoRem` implements truncating (T-) division: the reconstruction
identity, remainder magnitude bound, and remainder sign rule hold outside the
`MinI128 / -1` overflow case. -/
theorem I128.QuoRem_spec (a bv : I128) (ha : a.norm) (hb : bv.norm)
    (hne : bv.intVal ≠ 0) (hexc : ¬ (a = MinI128 ∧ bv.intVal = -1)) :
    a.intVal = bv.intVal * (a.QuoRem bv).1.intVal + (a.QuoRem bv).2.intVal ∧
    (a.QuoRem bv).2.intVal.natAbs < bv.intVal.natAbs ∧
    ((a.QuoRem bv).2.intVal = 0 ∨ ((a.QuoRem bv).2.intVal < 0 ↔ a.intVal < 0)) := by
  have haLT : a.toNat < 340282366920938463463374607431768211456 := I128.toNat_lt_b128 a ha
  have hbLT : bv.toNat < 340282366920938463463374607431768211456 := I128.toNat_lt_b128 bv hb
  simp only [I128.QuoRem]
  by_cases hna : a.LessThan zeroI128 = true
  · rw [if_pos hna, if_pos hna]
    have hsa : 9223372036854775808 ≤ a.hi := (I128.lt_zero_iff a ha).mp hna
    have hta : 170141183460469231731687303715884105728 ≤ a.toNat :=
      (I128.hi_toNat_iff a ha).mp hsa
    have hNeg := I128.Neg_toNat a ha
    have hNval : (a.Neg).toNat
        = 340282366920938463463374607431768211456 - a.toNat := by
      rw [hNeg.1]
      omega
    have hNle : (a.Neg).toNat ≤ 170141183460469231731687303715884105728 := by omega
    have hNpos : 1 ≤ (a.Neg).toNat := by omega
    have haint : a.intVal = -(((a.Neg).toNat : Nat) : ℤ) := by
      rw [I128.intVal_eq a ha, if_pos (by omega), hNval]
      omega
    by_cases hnb : bv.LessThan zeroI128 = true
    · -- a < 0, bv < 0 : q = qu, r = -ru
      rw [if_pos hnb, if_pos hnb, if_neg (by norm_num : ¬ (-(-1 : Int) < 0)),
        if_pos (by norm_num : (-1 : Int) < 0)]
      have hsb : 9223372036854775808 ≤ bv.hi := (I128.lt_zero_iff bv hb).mp hnb
      have htb : 170141183460469231731687303715884105728 ≤ bv.toNat :=
        (I128.hi_toNat_iff bv hb).mp hsb
      have hMeg := I128.Neg_toNat bv hb
      have hMval : (bv.Neg).toNat
          = 340282366920938463463374607431768211456 - bv.toNat := by
        rw [hMeg.1]
        omega
      have hMle : (bv.Neg).toNat ≤ 170141183460469231731687303715884105728 := by omega
      have hMpos : 1 ≤ (bv.Neg).toNat := by omega
      have hbint : bv.intVal = -(((bv.Neg).toNat : Nat) : ℤ) := by
        rw [I128.intVal_eq bv hb, if_pos (by omega), hMval]
        omega
      have hqr := U128.QuoRem_correct ((a.Neg).AsU128) ((bv.Neg).AsU128)
        (I128.AsU128_norm _ hNeg.2) (I128.AsU128_norm _ hMeg.2)
        (by rw [I128.AsU128_toNat]; omega)
      rw [I128.AsU128_toNat, I128.AsU128_toNat] at hqr
      set qr := U128.QuoRem ((a.Neg).AsU128) ((bv.Neg).AsU128) with hqrdef
      clear_value qr
      have hqm : qr.1.toNat = (a.Neg).toNat / (bv.Neg).toNat := hqr.1.1
      have hrm : qr.2.toNat = (a.Neg).toNat % (bv.Neg).toNat := hqr.2.1
      have hrmlt : qr.2.toNat < (bv.Neg).toNat := by
        rw [hrm]
        exact Nat.mod_lt _ (by omega)
      have hqmlt : qr.1.toNat < 170141183460469231731687303715884105728 := by
        by_contra hcon
        push_neg at hcon
        have hqle : qr.1.toNat * (bv.Neg).toNat ≤ (a.Neg).toNat := by
          rw [hqm]
          exact Nat.div_mul_le_self _ _
        have hb1 : (bv.Neg).toNat = 1 := by
          by_contra hb2
          have h2b : 2 ≤ (bv.Neg).toNat := by omega
          have := Nat.mul_le_mul hcon h2b
          omega
        have haN : (a.Neg).toNat = 170141183460469231731687303715884105728 := by
          rw [hb1, Nat.mul_one] at hqle
          omega
        apply hexc
        constructor
        · apply I128.eq_of_limbs
          · show a.hi = 9223372036854775808
            have hat : a.toNat = 170141183460469231731687303715884105728 := by omega
            have he : a.toNat = a.hi * 18446744073709551616 + a.lo := by
              simp only [I128.toNat, b64]
            have hlo : a.lo < 18446744073709551616 := by
              have := ha.2
              simp only [b64] at this
              exact this
            omega
          · show a.lo = 0
            have hat : a.toNat = 170141183460469231731687303715884105728 := by omega
            have he : a.toNat = a.hi * 18446744073709551616 + a.lo := by
              simp only [I128.toNat, b64]
            have hlo : a.lo < 18446744073709551616 := by
              have := ha.2
              simp only [b64] at this
              exact this
            omega
        · rw [hbint, hb1]
          norm_num
      have hqint : (qr.1.AsI128).intVal = ((qr.1.toNat : Nat) : ℤ) :=
        asI128_intVal qr.1 hqr.1.2 hqmlt
      have hrint : ((qr.2.AsI128).Neg).intVal = -((qr.2.toNat : Nat) : ℤ) :=
        neg_asI128_intVal qr.2 hqr.2.2 (by omega)
      have hNat := Nat.div_add_mod ((a.Neg).toNat) ((bv.Neg).toNat)
      have hcast : (((a.Neg).toNat : Nat) : ℤ)
          = ((bv.Neg).toNat : ℤ) * (qr.1.toNat : ℤ) + (qr.2.toNat : ℤ) := by
        rw [hqm, hrm]
        exact_mod_cast hNat.symm
      refine ⟨?_, ?_, ?_⟩
      · show a.intVal = bv.intVal * (qr.1.AsI128).intVal + ((qr.2.AsI128).Neg).intVal
        rw [haint, hbint, hqint, hrint]
        linear_combination -hcast
      · show ((qr.2.AsI128).Neg).intVal.natAbs < bv.intVal.natAbs
        rw [hbint, hrint]
        simp only [Int.natAbs_neg, Int.natAbs_ofNat]
        exact hrmlt
      · show ((qr.2.AsI128).Neg).intVal = 0 ∨
          (((qr.2.AsI128).Neg).intVal < 0 ↔ a.intVal < 0)
        rw [haint, hrint]
        omega
    · -- a < 0, bv > 0 : q = -qu, r = -ru
      rw [if_neg hnb, if_neg hnb, if_pos (by norm_num : (-1 : Int) < 0),
        if_pos (by norm_num : (-1 : Int) < 0)]
      have hsb : ¬ 9223372036854775808 ≤ bv.hi :=
        fun hh => hnb ((I128.lt_zero_iff bv hb).mpr hh)
      have htb : ¬ 170141183460469231731687303715884105728 ≤ bv.toNat :=
        fun hh => hsb ((I128.hi_toNat_iff bv hb).mpr hh)
      have hbint : bv.intVal = ((bv.toNat : Nat) : ℤ) := by
        rw [I128.intVal_eq bv hb, if_neg htb]
      have hbne0 : bv.toNat ≠ 0 := by
        intro h0
        apply hne
        rw [hbint, h0]
        norm_num
      have hqr := U128.QuoRem_correct ((a.Neg).AsU128) (bv.AsU128)
        (I128.AsU128_norm _ hNeg.2) (I128.AsU128_norm _ hb)
        (by rw [I128.AsU128_toNat]; exact hbne0)
      rw [I128.AsU128_toNat, I128.AsU128_toNat] at hqr
      set qr := U128.QuoRem ((a.Neg).AsU128) (bv.AsU128) with hqrdef
      clear_value qr
      have hqm : qr.1.toNat = (a.Neg).toNat / bv.toNat := hqr.1.1
      have hrm : qr.2.toNat = (a.Neg).toNat % bv.toNat := hqr.2.1
      have hrmlt : qr.2.toNat < bv.toNat := by
        rw [hrm]
        exact Nat.mod_lt _ (by omega)
      have hqmle : qr.1.toNat ≤ 170141183460469231731687303715884105728 := by
        have : qr.1.toNat ≤ (a.Neg).toNat := by
          rw [hqm]
          exact Nat.div_le_self _ _
        omega
      have hqint : ((qr.1.AsI128).Neg).intVal = -((qr.1.toNat : Nat) : ℤ) :=
        neg_asI128_intVal qr.1 hqr.1.2 hqmle
      have hrint : ((qr.2.AsI128).Neg).intVal = -((qr.2.toNat : Nat) : ℤ) :=
        neg_asI128_intVal qr.2 hqr.2.2 (by omega)
      have hNat := Nat.div_add_mod ((a.Neg).toNat) bv.toNat
      have hcast : (((a.Neg).toNat : Nat) : ℤ)
          = (bv.toNat : ℤ) * (qr.1.toNat : ℤ) + (qr.2.toNat : ℤ) := by
        rw [hqm, hrm]
        exact_mod_cast hNat.symm
      refine ⟨?_, ?_, ?_⟩
      · show a.intVal = bv.intVal * ((qr.1.AsI128).Neg).intVal + ((qr.2.AsI128).Neg).intVal
        rw [haint, hbint, hqint, hrint]
        linear_combination -hcast
      · show ((qr.2.AsI128).Neg).intVal.natAbs < bv.intVal.natAbs
        rw [hbint, hrint]
        simp only [Int.natAbs_neg, Int.natAbs_ofNat]
        exact hrmlt
      · show ((qr.2.AsI128).Neg).intVal = 0 ∨
          (((qr.2.AsI128).Neg).intVal < 0 ↔ a.intVal < 0)
        rw [haint, hrint]
        omega
  · rw [if_neg hna, if_neg hna]
    have hsa : ¬ 9223372036854775808 ≤ a.hi :=
      fun hh => hna ((I128.lt_zero_iff a ha).mpr hh)
    have hta : ¬ 170141183460469231731687303715884105728 ≤ a.toNat :=
      fun hh => hsa ((I128.hi_toNat_iff a ha).mpr hh)
    have haint : a.intVal = ((a.toNat : Nat) : ℤ) := by
      rw [I128.intVal_eq a ha, if_neg hta]
    by_cases hnb : bv.LessThan zeroI128 = true
    · -- a ≥ 0, bv < 0 : q = -qu, r = ru
      rw [if_pos hnb, if_pos hnb, if_pos (by norm_num : (-(1 : Int) < 0)),
        if_neg (by norm_num : ¬ ((1 : Int) < 0))]
      have hsb : 9223372036854775808 ≤ bv.hi := (I128.lt_zero_iff bv hb).mp hnb
      have htb : 170141183460469231731687303715884105728 ≤ bv.toNat :=
        (I128.hi_toNat_iff bv hb).mp hsb
      have hMeg := I128.Neg_toNat bv hb
      have hMval : (bv.Neg).toNat
          = 340282366920938463463374607431768211456 - bv.toNat := by
        rw [hMeg.1]
        omega
      have hMle : (bv.Neg).toNat ≤ 170141183460469231731687303715884105728 := by omega
      have hMpos : 1 ≤ (bv.Neg).toNat := by omega
      have hbint : bv.intVal = -(((bv.Neg).toNat : Nat) : ℤ) := by
        rw [I128.intVal_eq bv hb, if_pos (by omega), hMval]
        omega
      have hqr := U128.QuoRem_correct (a.AsU128) ((bv.Neg).AsU128)
        (I128.AsU128_norm _ ha) (I128.AsU128_norm _ hMeg.2)
        (by rw [I128.AsU128_toNat]; omega)
      rw [I128.AsU128_toNat, I128.AsU128_toNat] at hqr
      set qr := U128.QuoRem (a.AsU128) ((bv.Neg).AsU128) with hqrdef
      clear_value qr
      have hqm : qr.1.toNat = a.toNat / (bv.Neg).toNat := hqr.1.1
      have hrm : qr.2.toNat = a.toNat % (bv.Neg).toNat := hqr.2.1
      have hrmlt : qr.2.toNat < (bv.Neg).toNat := by
        rw [hrm]
        exact Nat.mod_lt _ (by omega)
      have hqmle : qr.1.toNat ≤ 170141183460469231731687303715884105728 := by
        have : qr.1.toNat ≤ a.toNat := by
          rw [hqm]
          exact Nat.div_le_self _ _
        omega
      have hqint : ((qr.1.AsI128).Neg).intVal = -((qr.1.toNat : Nat) : ℤ) :=
        neg_asI128_intVal qr.1 hqr.1.2 hqmle
      have hrint : (qr.2.AsI128).intVal = ((qr.2.toNat : Nat) : ℤ) :=
        asI128_intVal qr.2 hqr.2.2 (by omega)
      have hNat := Nat.div_add_mod a.toNat ((bv.Neg).toNat)
      have hcast : ((a.toNat : Nat) : ℤ)
          = ((bv.Neg).toNat : ℤ) * (qr.1.toNat : ℤ) + (qr.2.toNat : ℤ) := by
        rw [hqm, hrm]
        exact_mod_cast hNat.symm
      refine ⟨?_, ?_, ?_⟩
      · show a.intVal = bv.intVal * ((qr.1.AsI128).Neg).intVal + (qr.2.AsI128).intVal
        rw [haint, hbint, hqint, hrint]
        linear_combination hcast
      · show (qr.2.AsI128).intVal.natAbs < bv.intVal.natAbs
        rw [hbint, hrint]
        simp only [Int.natAbs_neg, Int.natAbs_ofNat]
        exact hrmlt
      · show (qr.2.AsI128).intVal = 0 ∨
          ((qr.2.AsI128).intVal < 0 ↔ a.intVal < 0)
        rw [haint, hrint]
        omega
    · -- a ≥ 0, bv > 0 : q = qu, r = ru
      rw [if_neg hnb, if_neg hnb, if_neg (by norm_num : ¬ ((1 : Int) < 0)),
        if_neg (by norm_num : ¬ ((1 : Int) < 0))]
      have hsb : ¬ 9223372036854775808 ≤ bv.hi :=
        fun hh => hnb ((I128.lt_zero_iff bv hb).mpr hh)
      have htb : ¬ 170141183460469231731687303715884105728 ≤ bv.toNat :=
        fun hh => hsb ((I128.hi_toNat_iff bv hb).mpr hh)
      have hbint : bv.intVal = ((bv.toNat : Nat) : ℤ) := by
        rw [I128.intVal_eq bv hb, if_neg htb]
      have hbne0 : bv.toNat ≠ 0 := by
        intro h0
        apply hne
        rw [hbint, h0]
        norm_num
      have hqr := U128.QuoRem_correct (a.AsU128) (bv.AsU128)
        (I128.AsU128_norm _ ha) (I128.AsU128_norm _ hb)
        (by rw [I128.AsU128_toNat]; exact hbne0)
      rw [I128.AsU128_toNat, I128.AsU128_toNat] at hqr
      set qr := U128.QuoRem (a.AsU128) (bv.AsU128) with hqrdef
      clear_value qr
      have hqm : qr.1.toNat = a.toNat / bv.toNat := hqr.1.1
      have hrm : qr.2.toNat = a.toNat % bv.toNat := hqr.2.1
      have hrmlt : qr.2.toNat < bv.toNat := by
        rw [hrm]
        exact Nat.mod_lt _ (by omega)
      have hqmlt : qr.1.toNat < 170141183460469231731687303715884105728 := by
        have : qr.1.toNat ≤ a.toNat := by
          rw [hqm]
          exact Nat.div_le_self _ _
        omega
      have hqint : (qr.1.AsI128).intVal = ((qr.1.toNat : Nat) : ℤ) :=
        asI128_intVal qr.1 hqr.1.2 hqmlt
      have hrint : (qr.2.AsI128).intVal = ((qr.2.toNat : Nat) : ℤ) :=
        asI128_intVal qr.2 hqr.2.2 (by omega)
      have hNat := Nat.div_add_mod a.toNat bv.toNat
      have hcast : ((a.toNat : Nat) : ℤ)
          = (bv.toNat : ℤ) * (qr.1.toNat : ℤ) + (qr.2.toNat : ℤ) := by
        rw [hqm, hrm]
        exact_mod_cast hNat.symm
      refine ⟨?_, ?_, ?_⟩
      · show a.intVal = bv.intVal * (qr.1.AsI128).intVal + (qr.2.AsI128).intVal
        rw [haint, hbint, hqint, hrint]
        linear_combination hcast
      · show (qr.2.AsI128).intVal.natAbs < bv.intVal.natAbs
        rw [hbint, hrint]
        simp only [Int.natAbs_ofNat]
        exact hrmlt
      · show (qr.2.AsI128).intVal = 0 ∨
          ((qr.2.AsI128).intVal < 0 ↔ a.intVal < 0)
        rw [haint, hrint]
        omega

/-- C1: for every `U128` pair with nonzero divisor, `U128.QuoRem` returns
`(q, r)` with `a = by*q + r` exactly (no wraparound) and `r < by`; for every
`I128` pair with nonzero divisor, excluding `MinI128 / -1`, `I128.QuoRem`
returns `(q, r)` with `a = by*q + r` over `ℤ`, `|r| < |by|`, and the sign of
`r` matching the sign of `a` (truncating T-division). -/
theorem C1_division_identity :
    (∀ a bv : U128, a.norm → bv.norm → bv.toNat ≠ 0 →
      a.toNat = bv.toNat * (a.QuoRem bv).1.toNat + (a.QuoRem bv).2.toNat ∧
      (a.QuoRem bv).2.toNat < bv.toNat) ∧
    (∀ a bv : I128, a.norm → bv.norm → bv.intVal ≠ 0 →
      ¬ (a = MinI128 ∧ bv.intVal = -1) →
      a.intVal = bv.intVal * (a.QuoRem bv).1.intVal + (a.QuoRem bv).2.intVal ∧
      (a.QuoRem bv).2.intVal.natAbs < bv.intVal.natAbs ∧
      ((a.QuoRem bv).2.intVal = 0 ∨ ((a.QuoRem bv).2.intVal < 0 ↔ a.intVal < 0))) := by
  constructor
  · intro a bv ha hb hne
    have hqr := U128.QuoRem_correct a bv ha hb hne
    rw [hqr.1.1, hqr.2.1]
    constructor
    · exact (Nat.div_add_mod a.toNat bv.toNat).symm
    · exact Nat.mod_lt _ (by omega)
  · intro a bv ha hb hne hexc
    exact I128.QuoRem_spec a bv ha hb hne hexc

theorem C1_division_identity_witness :
    ((U128.mk 0 7).toNat
        = (U128.mk 0 2).toNat * ((U128.mk 0 7).QuoRem (U128.mk 0 2)).1.toNat
          + ((U128.mk 0 7).QuoRem (U128.mk 0 2)).2.toNat ∧
      ((U128.mk 0 7).QuoRem (U128.mk 0 2)).2.toNat < (U128.mk 0 2).toNat) ∧
    ((I128.mk 18446744073709551615 18446744073709551609).intVal
        = (I128.mk 0 2).intVal
            * ((I128.mk 18446744073709551615 18446744073709551609).QuoRem
                (I128.mk 0 2)).1.intVal
          + ((I128.mk 18446744073709551615 18446744073709551609).QuoRem
              (I128.mk 0 2)).2.intVal ∧
      ((I128.mk 18446744073709551615 18446744073709551609).QuoRem
          (I128.mk 0 2)).2.intVal.natAbs < (I128.mk 0 2).intVal.natAbs ∧
      (((I128.mk 18446744073709551615 18446744073709551609).QuoRem
          (I128.mk 0 2)).2.intVal = 0 ∨
        (((I128.mk 18446744073709551615 18446744073709551609).QuoRem
            (I128.mk 0 2)).2.intVal < 0 ↔
          (I128.mk 18446744073709551615 18446744073709551609).intVal < 0))) :=
  ⟨C1_division_identity.1 (U128.mk 0 7) (U128.mk 0 2)
      (by decide) (by decide) (by decide),
    C1_division_identity.2 (I128.mk 18446744073709551615 18446744073709551609)
      (I128.mk 0 2) (by decide) (by decide) (by decide) (by decide)⟩

/-- C2: on the domain that reaches the algorithm-selection step of
`U128.QuoRem` (nonzero divisor that is not a power of two, dividend strictly
greater than the divisor, and a nonzero high limb on at least one operand),
the normalized-divisor algorithm `quorem128by128` and the binary
long-division algorithm `quorem128bin` return the identical
quotient-remainder pair, so the leading-zero-gap heuristic never changes
the observable result. -/
theorem C2_algorithm_agreement (a bv : U128) (ha : a.norm) (hb : bv.norm)
    (hne : bv.toNat ≠ 0) (hpow : ∀ t : Nat, bv.toNat ≠ 2 ^ t)
    (hgt : bv.toNat < a.toNat) (hhi : a.hi ≠ 0 ∨ bv.hi ≠ 0) :
    quorem128by128 a bv = quorem128bin a bv a.LeadingZeros bv.LeadingZeros := by
  have h1 := quorem128by128_correct a bv ha hb hne
  have h2 := quorem128bin_correct a bv ha hb hne (le_of_lt hgt)
  exact Prod.ext
    (U128.eq_of_toNat_eq h1.1.2 h2.1.2 (by rw [h1.1.1, h2.1.1]))
    (U128.eq_of_toNat_eq h1.2.2 h2.2.2 (by rw [h1.2.1, h2.2.1]))

theorem C2_algorithm_agreement_witness :
    quorem128by128 (U128.mk 1 5) (U128.mk 0 3)
      = quorem128bin (U128.mk 1 5) (U128.mk 0 3)
          (U128.mk 1 5).LeadingZeros (U128.mk 0 3).LeadingZeros :=
  C2_algorithm_agreement (U128.mk 1 5) (U128.mk 0 3) (by decide) (by decide)
    (by decide)
    (by
      intro t h
      rcases Nat.lt_or_ge t 2 with ht | ht
      · interval_cases t <;> exact absurd h (by decide)
      · have h4 : (4 : Nat) ≤ 2 ^ t := by
          calc (4 : Nat) = 2 ^ 2 := by norm_num
            _ ≤ 2 ^ t := Nat.pow_le_pow_right (by norm_num) ht
        have he : (U128.mk 0 3).toNat = 3 := by decide
        omega)
    (by decide) (by decide)

/-- The zero test the division guard performs on the sign-normalized divisor
holds exactly when the signed divisor is zero. -/
theorem I128.magNonzero (bv : I128) (hb : bv.norm) :
    ((if bv.LessThan zeroI128 then bv.Neg else bv).AsU128.lo = 0 ∧
      (if bv.LessThan zeroI128 then bv.Neg else bv).AsU128.hi = 0) ↔
    bv.intVal = 0 := by
  have hbLT := I128.toNat_lt_b128 bv hb
  by_cases hnb : bv.LessThan zeroI128 = true
  · rw [if_pos hnb]
    have hsb := (I128.lt_zero_iff bv hb).mp hnb
    have htb := (I128.hi_toNat_iff bv hb).mp hsb
    have hNeg := I128.Neg_toNat bv hb
    apply iff_of_false
    · rintro ⟨hl, hh⟩
      have h0 : (bv.Neg).toNat = 0 := by
        simp only [I128.toNat]
        rw [show (bv.Neg).hi = 0 from hh, show (bv.Neg).lo = 0 from hl]
        omega
      rw [hNeg.1] at h0
      omega
    · intro h0
      rw [I128.intVal_eq bv hb, if_pos (by omega)] at h0
      omega
  · rw [if_neg hnb]
    have hsb : ¬ 9223372036854775808 ≤ bv.hi :=
      fun hh => hnb ((I128.lt_zero_iff bv hb).mpr hh)
    have htb : ¬ 170141183460469231731687303715884105728 ≤ bv.toNat :=
      fun hh => hsb ((I128.hi_toNat_iff bv hb).mpr hh)
    rw [I128.intVal_eq bv hb, if_neg htb]
    have he : bv.toNat = bv.hi * 18446744073709551616 + bv.lo := by
      simp only [I128.toNat, b64]
    constructor
    · rintro ⟨hl, hh⟩
      have h0 : bv.toNat = 0 := by
        rw [he, show bv.hi = 0 from hh, show bv.lo = 0 from hl]
      exact_mod_cast h0
    · intro h0
      have h1 : bv.toNat = 0 := by exact_mod_cast h0
      refine ⟨?_, ?_⟩
      · show bv.lo = 0
        omega
      · show bv.hi = 0
        omega

/-- C4: all six division entry points fault exactly on a zero divisor:
`U128.QuoRem`/`Quo`/`Rem` and the `I128` wrappers that delegate to them
(`none` models the `panic`). -/
theorem C4_divzero_panics :
    (∀ u bv : U128,
      (u.QuoRemChecked bv = none ↔ bv.toNat = 0) ∧
      (u.QuoChecked bv = none ↔ bv.toNat = 0) ∧
      (u.RemChecked bv = none ↔ bv.toNat = 0)) ∧
    (∀ i bv : I128, i.norm → bv.norm →
      (i.QuoRemChecked bv = none ↔ bv.intVal = 0) ∧
      (i.QuoChecked bv = none ↔ bv.intVal = 0) ∧
      (i.RemChecked bv = none ↔ bv.intVal = 0)) := by
  constructor
  · intro u bv
    have hzero : (bv.lo = 0 ∧ bv.hi = 0) ↔ bv.toNat = 0 := by
      simp only [U128.toNat, b64]
      omega
    refine ⟨?_, ?_, ?_⟩
    · simp only [U128.QuoRemChecked]
      split_ifs with hc
      · exact iff_of_true rfl (hzero.mp hc)
      · exact iff_of_false (by simp) (fun h0 => hc (hzero.mpr h0))
    · simp only [U128.QuoChecked]
      split_ifs with hc
      · exact iff_of_true rfl (hzero.mp hc)
      · exact iff_of_false (by simp) (fun h0 => hc (hzero.mpr h0))
    · simp only [U128.RemChecked, U128.QuoRemChecked]
      split_ifs with hc
      · exact iff_of_true rfl (hzero.mp hc)
      · exact iff_of_false (by simp) (fun h0 => hc (hzero.mpr h0))
  · intro i bv hi hb
    have hkey := I128.magNonzero bv hb
    by_cases hnb : bv.LessThan zeroI128 = true
    · rw [if_pos hnb] at hkey
      refine ⟨?_, ?_, ?_⟩
      · simp only [I128.QuoRemChecked, U128.QuoRemChecked]
        rw [if_pos hnb, if_pos hnb]
        split_ifs <;>
          first
          | exact iff_of_true rfl (hkey.mp ‹_›)
          | exact iff_of_false (by simp) (fun h0 => absurd (hkey.mpr h0) ‹_›)
      · simp only [I128.QuoChecked, U128.QuoChecked]
        rw [if_pos hnb, if_pos hnb]
        split_ifs <;>
          first
          | exact iff_of_true rfl (hkey.mp ‹_›)
          | exact iff_of_false (by simp) (fun h0 => absurd (hkey.mpr h0) ‹_›)
      · simp only [I128.RemChecked, I128.QuoRemChecked, U128.QuoRemChecked]
        rw [if_pos hnb, if_pos hnb]
        split_ifs <;>
          first
          | exact iff_of_true rfl (hkey.mp ‹_›)
          | exact iff_of_false (by simp) (fun h0 => absurd (hkey.mpr h0) ‹_›)
    · rw [if_neg hnb] at hkey
      refine ⟨?_, ?_, ?_⟩
      · simp only [I128.QuoRemChecked, U128.QuoRemChecked]
        rw [if_neg hnb, if_neg hnb]
        split_ifs <;>
          first
          | exact iff_of_true rfl (hkey.mp ‹_›)
          | exact iff_of_false (by simp) (fun h0 => absurd (hkey.mpr h0) ‹_›)
      · simp only [I128.QuoChecked, U128.QuoChecked]
        rw [if_neg hnb, if_neg hnb]
        split_ifs <;>
          first
          | exact iff_of_true rfl (hkey.mp ‹_›)
          | exact iff_of_false (by simp) (fun h0 => absurd (hkey.mpr h0) ‹_›)
      · simp only [I128.RemChecked, I128.QuoRemChecked, U128.QuoRemChecked]
        rw [if_neg hnb, if_neg hnb]
        split_ifs <;>
          first
          | exact iff_of_true rfl (hkey.mp ‹_›)
          | exact iff_of_false (by simp) (fun h0 => absurd (hkey.mpr h0) ‹_›)

theorem C4_divzero_panics_witness :
    ((U128.mk 0 9).QuoRemChecked (U128.mk 0 0) = none ↔ (U128.mk 0 0).toNat = 0) ∧
    ((I128.mk 0 9).QuoRemChecked (I128.mk 0 4) = none ↔ (I128.mk 0 4).intVal = 0) :=
  ⟨(C4_divzero_panics.1 (U128.mk 0 9) (U128.mk 0 0)).1,
    (C4_divzero_panics.2 (I128.mk 0 9) (I128.mk 0 4) (by decide) (by decide)).1⟩

/-- C5: the documented `MinI128` overflow fixpoints: negation and absolute
value return `MinI128` itself, and `MinI128.QuoRem(-1)` returns quotient
`MinI128` with remainder zero, with no division fault. -/
theorem C5_minI128_fixpoints :
    MinI128.Neg = MinI128 ∧ MinI128.Abs = MinI128 ∧
    MinI128.QuoRemChecked (I128From64 (-1)) = some (MinI128, zeroI128) := by
  decide

/-! ### Decimal strings and `big.Int` conversions (`u128.go`, `i128.go`)

`big.Int` is modelled by `Int`.  `natToDec`/`intToDec` model the decimal
formatting shared by `strconv.FormatUint(·, 10)` and `big.Int.String`;
`parseBigInt` models `new(big.Int).SetString(s, 10)`, which accepts an
optional sign followed by a nonempty run of decimal digits. -/

/-- One decimal digit as a character. -/
def digitChar (d : Nat) : Char := Char.ofNat (48 + d)

/-- Fuel-bounded decimal digits of `n`, most significant first. -/
def natToDecAux : Nat → Nat → List Char
  | 0, _ => []
  | f + 1, n =>
      if n < 10 then [digitChar n]
      else natToDecAux f (n / 10) ++ [digitChar (n % 10)]

/-- Decimal representation of a natural number. -/
def natToDec (n : Nat) : String := String.mk (natToDecAux (n + 1) n)

/-- Decimal representation of an integer (model of `big.Int.String`). -/
def intToDec (z : Int) : String :=
  if z < 0 then "-" ++ natToDec z.natAbs else natToDec z.natAbs

/-- Accumulator-style decimal parser for a digit run; `none` on any
non-digit character. -/
def parseDecAux : List Char → Nat → Option Nat
  | [], acc => some acc
  | c :: rest, acc =>
      if 48 ≤ c.toNat ∧ c.toNat ≤ 57 then
        parseDecAux rest (acc * 10 + (c.toNat - 48))
      else none

/-- A nonempty digit run parsed as a natural number. -/
def parseDec : List Char → Option Nat
  | [] => none
  | c :: rest => parseDecAux (c :: rest) 0

/-- Optional sign, then a nonempty digit run. -/
def parseSignedDec : List Char → Option Int
  | [] => none
  | c :: rest =>
      if c = '-' then (parseDec rest).map (fun n => -(n : Int))
      else if c = '+' then (parseDec rest).map (fun n => (n : Int))
      else (parseDec (c :: rest)).map (fun n => (n : Int))

/-- Model of `new(big.Int).SetString(s, 10)`; `none` is `ok == false`. -/
def parseBigInt (s : String) : Option Int :=
  parseSignedDec s.data

/-- `U128.AsBigInt` from `u128.go`: `IntoBigInt` stores the words `lo, hi`,
so the value is `hi*2^64 + lo`. -/
def U128.AsBigInt (u : U128) : Int := (u.toNat : Int)

/-- `U128FromBigInt` from `u128.go` (`intSize = 64`): `v.Bits()` is the
base-`2^64` magnitude of `v`, little-endian, with no leading zero word. -/
def U128FromBigInt (v : Int) : U128 × Bool :=
  if v < 0 then (⟨0, 0⟩, false)
  else if v.natAbs = 0 then (⟨0, 0⟩, true)
  else if v.natAbs < b64 then (⟨0, v.natAbs⟩, true)
  else if v.natAbs < b128 then (⟨v.natAbs / b64, v.natAbs % b64⟩, true)
  else (MaxU128, false)

/-- `U128FromString` from `u128.go`; `none` models the error return. -/
def U128FromString (s : String) : Option (U128 × Bool) :=
  (parseBigInt s).map U128FromBigInt

/-- `U128.String` from `u128.go`. -/
def U128.String (u : U128) : String :=
  if u = zeroU128 then "0"
  else if u.hi = 0 then natToDec u.lo
  else intToDec u.AsBigInt

/-- `maxI128AsU128` from `i128.go`. -/
def maxI128AsU128 : U128 := ⟨9223372036854775807, 18446744073709551615⟩

/-- `minI128AsAbsU128` from `i128.go`. -/
def minI128AsAbsU128 : U128 := ⟨9223372036854775808, 0⟩

/-- `I128.AsBigInt` from `i128.go`: build `hi*2^64 + lo`; when the sign bit
is set the result is `-(Xor(b, maxBigU128) + 1)`, with `maxBigU128 = 2^128-1`
from `consts.go`. -/
def I128.AsBigInt (i : I128) : Int :=
  if i.hi &&& signBit ≠ 0 then -(((i.toNat ^^^ (b128 - 1)) + 1 : Nat) : Int)
  else (i.toNat : Int)

/-- `I128.String` from `i128.go`. -/
def I128.String (i : I128) : String := intToDec i.AsBigInt

/-- The words `switch` of `I128FromBigInt` (`intSize = 64`): the magnitude
of `v` as a `U128` plus the pre-clamping `accurate` flag. -/
def i128Words (v : Int) : U128 × Bool :=
  if v.natAbs = 0 then (⟨0, 0⟩, true)
  else if v.natAbs < b64 then (⟨0, v.natAbs⟩, true)
  else if v.natAbs < b128 then (⟨v.natAbs / b64, v.natAbs % b64⟩, true)
  else (MaxU128, false)

/-- `I128FromBigInt` from `i128.go`. -/
def I128FromBigInt (v : Int) : I128 × Bool :=
  let u := (i128Words v).1
  let accurate := (i128Words v).2
  if ¬ v < 0 then
    if u.Cmp maxI128AsU128 = 0 then (MaxI128, accurate)
    else if u.Cmp maxI128AsU128 > 0 then (MaxI128, false)
    else (u.AsI128, accurate)
  else
    if u.Cmp minI128AsAbsU128 = 0 then (MinI128, accurate)
    else if u.Cmp minI128AsAbsU128 > 0 then (MinI128, false)
    else ((u.AsI128).Neg, accurate)

/-- `I128FromString` from `i128.go`; `none` models the error return. -/
def I128FromString (s : String) : Option (I128 × Bool) :=
  (parseBigInt s).map I128FromBigInt

theorem digitChar_toNat {d : Nat} (h : d < 10) : (digitChar d).toNat = 48 + d := by
  interval_cases d <;> rfl

theorem digitChar_ne_sign {d : Nat} (h : d < 10) :
    digitChar d ≠ '-' ∧ digitChar d ≠ '+' := by
  interval_cases d <;> exact ⟨by decide, by decide⟩

theorem parseDecAux_append (l1 l2 : List Char) (acc : Nat) :
    parseDecAux (l1 ++ l2) acc =
      match parseDecAux l1 acc with
      | none => none
      | some a => parseDecAux l2 a := by
  induction l1 generalizing acc with
  | nil => rfl
  | cons c rest ih =>
    simp only [List.cons_append, parseDecAux, List.append_eq]
    by_cases hc : 48 ≤ c.toNat ∧ c.toNat ≤ 57
    · rw [if_pos hc, if_pos hc, ih]
    · rw [if_neg hc, if_neg hc]

theorem natToDecAux_spec : ∀ f n, n < 10 ^ (f + 1) →
    natToDecAux (f + 1) n ≠ [] ∧
    (∀ c ∈ natToDecAux (f + 1) n, ∃ d, d < 10 ∧ c = digitChar d) ∧
    (∀ acc, parseDecAux (natToDecAux (f + 1) n) acc =
      some (acc * 10 ^ (natToDecAux (f + 1) n).length + n)) := by
  intro f
  induction f with
  | zero =>
    intro n hn
    have h10 : n < 10 := by norm_num at hn; exact hn
    refine ⟨by simp [natToDecAux, if_pos h10], ?_, ?_⟩
    · intro c hc
      simp only [natToDecAux, if_pos h10, List.mem_singleton] at hc
      exact ⟨n, h10, hc⟩
    · intro acc
      have hd := digitChar_toNat h10
      simp only [natToDecAux, if_pos h10, parseDecAux, hd]
      rw [if_pos (by omega)]
      simp only [parseDecAux, List.length_singleton]
      congr 1
      omega
  | succ f ih =>
    intro n hn
    by_cases h10 : n < 10
    · refine ⟨by simp [natToDecAux, if_pos h10], ?_, ?_⟩
      · intro c hc
        simp only [natToDecAux, if_pos h10, List.mem_singleton] at hc
        exact ⟨n, h10, hc⟩
      · intro acc
        have hd := digitChar_toNat h10
        simp only [natToDecAux, if_pos h10, parseDecAux, hd]
        rw [if_pos (by omega)]
        simp only [parseDecAux, List.length_singleton]
        congr 1
        omega
    · have hq : n / 10 < 10 ^ (f + 1) := by
        have : (10:Nat) ^ (f + 1 + 1) = 10 ^ (f + 1) * 10 := by ring
        omega
      obtain ⟨hne, hdig, hparse⟩ := ih (n / 10) hq
      have heq : natToDecAux (f + 1 + 1) n =
          natToDecAux (f + 1) (n / 10) ++ [digitChar (n % 10)] := by
        simp only [natToDecAux, if_neg h10]
      refine ⟨?_, ?_, ?_⟩
      · rw [heq]; simp
      · intro c hc
        rw [heq, List.mem_append] at hc
        rcases hc with hc | hc
        · exact hdig c hc
        · rw [List.mem_singleton] at hc
          exact ⟨n % 10, by omega, hc⟩
      · intro acc
        rw [heq, parseDecAux_append, hparse acc]
        have hd : (digitChar (n % 10)).toNat = 48 + n % 10 :=
          digitChar_toNat (by omega)
        simp only [parseDecAux, hd]
        rw [if_pos (by omega)]
        simp only [parseDecAux, List.length_append, List.length_singleton]
        congr 1
        have hdm := Nat.div_add_mod n 10
        have : 10 ^ ((natToDecAux (f + 1) (n / 10)).length + 1) =
            10 ^ (natToDecAux (f + 1) (n / 10)).length * 10 := by ring
        rw [this]
        set L := (natToDecAux (f + 1) (n / 10)).length
        ring_nf
        omega

theorem natToDec_spec (n : Nat) :
    (natToDec n).data ≠ [] ∧
    (∀ c ∈ (natToDec n).data, ∃ d, d < 10 ∧ c = digitChar d) ∧
    parseDec (natToDec n).data = some n := by
  have hn : n < 10 ^ (n + 1) := by
    calc n < 2 ^ n := Nat.lt_two_pow n
    _ ≤ 10 ^ n := Nat.pow_le_pow_left (by norm_num) n
    _ ≤ 10 ^ (n + 1) := Nat.pow_le_pow_right (by norm_num) (Nat.le_succ n)
  obtain ⟨hne, hdig, hparse⟩ := natToDecAux_spec n n hn
  have hdata : (natToDec n).data = natToDecAux (n + 1) n := rfl
  refine ⟨by rw [hdata]; exact hne, by rw [hdata]; exact hdig, ?_⟩
  rw [hdata]
  match hl : natToDecAux (n + 1) n with
  | [] => exact absurd hl hne
  | c :: rest =>
    have := hparse 0
    rw [hl] at this
    simp only [parseDec, this, Nat.zero_mul, Nat.zero_add]

theorem parseBigInt_natToDec (n : Nat) : parseBigInt (natToDec n) = some (n : Int) := by
  obtain ⟨hne, hdig, hparse⟩ := natToDec_spec n
  match hl : (natToDec n).data with
  | [] => exact absurd hl hne
  | c :: rest =>
    have hc : ∃ d, d < 10 ∧ c = digitChar d := by
      apply hdig; rw [hl]; exact List.mem_cons_self c rest
    obtain ⟨d, hd, hcd⟩ := hc
    obtain ⟨hm, hp⟩ := digitChar_ne_sign hd
    rw [parseBigInt, hl]
    simp only [parseSignedDec]
    rw [if_neg (hcd ▸ hm), if_neg (hcd ▸ hp)]
    rw [hl] at hparse
    rw [hparse]
    rfl

theorem parseBigInt_intToDec (z : Int) : parseBigInt (intToDec z) = some z := by
  by_cases hz : z < 0
  · rw [intToDec, if_pos hz]
    obtain ⟨hne, hdig, hparse⟩ := natToDec_spec z.natAbs
    have hdata : ("-" ++ natToDec z.natAbs).data = '-' :: (natToDec z.natAbs).data := by
      simp [String.data_append]
    rw [parseBigInt, hdata]
    simp only [parseSignedDec, if_pos rfl]
    rw [hparse]
    show Option.map (fun n => -(n : Int)) (some z.natAbs) = some z
    simp only [Option.map]
    congr 1
    omega
  · rw [intToDec, if_neg hz, parseBigInt_natToDec]
    congr 1
    omega

theorem xor_pred_two_pow : ∀ (n : Nat), ∀ b, b < 2 ^ n →
    b ^^^ (2 ^ n - 1) = 2 ^ n - 1 - b := by
  intro n
  induction n with
  | zero => intro b hb; interval_cases b; rfl
  | succ n ih =>
    intro b hb
    have hq : b / 2 < 2 ^ n := by
      have h2 : 2 ^ (n + 1) = 2 * 2 ^ n := by ring
      omega
    have ihq := ih (b / 2) hq
    have hdiv : (b ^^^ (2 ^ (n + 1) - 1)) / 2 = (b / 2) ^^^ (2 ^ n - 1) := by
      rw [Nat.xor_div_two]
      congr 1
      have h2 : 2 ^ (n + 1) = 2 * 2 ^ n := by ring
      omega
    have hmod : (b ^^^ (2 ^ (n + 1) - 1)) % 2 = (b + (2 ^ (n + 1) - 1)) % 2 :=
      Nat.xor_mod_two_eq
    have hx := Nat.div_add_mod (b ^^^ (2 ^ (n + 1) - 1)) 2
    have h2 : 2 ^ (n + 1) = 2 * 2 ^ n := by ring
    have hpos : 0 < 2 ^ n := Nat.pos_pow_of_pos n (by norm_num)
    rw [hdiv, ihq] at hx
    omega

theorem I128.eq_of_raw_eq {x y : I128} (hx : x.norm) (hy : y.norm)
    (h : x.toNat = y.toNat) : x = y := by
  obtain ⟨h1, h2⟩ := hx
  obtain ⟨h3, h4⟩ := hy
  simp only [I128.toNat, b64] at *
  exact I128.eq_of_limbs (by omega) (by omega)

/-- `AsBigInt` agrees with the two's-complement signed value. -/
theorem I128.AsBigInt_eq (i : I128) (h : i.norm) : i.AsBigInt = i.intVal := by
  have hlt : i.toNat < 340282366920938463463374607431768211456 :=
    I128.toNat_lt_b128 i h
  rw [I128.AsBigInt, I128.intVal]
  by_cases hsb : signBit ≤ i.hi
  · rw [if_pos ((and_signBit i.hi h.1).mpr hsb), if_pos hsb]
    have h2 : (2:Nat) ^ 128 = b128 := by norm_num
    have hx := xor_pred_two_pow 128 i.toNat (by rw [h2]; exact hlt)
    rw [h2] at hx
    rw [hx]
    simp only [b128]
    omega
  · rw [if_neg (fun hc => hsb ((and_signBit i.hi h.1).mp hc)), if_neg hsb]

theorem U128FromBigInt_roundtrip (u : U128) (h : u.norm) :
    U128FromBigInt u.AsBigInt = (u, true) := by
  have hlt : u.toNat < b128 := U128.toNat_lt u h
  rw [U128.AsBigInt, U128FromBigInt]
  rw [if_neg (by omega : ¬ ((u.toNat : Int) < 0))]
  have habs : ((u.toNat : Int)).natAbs = u.toNat := Int.natAbs_ofNat _
  rw [habs]
  by_cases h0 : u.toNat = 0
  · rw [if_pos h0]
    have hxt : (⟨0, 0⟩ : U128).toNat = u.toNat := by rw [h0]; decide
    have he := U128.eq_of_toNat_eq (by decide) h hxt
    rw [he]
  · rw [if_neg h0]
    by_cases hsm : u.toNat < b64
    · rw [if_pos hsm]
      have hxn : (⟨0, u.toNat⟩ : U128).norm := ⟨by norm_num, hsm⟩
      have hxt : (⟨0, u.toNat⟩ : U128).toNat = u.toNat := by
        show 0 * b64 + u.toNat = u.toNat
        omega
      have he := U128.eq_of_toNat_eq hxn h hxt
      rw [he]
    · rw [if_neg hsm, if_pos hlt]
      have hxn : (⟨u.toNat / b64, u.toNat % b64⟩ : U128).norm := by
        constructor
        · show u.toNat / b64 < b64
          simp only [b64, b128] at hlt ⊢
          omega
        · show u.toNat % b64 < b64
          simp only [b64]
          omega
      have hxt : (⟨u.toNat / b64, u.toNat % b64⟩ : U128).toNat = u.toNat := by
        show u.toNat / b64 * b64 + u.toNat % b64 = u.toNat
        simp only [b64]
        omega
      have he := U128.eq_of_toNat_eq hxn h hxt
      rw [he]

/-- The decimal string of a `U128` parses back to its big-int value. -/
theorem parseBigInt_u128String (u : U128) :
    parseBigInt u.String = some u.AsBigInt := by
  rw [U128.String]
  by_cases h0 : u = zeroU128
  · rw [if_pos h0, h0]
    decide
  · rw [if_neg h0]
    by_cases hh : u.hi = 0
    · rw [if_pos hh, parseBigInt_natToDec]
      simp only [U128.AsBigInt, U128.toNat, hh, Nat.zero_mul, Nat.zero_add]
    · rw [if_neg hh, parseBigInt_intToDec]

theorem U128FromString_roundtrip (u : U128) (h : u.norm) :
    U128FromString u.String = some (u, true) := by
  rw [U128FromString, parseBigInt_u128String u]
  show Option.map U128FromBigInt (some u.AsBigInt) = some (u, true)
  simp only [Option.map]
  rw [U128FromBigInt_roundtrip u h]

/-- The words `switch` reproduces the magnitude exactly when it fits. -/
theorem i128Words_spec (v : Int) (h : v.natAbs < b128) :
    (i128Words v).1.toNat = v.natAbs ∧ (i128Words v).1.norm ∧
      (i128Words v).2 = true := by
  rw [i128Words]
  by_cases h0 : v.natAbs = 0
  · rw [if_pos h0]
    refine ⟨?_, by decide, rfl⟩
    show 0 * b64 + 0 = v.natAbs
    omega
  · rw [if_neg h0]
    by_cases h1 : v.natAbs < b64
    · rw [if_pos h1]
      refine ⟨?_, ⟨by norm_num, h1⟩, rfl⟩
      show 0 * b64 + v.natAbs = v.natAbs
      omega
    · rw [if_neg h1, if_pos h]
      refine ⟨?_, ⟨?_, ?_⟩, rfl⟩
      · show v.natAbs / b64 * b64 + v.natAbs % b64 = v.natAbs
        simp only [b64]
        omega
      · show v.natAbs / b64 < b64
        simp only [b64, b128] at h ⊢
        omega
      · show v.natAbs % b64 < b64
        simp only [b64]
        omega

theorem I128FromBigInt_roundtrip (i : I128) (h : i.norm) :
    I128FromBigInt i.AsBigInt = (i, true) := by
  rw [I128.AsBigInt_eq i h]
  have hlt : i.toNat < 340282366920938463463374607431768211456 :=
    I128.toNat_lt_b128 i h
  have hiv := I128.intVal_eq i h
  by_cases hsb : 170141183460469231731687303715884105728 ≤ i.toNat
  · rw [if_pos hsb] at hiv
    have hneg : i.intVal < 0 := by omega
    have habs : i.intVal.natAbs = 340282366920938463463374607431768211456 - i.toNat := by
      omega
    obtain ⟨hwt, hwn, hwa⟩ := i128Words_spec i.intVal (by simp only [b128]; omega)
    simp only [I128FromBigInt]
    rw [if_neg (not_not_intro hneg), hwa]
    set x := (i128Words i.intVal).1 with hxdef
    clear_value x
    by_cases hmin : i.toNat = 170141183460469231731687303715884105728
    · have hxt : x.toNat = 170141183460469231731687303715884105728 := by omega
      have hxl : x.hi = 9223372036854775808 ∧ x.lo = 0 := by
        obtain ⟨hx1, hx2⟩ := hwn
        simp only [U128.toNat, b64] at hxt hx1 hx2
        omega
      have hcmp : x.Cmp minI128AsAbsU128 = 0 := by
        rw [U128.Cmp_eq_zero]
        exact ⟨by rw [hxl.1]; rfl, by rw [hxl.2]; rfl⟩
      rw [if_pos hcmp]
      have hei : i = MinI128 := by
        apply I128.eq_of_raw_eq h (by decide)
        rw [hmin]
        decide
      rw [hei]
    · have hmt : minI128AsAbsU128.toNat = 170141183460469231731687303715884105728 := by
        decide
      have hclt : x.Cmp minI128AsAbsU128 < 0 :=
        (U128.Cmp_lt x minI128AsAbsU128 hwn (by decide)).mpr (by omega)
      rw [if_neg (by omega), if_neg (by omega)]
      have hnn := I128.Neg_toNat (x.AsI128) (U128.AsI128_norm x hwn)
      rw [U128.AsI128_toNat] at hnn
      have hei : (x.AsI128).Neg = i := I128.eq_of_raw_eq hnn.2 h (by
        rw [hnn.1]
        omega)
      rw [hei]
  · rw [if_neg hsb] at hiv
    have hpos : ¬ i.intVal < 0 := by omega
    have habs : i.intVal.natAbs = i.toNat := by omega
    obtain ⟨hwt, hwn, hwa⟩ := i128Words_spec i.intVal (by simp only [b128]; omega)
    simp only [I128FromBigInt]
    rw [if_pos hpos, hwa]
    set x := (i128Words i.intVal).1 with hxdef
    clear_value x
    by_cases hmax : i.toNat = 170141183460469231731687303715884105727
    · have hxt : x.toNat = 170141183460469231731687303715884105727 := by omega
      have hxl : x.hi = 9223372036854775807 ∧ x.lo = 18446744073709551615 := by
        obtain ⟨hx1, hx2⟩ := hwn
        simp only [U128.toNat, b64] at hxt hx1 hx2
        omega
      have hcmp : x.Cmp maxI128AsU128 = 0 := by
        rw [U128.Cmp_eq_zero]
        exact ⟨by rw [hxl.1]; rfl, by rw [hxl.2]; rfl⟩
      rw [if_pos hcmp]
      have hei : i = MaxI128 := by
        apply I128.eq_of_raw_eq h (by decide)
        rw [hmax]
        decide
      rw [hei]
    · have hmt : maxI128AsU128.toNat = 170141183460469231731687303715884105727 := by
        decide
      have hclt : x.Cmp maxI128AsU128 < 0 :=
        (U128.Cmp_lt x maxI128AsU128 hwn (by decide)).mpr (by omega)
      rw [if_neg (by omega), if_neg (by omega)]
      have hei : x.AsI128 = i := by
        apply I128.eq_of_raw_eq (U128.AsI128_norm x hwn) h
        rw [U128.AsI128_toNat]
        omega
      rw [hei]

theorem I128FromString_roundtrip (i : I128) (h : i.norm) :
    I128FromString i.String = some (i, true) := by
  rw [I128FromString, I128.String, parseBigInt_intToDec]
  show Option.map I128FromBigInt (some i.AsBigInt) = some (i, true)
  simp only [Option.map]
  rw [I128FromBigInt_roundtrip i h]

/-- C6: for every representable value, printing the decimal string and
parsing it back returns the same value, with no error and `accurate = true`;
likewise converting to a big integer and back yields `(v, true)` — for every
`U128` and every `I128`, including `MinI128`. -/
theorem C6_roundtrips :
    (∀ u : U128, u.norm →
      U128FromString u.String = some (u, true) ∧
      U128FromBigInt u.AsBigInt = (u, true)) ∧
    (∀ i : I128, i.norm →
      I128FromString i.String = some (i, true) ∧
      I128FromBigInt i.AsBigInt = (i, true)) :=
  ⟨fun u hu => ⟨U128FromString_roundtrip u hu, U128FromBigInt_roundtrip u hu⟩,
   fun i hi => ⟨I128FromString_roundtrip i hi, I128FromBigInt_roundtrip i hi⟩⟩

theorem C6_roundtrips_witness :
    (U128.mk 0 7).norm ∧ MinI128.norm ∧
    U128FromString (U128.mk 0 7).String = some (U128.mk 0 7, true) ∧
    I128FromBigInt MinI128.AsBigInt = (MinI128, true) :=
  ⟨by decide, by decide,
   (C6_roundtrips.1 (U128.mk 0 7) (by decide)).1,
   (C6_roundtrips.2 MinI128 (by decide)).2⟩
